import Mathlib

/-!
# SingleLinkedList: a memory-level model of `single-linked-list.h`

The container is a pointer structure, so the model keeps an explicit memory:

* `Memory.node` holds every live `Node` object.  A list object living at address
  `self` keeps its `head_` member (the sentinel) at node address `self`; heap nodes
  made by `new Node(..)` live at the address the allocator returned.
* `Memory.size_` holds the `size_` member of the list object at that address.
* A `Node*` (and therefore an iterator, which only wraps a `Node*`) is a `NodePtr`:
  `none` is `nullptr`.

Addresses are 64-bit, and `size_t` arithmetic wraps at `2 ^ 64` (`++size_`, `--size_`
and the conversion of the count of `std::distance` to `size_t`).

The allocator is an input of every allocating operation: `PushFront` and
`InsertAfter` receive the answer of their single `new` (`none` is `std::bad_alloc`),
`BuildList` receives the addresses the allocator will hand out, in order (running out
of them is `std::bad_alloc`).  Dereferencing `nullptr` or a released node is undefined
behaviour (`Outcome.undefined`, `Eval.undefined`).  Loops over the node chain take a fuel
argument and report `out_of_fuel` when it does not suffice; the theorems give the fuel
that does.  The three standard algorithms the header calls (`std::distance`,
`std::equal`, `std::swap`) are modelled by their loops on forward iterators.

Layout of the file: the model of the header, then the predicates used to state
properties (`Seg`, `IsList`, `Valid`, `Built`, ..), then lemmas, then the theorems about
the specification, each with its claim number.
-/

namespace SingleLinkedList

/-- Width of `size_t` and of addresses. -/
def SIZE_MAX_PLUS_ONE : Nat := 18446744073709551616

/-- Numerals are addresses. -/
instance SIZE_MAX_PLUS_ONE.neZero : NeZero SIZE_MAX_PLUS_ONE := ⟨by decide⟩

/-- Address of a live object. -/
abbrev Addr := Fin SIZE_MAX_PLUS_ONE

/-- The type `Node*`; `none` is `nullptr`. -/
abbrev NodePtr := Option Addr

/-- The struct `Node`: `value` and `next_node`. -/
structure Node (T : Type) where
  value : T
  next_node : NodePtr
deriving DecidableEq

/-- Program memory: the live `Node` objects and the `size_` members. -/
structure Memory (T : Type) where
  node : Addr → Option (Node T)
  size_ : Addr → Nat

/-- Memory with no live object. -/
def Memory.empty (T : Type) : Memory T := ⟨fun _ => none, fun _ => 0⟩

/-- Result of a mutating operation: normal return with the new memory and the returned
value; `std::bad_alloc` thrown, with the memory left behind; undefined behaviour; or not
enough fuel. -/
inductive Outcome (T : Type) (α : Type) where
  | ok (m : Memory T) (r : α)
  | bad_alloc (m : Memory T)
  | undefined
  | out_of_fuel

/-- Result of a read-only computation: a value, undefined behaviour, or not enough
fuel. -/
inductive Eval (α : Type) where
  | val (r : α)
  | undefined
  | out_of_fuel
deriving DecidableEq

/-- Store (or, with `none`, release) the node object at address `a`. -/
def setNode {T : Type} (m : Memory T) (a : Addr) (n : Option (Node T)) : Memory T :=
  ⟨fun x => if x = a then n else m.node x, m.size_⟩

/-- The assignment `a->next_node = p`; `none` when `a` is not a live node. -/
def setNext {T : Type} (m : Memory T) (a : Addr) (p : NodePtr) : Option (Memory T) :=
  match m.node a with
  | none => none
  | some n => some (setNode m a (some ⟨n.value, p⟩))

/-- The assignment `size_ = s` in the list object at `self`. -/
def setSize {T : Type} (m : Memory T) (self : Addr) (s : Nat) : Memory T :=
  ⟨m.node, fun x => if x = self then s else m.size_ x⟩

/-- `BasicIterator::operator++`: `node_ = node_->next_node`. -/
def iter_next {T : Type} (m : Memory T) (it : NodePtr) : Eval NodePtr :=
  match it with
  | none => .undefined
  | some a =>
    match m.node a with
    | none => .undefined
    | some n => .val n.next_node

/-- `BasicIterator::operator*`: `node_->value`. -/
def iter_deref {T : Type} (m : Memory T) (it : NodePtr) : Eval T :=
  match it with
  | none => .undefined
  | some a =>
    match m.node a with
    | none => .undefined
    | some n => .val n.value

/-- `BasicIterator::operator==`: `node_ == rhs.node_`. -/
def iter_eq (a b : NodePtr) : Bool := a == b

/-- `BasicIterator::operator!=`. -/
def iter_ne (a b : NodePtr) : Bool := !(iter_eq a b)

/-- `GetSize`: `return size_`. -/
def GetSize {T : Type} (m : Memory T) (self : Addr) : Nat := m.size_ self

/-- `IsEmpty`: `return !size_`. -/
def IsEmpty {T : Type} (m : Memory T) (self : Addr) : Bool := m.size_ self == 0

/-- Default constructor: `head_ = Node()`, `size_ = 0`, for a list object at `self`. -/
def Construct {T : Type} [Inhabited T] (m : Memory T) (self : Addr) : Memory T :=
  setSize (setNode m self (some ⟨default, none⟩)) self 0

/-- `PushFront(value)`; `fresh` is the answer of `new`. -/
def PushFront {T : Type} (m : Memory T) (self : Addr) (value : T) (fresh : Option Addr) :
    Outcome T Unit :=
  match m.node self with
  | none => .undefined
  | some head_ =>
    match fresh with
    | none => .bad_alloc m
    | some a =>
      -- head_.next_node = new Node(value, head_.next_node);
      match setNext (setNode m a (some ⟨value, head_.next_node⟩)) self (some a) with
      | none => .undefined
      | some m2 =>
        -- ++size_;
        .ok (setSize m2 self ((m2.size_ self + 1) % SIZE_MAX_PLUS_ONE)) ()

/-- `PopFront()`. -/
def PopFront {T : Type} (m : Memory T) (self : Addr) : Outcome T Unit :=
  match m.node self with
  | none => .undefined
  | some head_ =>
    -- Node* front_node = head_.next_node;
    match head_.next_node with
    | none => .undefined
    | some front_node =>
      -- Node* next_front_node = front_node->next_node;
      match m.node front_node with
      | none => .undefined
      | some fn =>
        -- delete front_node; head_.next_node = next_front_node;
        match setNext (setNode m front_node none) self fn.next_node with
        | none => .undefined
        | some m2 =>
          -- --size_;
          .ok (setSize m2 self ((m2.size_ self + SIZE_MAX_PLUS_ONE - 1) % SIZE_MAX_PLUS_ONE)) ()

/-- `InsertAfter(pos, value)`; `fresh` is the answer of `new`.  Returns the iterator. -/
def InsertAfter {T : Type} (m : Memory T) (self : Addr) (pos : NodePtr) (value : T)
    (fresh : Option Addr) : Outcome T NodePtr :=
  match pos with
  | none => .undefined
  | some p =>
    -- Node* pos_after_insert = pos.node_->next_node;
    match m.node p with
    | none => .undefined
    | some pn =>
      match fresh with
      | none => .bad_alloc m
      | some a =>
        -- pos.node_->next_node = new Node(value, pos_after_insert);
        match setNext (setNode m a (some ⟨value, pn.next_node⟩)) p (some a) with
        | none => .undefined
        | some m2 =>
          -- ++size_;
          let m3 := setSize m2 self ((m2.size_ self + 1) % SIZE_MAX_PLUS_ONE)
          -- return Iterator(pos.node_->next_node);
          match m3.node p with
          | none => .undefined
          | some pn3 => .ok m3 pn3.next_node

/-- `EraseAfter(pos)`.  Returns the iterator. -/
def EraseAfter {T : Type} (m : Memory T) (self : Addr) (pos : NodePtr) : Outcome T NodePtr :=
  match pos with
  | none => .undefined
  | some p =>
    -- Node* pos_to_remove = pos.node_->next_node;
    match m.node p with
    | none => .undefined
    | some pn =>
      match pn.next_node with
      | none => .undefined
      | some pos_to_remove =>
        -- Node* pos_after_remove = pos_to_remove->next_node;
        match m.node pos_to_remove with
        | none => .undefined
        | some rn =>
          -- delete pos_to_remove; pos.node_->next_node = pos_after_remove;
          match setNext (setNode m pos_to_remove none) p rn.next_node with
          | none => .undefined
          | some m2 =>
            -- --size_; return Iterator(pos_after_remove);
            .ok (setSize m2 self ((m2.size_ self + SIZE_MAX_PLUS_ONE - 1) % SIZE_MAX_PLUS_ONE))
              rn.next_node

/-- `Clear()`: the `while (head_.next_node)` loop, then `size_ = 0`. -/
def Clear {T : Type} : Nat → Memory T → Addr → Outcome T Unit
  | 0, _, _ => .out_of_fuel
  | fuel + 1, m, self =>
    match m.node self with
    | none => .undefined
    | some head_ =>
      match head_.next_node with
      | none => .ok (setSize m self 0) ()
      | some nx =>
        -- Node* node_after_next = head_.next_node->next_node;
        match m.node nx with
        | none => .undefined
        | some n =>
          -- delete head_.next_node; head_.next_node = node_after_next;
          match setNext (setNode m nx none) self n.next_node with
          | none => .undefined
          | some m2 => Clear fuel m2 self

/-- Member `swap(other)`: exchanges `head_.next_node` and `size_`. -/
def swap {T : Type} (m : Memory T) (self other : Addr) : Outcome T Unit :=
  match m.node self, m.node other with
  | some h1, some h2 =>
    -- std::swap(head_.next_node, other.head_.next_node);
    let m1 := setNode m self (some ⟨h1.value, h2.next_node⟩)
    let m2 := setNode m1 other (some ⟨h2.value, h1.next_node⟩)
    -- std::swap(size_, other.size_);
    .ok (setSize (setSize m2 self (m.size_ other)) other (m.size_ self)) ()
  | _, _ => .undefined

/-- The free function `swap(lhs, rhs)`: `lhs.swap(rhs)`. -/
def swap_free {T : Type} (m : Memory T) (lhs rhs : Addr) : Outcome T Unit := swap m lhs rhs

/-- `begin()`: `Iterator(head_.next_node)`. -/
def begin {T : Type} (m : Memory T) (self : Addr) : Eval NodePtr :=
  match m.node self with
  | none => .undefined
  | some head_ => .val head_.next_node

/-- `before_begin()`: `Iterator(&head_)`. -/
def before_begin (self : Addr) : NodePtr := some self

/-- The `while (curr_node)` loop of `FindListEnd`. -/
def FindListEnd_loop {T : Type} : Nat → Memory T → NodePtr → Eval NodePtr
  | 0, _, _ => .out_of_fuel
  | fuel + 1, m, curr_node =>
    match curr_node with
    | none => .val curr_node
    | some a =>
      match m.node a with
      | none => .undefined
      | some n => FindListEnd_loop fuel m n.next_node

/-- `FindListEnd()`. -/
def FindListEnd {T : Type} (fuel : Nat) (m : Memory T) (self : Addr) : Eval NodePtr :=
  match m.node self with
  | none => .undefined
  | some head_ => FindListEnd_loop fuel m head_.next_node

/-- `end()`: `Iterator(FindListEnd())`. -/
def end_ {T : Type} (fuel : Nat) (m : Memory T) (self : Addr) : Eval NodePtr :=
  FindListEnd fuel m self

/-- Destructor `~SingleLinkedList() { Clear(); }`, followed by the end of the object. -/
def Destroy {T : Type} (fuel : Nat) (m : Memory T) (self : Addr) : Outcome T Unit :=
  match Clear fuel m self with
  | .ok m1 _ => .ok (setNode m1 self none) ()
  | .bad_alloc m1 => .bad_alloc m1
  | .undefined => .undefined
  | .out_of_fuel => .out_of_fuel

/-- Continue a mutating computation with the result of a read-only one. -/
def Eval.run {T α β : Type} (e : Eval α) (k : α → Outcome T β) : Outcome T β :=
  match e with
  | .val r => k r
  | .undefined => .undefined
  | .out_of_fuel => .out_of_fuel

/-- Sequencing of read-only computations. -/
def Eval.andThen {α β : Type} (e : Eval α) (k : α → Eval β) : Eval β :=
  match e with
  | .val r => k r
  | .undefined => .undefined
  | .out_of_fuel => .out_of_fuel

/-- Leaving the scope of the local `temp` (at `tmp`): its destructor runs, also when an
exception passes through, and the exception is then rethrown. -/
def leaveScope {T : Type} (fuel : Nat) (tmp : Addr) (o : Outcome T Unit) : Outcome T Unit :=
  match o with
  | .ok m _ => Destroy fuel m tmp
  | .bad_alloc m =>
    match Destroy fuel m tmp with
    | .ok m1 _ => .bad_alloc m1
    | other => other
  | .undefined => .undefined
  | .out_of_fuel => .out_of_fuel

/-- Loop of `std::distance(first, last)` on forward iterators: count the `++first` steps
until `first == last`. -/
def std_distance {T : Type} : Nat → Memory T → NodePtr → NodePtr → Nat → Eval Nat
  | 0, _, _, _, _ => .out_of_fuel
  | fuel + 1, m, first, last, n =>
    if first = last then .val n
    else (iter_next m first).andThen fun first1 => std_distance fuel m first1 last (n + 1)

/-- The `for` loop of `BuildList` when the container is a `SingleLinkedList` at `c`:
`it` is the loop iterator, `curr_node` the last node of `temp` built so far. -/
def BuildList_loop {T : Type} :
    Nat → Memory T → Addr → NodePtr → Addr → List Addr → Outcome T Unit
  | 0, _, _, _, _, _ => .out_of_fuel
  | fuel + 1, m, c, it, curr_node, fresh =>
    -- it != c.end()
    (end_ fuel m c).run fun e =>
      if it = e then .ok m ()
      else
        (iter_deref m it).run fun v =>
          match fresh with
          | [] => .bad_alloc m
          | a :: fresh1 =>
            -- curr_node->next_node = new Node(*it, nullptr);
            match setNext (setNode m a (some ⟨v, none⟩)) curr_node (some a) with
            | none => .undefined
            | some m2 =>
              -- curr_node = curr_node->next_node; ++it
              (iter_next m2 it).run fun it1 => BuildList_loop fuel m2 c it1 a fresh1

/-- `BuildList(c)` for a `SingleLinkedList` container at `c`.  `tmp` is the address of
the local `temp`, `fresh` the addresses `new` will return. -/
def BuildList {T : Type} [Inhabited T] (fuel : Nat) (m : Memory T) (self c tmp : Addr)
    (fresh : List Addr) : Outcome T Unit :=
  -- if (this == reinterpret_cast<const SingleLinkedList*>(&c)) return;
  if self = c then .ok m ()
  else
    -- SingleLinkedList temp; Node* curr_node = &temp.head_;
    let m0 := Construct m tmp
    leaveScope fuel tmp <|
      (begin m0 c).run fun it =>
        match BuildList_loop fuel m0 c it tmp fresh with
        | .ok m1 _ =>
          -- temp.size_ = std::distance(c.begin(), c.end());
          (begin m1 c).run fun b =>
            (end_ fuel m1 c).run fun e =>
              (std_distance fuel m1 b e 0).run fun n =>
                -- swap(temp);
                swap (setSize m1 tmp (n % SIZE_MAX_PLUS_ONE)) self tmp
        | other => other

/-- The `for` loop of `BuildList` when the container is a `std::initializer_list`:
`values` is the range from `it` to `c.end()`. -/
def BuildList_il_loop {T : Type} : Memory T → List T → Addr → List Addr → Outcome T Unit
  | m, [], _, _ => .ok m ()
  | m, v :: rest, curr_node, fresh =>
    match fresh with
    | [] => .bad_alloc m
    | a :: fresh1 =>
      -- curr_node->next_node = new Node(*it, nullptr);
      match setNext (setNode m a (some ⟨v, none⟩)) curr_node (some a) with
      | none => .undefined
      | some m2 => BuildList_il_loop m2 rest a fresh1

/-- `BuildList(c)` for a `std::initializer_list` holding `values`.  The list object is
never the initializer list itself, so the address test fails. -/
def BuildList_il {T : Type} [Inhabited T] (fuel : Nat) (m : Memory T) (self : Addr)
    (values : List T) (tmp : Addr) (fresh : List Addr) : Outcome T Unit :=
  let m0 := Construct m tmp
  leaveScope fuel tmp <|
    match BuildList_il_loop m0 values tmp fresh with
    | .ok m1 _ =>
      -- temp.size_ = std::distance(c.begin(), c.end()); swap(temp);
      swap (setSize m1 tmp (values.length % SIZE_MAX_PLUS_ONE)) self tmp
    | other => other

/-- An exception leaving a constructor: the object at `self` never comes to life. -/
def ctorBody {T : Type} (self : Addr) (o : Outcome T Unit) : Outcome T Unit :=
  match o with
  | .bad_alloc m => .bad_alloc (setNode m self none)
  | other => other

/-- `SingleLinkedList(std::initializer_list<Type> values) { BuildList(values); }`. -/
def ConstructInit {T : Type} [Inhabited T] (fuel : Nat) (m : Memory T) (self : Addr)
    (values : List T) (tmp : Addr) (fresh : List Addr) : Outcome T Unit :=
  ctorBody self (BuildList_il fuel (Construct m self) self values tmp fresh)

/-- `SingleLinkedList(const SingleLinkedList& other) { BuildList(other); }`. -/
def ConstructCopy {T : Type} [Inhabited T] (fuel : Nat) (m : Memory T) (self other tmp : Addr)
    (fresh : List Addr) : Outcome T Unit :=
  ctorBody self (BuildList fuel (Construct m self) self other tmp fresh)

/-- `operator=(rhs)`: `return BuildList(rhs), *this;` (the result is the address of
`*this`). -/
def assign {T : Type} [Inhabited T] (fuel : Nat) (m : Memory T) (self rhs tmp : Addr)
    (fresh : List Addr) : Outcome T Addr :=
  match BuildList fuel m self rhs tmp fresh with
  | .ok m1 _ => .ok m1 self
  | .bad_alloc m1 => .bad_alloc m1
  | .undefined => .undefined
  | .out_of_fuel => .out_of_fuel

/-- Loop of `std::equal(first1, last1, first2)`, with the element `==` as `eq`. -/
def std_equal {T : Type} (eq : T → T → Bool) :
    Nat → Memory T → NodePtr → NodePtr → NodePtr → Eval Bool
  | 0, _, _, _, _ => .out_of_fuel
  | fuel + 1, m, first1, last1, first2 =>
    if first1 = last1 then .val true
    else
      (iter_deref m first1).andThen fun x =>
        (iter_deref m first2).andThen fun y =>
          if eq x y then
            (iter_next m first1).andThen fun n1 =>
              (iter_next m first2).andThen fun n2 => std_equal eq fuel m n1 last1 n2
          else .val false

/-- `operator==`: `GetSize() == rhs.GetSize() && std::equal(begin(), end(), rhs.begin())`. -/
def operator_eq {T : Type} (eq : T → T → Bool) (fuel : Nat) (m : Memory T) (self rhs : Addr) :
    Eval Bool :=
  if GetSize m self = GetSize m rhs then
    (begin m self).andThen fun b =>
      (end_ fuel m self).andThen fun e =>
        (begin m rhs).andThen fun rb => std_equal eq fuel m b e rb
  else .val false

/-- `operator!=`: `!(*this == rhs)`. -/
def operator_ne {T : Type} (eq : T → T → Bool) (fuel : Nat) (m : Memory T) (self rhs : Addr) :
    Eval Bool :=
  (operator_eq eq fuel m self rhs).andThen fun r => .val (!r)

/-- The loop `for (auto it = begin(); it != end(); ++it)` collecting `*it`: the
traversal of the list at `self`. -/
def traverse_loop {T : Type} : Nat → Memory T → Addr → NodePtr → Eval (List T)
  | 0, _, _, _ => .out_of_fuel
  | fuel + 1, m, self, it =>
    (end_ fuel m self).andThen fun e =>
      if it = e then .val []
      else
        (iter_deref m it).andThen fun v =>
          (iter_next m it).andThen fun it1 =>
            (traverse_loop fuel m self it1).andThen fun rest => .val (v :: rest)

/-- Traversal of the list at `self` from `begin()` to `end()`. -/
def traverse {T : Type} (fuel : Nat) (m : Memory T) (self : Addr) : Eval (List T) :=
  (begin m self).andThen fun b => traverse_loop fuel m self b

/-- Pointer to the first node of the chain `ns`, or `p` when the chain is empty. -/
def headOr {T : Type} (ns : List (Addr × T)) (p : NodePtr) : NodePtr :=
  match ns with
  | [] => p
  | n :: _ => some n.1

/-- The nodes `ns` (address and value, front to back) are live and linked in this order,
and the link of the last one is `p`. -/
def Seg {T : Type} (m : Memory T) : List (Addr × T) → NodePtr → Prop
  | [], _ => True
  | n :: rest, p => m.node n.1 = some ⟨n.2, headOr rest p⟩ ∧ Seg m rest p

/-- The list object at `self` is alive and its sentinel heads the null-terminated chain
`ns`. -/
def IsList {T : Type} (m : Memory T) (self : Addr) (ns : List (Addr × T)) : Prop :=
  (m.node self).map Node.next_node = some (headOr ns none) ∧ Seg m ns none

/-- `IsList` together with the cached size. -/
def Valid {T : Type} (m : Memory T) (self : Addr) (ns : List (Addr × T)) : Prop :=
  IsList m self ns ∧ m.size_ self = ns.length

/-- Addresses of a chain. -/
def addrs {T : Type} (ns : List (Addr × T)) : List Addr := ns.map Prod.fst

/-- Values of a chain. -/
def vals {T : Type} (ns : List (Addr × T)) : List T := ns.map Prod.snd

instance Seg.decidable {T : Type} [DecidableEq T] (m : Memory T) :
    (ns : List (Addr × T)) → (p : NodePtr) → Decidable (Seg m ns p)
  | [], _ => isTrue trivial
  | n :: rest, p =>
    have := Seg.decidable m rest p
    inferInstanceAs (Decidable (m.node n.1 = some ⟨n.2, headOr rest p⟩ ∧ Seg m rest p))

instance IsList.decidable {T : Type} [DecidableEq T] (m : Memory T) (self : Addr)
    (ns : List (Addr × T)) : Decidable (IsList m self ns) :=
  inferInstanceAs (Decidable (_ ∧ _))

instance Valid.decidable {T : Type} [DecidableEq T] (m : Memory T) (self : Addr)
    (ns : List (Addr × T)) : Decidable (Valid m self ns) :=
  inferInstanceAs (Decidable (_ ∧ _))

/-- The cursor of index `k` into the list at `self` with chain `ns`: `before_begin()` for
`k = 0`, the `k`-th element (counting from one) otherwise. -/
def cursorAt {T : Type} (self : Addr) (ns : List (Addr × T)) (k : Nat) : NodePtr :=
  if k = 0 then before_begin self else (ns[k - 1]?).map Prod.fst

/-- The memory `m2` agrees with `m` outside the list object at `self`, its chain `ns` and
the addresses `fr`. -/
def FrameOf {T : Type} (m m2 : Memory T) (self : Addr) (ns : List (Addr × T))
    (fr : List Addr) : Prop :=
  (∀ x, x ≠ self → x ∉ addrs ns → x ∉ fr → m2.node x = m.node x) ∧
    (∀ x, x ≠ self → x ∉ fr → m2.size_ x = m.size_ x)

/-- Forget the value an operation returns, keeping its effect. -/
def Outcome.forget {T α : Type} : Outcome T α → Outcome T Unit
  | .ok m _ => .ok m ()
  | .bad_alloc m => .bad_alloc m
  | .undefined => .undefined
  | .out_of_fuel => .out_of_fuel

/-- The node at `b` is reached from the pointer `p` by following `next_node` links. -/
inductive Reaches {T : Type} (m : Memory T) : NodePtr → Addr → Prop where
  | here (a : Addr) : Reaches m (some a) a
  | step (a : Addr) (n : Node T) (b : Addr) :
      m.node a = some n → Reaches m n.next_node b → Reaches m (some a) b

/-- The cursor `pos` is `before_begin()` of the list at `self` or one of its element
positions. -/
def IsPosition {T : Type} (m : Memory T) (self : Addr) (pos : NodePtr) : Prop :=
  ∃ b, pos = some b ∧ Reaches m (some self) b

/-- The cursor `pos` has a successor node. -/
def HasSuccessor {T : Type} (m : Memory T) (pos : NodePtr) : Prop :=
  ∃ r, iter_next m pos = .val (some r)

/-- The live list objects `ls` are well formed with the chains `ch`, no list object is a
node of a chain, and no node belongs to two chains. -/
def InvWith {T : Type} (m : Memory T) (ls : List Addr) (ch : Addr → List (Addr × T)) : Prop :=
  (∀ l ∈ ls, Valid m l (ch l)) ∧
    (∀ l ∈ ls, ∀ l2 ∈ ls, l2 ∉ addrs (ch l)) ∧
    (∀ l ∈ ls, ∀ l2 ∈ ls, l ≠ l2 → ∀ x ∈ addrs (ch l), x ∉ addrs (ch l2))

/-- World invariant for the live list objects `ls`. -/
def Inv {T : Type} (m : Memory T) (ls : List Addr) : Prop :=
  ∃ ch : Addr → List (Addr × T), InvWith m ls ch

/-- The memories a program can build: starting with no live object, it constructs list
objects (default, from an initializer list, by copy) and calls `PushFront`, `PopFront`
on a non-empty list, `InsertAfter` at a position of the list, `EraseAfter` at a position
with a successor, `Clear`, `swap` and copy assignment on live lists.  `new` returns
addresses of no live object, or fails.  `Built m ls` holds when `m` is such a memory and
`ls` are its live list objects.  A step is a call that returns or throws `std::bad_alloc`,
with whatever fuel lets it do so. -/
inductive Built {T : Type} [Inhabited T] : Memory T → List Addr → Prop where
  | start (m : Memory T) : (∀ x, m.node x = none) → Built m []
  | construct {m : Memory T} {ls : List Addr} (self : Addr) :
      Built m ls → m.node self = none → Built (Construct m self) (self :: ls)
  | construct_init {m m2 : Memory T} {ls : List Addr} (fuel : Nat) (self : Addr)
      (values : List T) (tmp : Addr) (fresh : List Addr) :
      Built m ls → (self :: tmp :: fresh).Nodup → (∀ a ∈ self :: tmp :: fresh, m.node a = none) →
      ConstructInit fuel m self values tmp fresh = .ok m2 () → Built m2 (self :: ls)
  | construct_init_fail {m m2 : Memory T} {ls : List Addr} (fuel : Nat) (self : Addr)
      (values : List T) (tmp : Addr) (fresh : List Addr) :
      Built m ls → (self :: tmp :: fresh).Nodup → (∀ a ∈ self :: tmp :: fresh, m.node a = none) →
      ConstructInit fuel m self values tmp fresh = .bad_alloc m2 → Built m2 ls
  | construct_copy {m m2 : Memory T} {ls : List Addr} (fuel : Nat) (self other tmp : Addr)
      (fresh : List Addr) :
      Built m ls → other ∈ ls → (self :: tmp :: fresh).Nodup →
      (∀ a ∈ self :: tmp :: fresh, m.node a = none) →
      ConstructCopy fuel m self other tmp fresh = .ok m2 () → Built m2 (self :: ls)
  | construct_copy_fail {m m2 : Memory T} {ls : List Addr} (fuel : Nat) (self other tmp : Addr)
      (fresh : List Addr) :
      Built m ls → other ∈ ls → (self :: tmp :: fresh).Nodup →
      (∀ a ∈ self :: tmp :: fresh, m.node a = none) →
      ConstructCopy fuel m self other tmp fresh = .bad_alloc m2 → Built m2 ls
  | push_front {m m2 : Memory T} {ls : List Addr} (self : Addr) (v : T) (a : Addr) :
      Built m ls → self ∈ ls → m.node a = none →
      PushFront m self v (some a) = .ok m2 () → Built m2 ls
  | push_front_fail {m m2 : Memory T} {ls : List Addr} (self : Addr) (v : T) :
      Built m ls → self ∈ ls → PushFront m self v none = .bad_alloc m2 → Built m2 ls
  | pop_front {m m2 : Memory T} {ls : List Addr} (self : Addr) :
      Built m ls → self ∈ ls → IsEmpty m self = false →
      PopFront m self = .ok m2 () → Built m2 ls
  | insert_after {m m2 : Memory T} {ls : List Addr} (self : Addr) (pos : NodePtr) (v : T)
      (a : Addr) (c : NodePtr) :
      Built m ls → self ∈ ls → IsPosition m self pos → m.node a = none →
      InsertAfter m self pos v (some a) = .ok m2 c → Built m2 ls
  | insert_after_fail {m m2 : Memory T} {ls : List Addr} (self : Addr) (pos : NodePtr) (v : T) :
      Built m ls → self ∈ ls → IsPosition m self pos →
      InsertAfter m self pos v none = .bad_alloc m2 → Built m2 ls
  | erase_after {m m2 : Memory T} {ls : List Addr} (self : Addr) (pos : NodePtr) (c : NodePtr) :
      Built m ls → self ∈ ls → IsPosition m self pos → HasSuccessor m pos →
      EraseAfter m self pos = .ok m2 c → Built m2 ls
  | clear {m m2 : Memory T} {ls : List Addr} (fuel : Nat) (self : Addr) :
      Built m ls → self ∈ ls → Clear fuel m self = .ok m2 () → Built m2 ls
  | swap {m m2 : Memory T} {ls : List Addr} (self other : Addr) :
      Built m ls → self ∈ ls → other ∈ ls → swap m self other = .ok m2 () → Built m2 ls
  | assign {m m2 : Memory T} {ls : List Addr} (fuel : Nat) (self rhs tmp : Addr)
      (fresh : List Addr) (r : Addr) :
      Built m ls → self ∈ ls → rhs ∈ ls → (tmp :: fresh).Nodup →
      (∀ a ∈ tmp :: fresh, m.node a = none) →
      assign fuel m self rhs tmp fresh = .ok m2 r → Built m2 ls
  | assign_fail {m m2 : Memory T} {ls : List Addr} (fuel : Nat) (self rhs tmp : Addr)
      (fresh : List Addr) :
      Built m ls → self ∈ ls → rhs ∈ ls → (tmp :: fresh).Nodup →
      (∀ a ∈ tmp :: fresh, m.node a = none) →
      assign fuel m self rhs tmp fresh = .bad_alloc m2 → Built m2 ls

/-- Memory of an outcome that has one, `m0` otherwise. -/
def Outcome.mem {T α : Type} (m0 : Memory T) : Outcome T α → Memory T
  | .ok m _ => m
  | .bad_alloc m => m
  | .undefined => m0
  | .out_of_fuel => m0

/-- Example: the list object at address `0` holding `1, 2, 3, 4` in nodes `10 .. 13`. -/
def exampleMem : Memory Nat :=
  ⟨fun x =>
    if x = 0 then some ⟨0, some 10⟩
    else if x = 10 then some ⟨1, some 11⟩
    else if x = 11 then some ⟨2, some 12⟩
    else if x = 12 then some ⟨3, some 13⟩
    else if x = 13 then some ⟨4, none⟩
    else none,
   fun x => if x = 0 then 4 else 0⟩

/-- Chain of `exampleMem`. -/
def exampleChain : List (Addr × Nat) := [(10, 1), (11, 2), (12, 3), (13, 4)]

/-- Example: a default-constructed list at address `0` after `PushFront(7)`. -/
def exampleBuilt : Memory Nat :=
  (PushFront (Construct (Memory.empty Nat) 0) 0 7 (some 5)).mem (Memory.empty Nat)

/-- One call of `PushFront`, `PopFront`, `InsertAfter`, `EraseAfter` or `Clear` on the list
object at `l`, within its contract, takes the memory `m` to `m2`. -/
inductive Mutation {T : Type} (m : Memory T) (l : Addr) (m2 : Memory T) : Prop where
  | push_front (v : T) (a : Addr) :
      m.node a = none → PushFront m l v (some a) = .ok m2 () → Mutation m l m2
  | pop_front : IsEmpty m l = false → PopFront m l = .ok m2 () → Mutation m l m2
  | insert_after (pos : NodePtr) (v : T) (a : Addr) (c : NodePtr) :
      IsPosition m l pos → m.node a = none → InsertAfter m l pos v (some a) = .ok m2 c →
      Mutation m l m2
  | erase_after (pos : NodePtr) (c : NodePtr) :
      IsPosition m l pos → HasSuccessor m pos → EraseAfter m l pos = .ok m2 c →
      Mutation m l m2
  | clear (fuel : Nat) : Clear fuel m l = .ok m2 () → Mutation m l m2

/-- State after copying the list at `src`, whose element sequence is `xs`, into the list
at `self`, taking the memory `m` to `m2`: the target iterates over `xs` and has its size;
the source still does, with every one of its nodes as before; target `==` source
evaluates to true exactly when every element of `xs` is `==` to itself; and a later
mutation of one of the two lists leaves the sequence and size of the other as they are. -/
def CopyPost {T : Type} (eq : T → T → Bool) (fuel : Nat) (m m2 : Memory T) (self src : Addr)
    (xs : List T) : Prop :=
  traverse fuel m2 self = .val xs ∧ GetSize m2 self = xs.length ∧
  traverse fuel m2 src = .val xs ∧ GetSize m2 src = xs.length ∧
  GetSize m2 src = GetSize m src ∧ (∀ b, Reaches m (some src) b → m2.node b = m.node b) ∧
  operator_eq eq fuel m2 self src = .val (xs.all fun x => eq x x) ∧
  (∀ m3, Mutation m2 self m3 → traverse fuel m3 src = .val xs ∧ GetSize m3 src = xs.length) ∧
  (∀ m3, Mutation m2 src m3 → traverse fuel m3 self = .val xs ∧ GetSize m3 self = xs.length)

/-- Example world: the list of `exampleBuilt` at address `0` and a default-constructed list
at address `1`. -/
def exampleWorld : Memory Nat := Construct exampleBuilt 1

/-- An element `==` that is not reflexive: `7` compares unequal to itself, the way a NaN
does under `==` on `double`. -/
def nanEq (x y : Nat) : Bool := x != 7 && x == y

/-- Example: `exampleWorld` after constructing a list at address `2` as a copy of the list
at address `0`. -/
def exampleCopy : Memory Nat :=
  (ConstructCopy 8 exampleWorld 2 0 100 [20, 21]).mem (Memory.empty Nat)

/-- The outcome `o2` is the outcome `o1` obtained with more fuel: the same, unless `o1`
ran out of fuel. -/
def Outcome.le {T α : Type} (o1 o2 : Outcome T α) : Prop := o1 = .out_of_fuel ∨ o1 = o2

/-- The result `e2` is the result `e1` obtained with more fuel. -/
def Eval.le {α : Type} (e1 e2 : Eval α) : Prop := e1 = .out_of_fuel ∨ e1 = e2

/-- Loop of `std::lexicographical_compare(first1, last1, first2, last2)`, with the element
`<` as `lt`. -/
def std_lexicographical_compare {T : Type} (lt : T → T → Bool) :
    Nat → Memory T → NodePtr → NodePtr → NodePtr → NodePtr → Eval Bool
  | 0, _, _, _, _, _ => .out_of_fuel
  | fuel + 1, m, first1, last1, first2, last2 =>
    if first1 ≠ last1 ∧ first2 ≠ last2 then
      (iter_deref m first1).andThen fun x =>
        (iter_deref m first2).andThen fun y =>
          if lt x y then .val true
          else if lt y x then .val false
          else
            (iter_next m first1).andThen fun n1 =>
              (iter_next m first2).andThen fun n2 =>
                std_lexicographical_compare lt fuel m n1 last1 n2 last2
    else .val (decide (first1 = last1) && decide (first2 ≠ last2))

/-- `operator<`: `std::lexicographical_compare(begin(), end(), rhs.begin(), rhs.end())`. -/
def operator_lt {T : Type} (lt : T → T → Bool) (fuel : Nat) (m : Memory T) (self rhs : Addr) :
    Eval Bool :=
  (begin m self).andThen fun b =>
    (end_ fuel m self).andThen fun e =>
      (begin m rhs).andThen fun rb =>
        (end_ fuel m rhs).andThen fun re => std_lexicographical_compare lt fuel m b e rb re

/-- `operator<=`: `*this < rhs || *this == rhs`. -/
def operator_le {T : Type} (eq lt : T → T → Bool) (fuel : Nat) (m : Memory T)
    (self rhs : Addr) : Eval Bool :=
  (operator_lt lt fuel m self rhs).andThen fun r =>
    if r then .val true else operator_eq eq fuel m self rhs

/-- `operator>`: `rhs < *this`. -/
def operator_gt {T : Type} (lt : T → T → Bool) (fuel : Nat) (m : Memory T) (self rhs : Addr) :
    Eval Bool :=
  operator_lt lt fuel m rhs self

/-- `operator>=`: `rhs < *this || rhs == *this`. -/
def operator_ge {T : Type} (eq lt : T → T → Bool) (fuel : Nat) (m : Memory T)
    (self rhs : Addr) : Eval Bool :=
  (operator_lt lt fuel m rhs self).andThen fun r =>
    if r then .val true else operator_eq eq fuel m rhs self

/-- Lexicographic comparison of two element sequences: the value `operator<` computes. -/
def lex {T : Type} (lt : T → T → Bool) : List T → List T → Bool
  | [], [] => false
  | [], _ :: _ => true
  | _ :: _, [] => false
  | x :: xs, y :: ys => if lt x y then true else if lt y x then false else lex lt xs ys

/-- The element `<` is a strict total order. -/
def StrictTotal {T : Type} (lt : T → T → Bool) : Prop :=
  (∀ x, lt x x = false) ∧ (∀ x y z, lt x y = true → lt y z = true → lt x z = true) ∧
    (∀ x y, lt x y = true ∨ x = y ∨ lt y x = true)

/-- The element `<` is a strict weak order: irreflexive, transitive, with transitive
incomparability. -/
def StrictWeak {T : Type} (lt : T → T → Bool) : Prop :=
  (∀ x, lt x x = false) ∧ (∀ x y z, lt x y = true → lt y z = true → lt x z = true) ∧
    (∀ x y z, lt x y = false → lt y x = false → lt y z = false → lt z y = false →
      lt x z = false ∧ lt z x = false)

/-- The order `<` of the natural numbers, as the element `<`. -/
def natLt (x y : Nat) : Bool := decide (x < y)

/-- Example: the list `A = [0, 1, 2, 3]` at address `0` (nodes `10 .. 13`) and the list
`B = [1, 2, 3]` at address `1` (nodes `20 .. 22`). -/
def exampleAB : Memory Nat :=
  ⟨fun x =>
    if x = 0 then some ⟨0, some 10⟩
    else if x = 10 then some ⟨0, some 11⟩
    else if x = 11 then some ⟨1, some 12⟩
    else if x = 12 then some ⟨2, some 13⟩
    else if x = 13 then some ⟨3, none⟩
    else if x = 1 then some ⟨0, some 20⟩
    else if x = 20 then some ⟨1, some 21⟩
    else if x = 21 then some ⟨2, some 22⟩
    else if x = 22 then some ⟨3, none⟩
    else none,
   fun x => if x = 0 then 4 else if x = 1 then 3 else 0⟩

/-- Chain of the list `A` of `exampleAB`. -/
def exampleA : List (Addr × Nat) := [(10, 0), (11, 1), (12, 2), (13, 3)]

/-- Chain of the list `B` of `exampleAB`. -/
def exampleB : List (Addr × Nat) := [(20, 1), (21, 2), (22, 3)]

/-- The cursor `c` was obtained from the list at `self`: it is `before_begin()` or an
element position, or the result of `begin()`, or the result of `end()`. -/
def IsCursor {T : Type} (m : Memory T) (self : Addr) (c : NodePtr) : Prop :=
  IsPosition m self c ∨ begin m self = .val c ∨ ∃ fuel, end_ fuel m self = .val c

/-- Sequencing of traced read-only computations: `log` is what has been recorded once `e`
is evaluated, and the record of the continuation follows it. -/
def Eval.andThenLog {α β : Type} (e : Eval α) (log : List NodePtr)
    (k : α → Eval β × List NodePtr) : Eval β × List NodePtr :=
  match e with
  | .val r => ((k r).1, log ++ (k r).2)
  | .undefined => (.undefined, log)
  | .out_of_fuel => (.out_of_fuel, log)

/-- The loop of `std_equal`, recording in order every cursor into the second range that
the walk dereferences (`*first2`) or advances (`++first2`). -/
def std_equal_trace {T : Type} (eq : T → T → Bool) :
    Nat → Memory T → NodePtr → NodePtr → NodePtr → Eval Bool × List NodePtr
  | 0, _, _, _, _ => (.out_of_fuel, [])
  | fuel + 1, m, first1, last1, first2 =>
    if first1 = last1 then (.val true, [])
    else
      (iter_deref m first1).andThenLog [] fun x =>
        (iter_deref m first2).andThenLog [first2] fun y =>
          if eq x y then
            (iter_next m first1).andThenLog [] fun n1 =>
              (iter_next m first2).andThenLog [first2] fun n2 =>
                std_equal_trace eq fuel m n1 last1 n2
          else (.val false, [])

/-- The body of `operator==`, with the record of `std_equal_trace`: the cursors into `rhs`
that the evaluation dereferences or advances. -/
def operator_eq_trace {T : Type} (eq : T → T → Bool) (fuel : Nat) (m : Memory T)
    (self rhs : Addr) : Eval Bool × List NodePtr :=
  if GetSize m self = GetSize m rhs then
    (begin m self).andThenLog [] fun b =>
      (end_ fuel m self).andThenLog [] fun e =>
        (begin m rhs).andThenLog [] fun rb => std_equal_trace eq fuel m b e rb
  else (.val false, [])

section lemmas
variable {T : Type}

theorem headOr_append (l1 l2 : List (Addr × T)) (p : NodePtr) :
    headOr (l1 ++ l2) p = headOr l1 (headOr l2 p) := by
  cases l1 <;> rfl

theorem Seg_append (m : Memory T) (l1 l2 : List (Addr × T)) (p : NodePtr) :
    Seg m (l1 ++ l2) p ↔ Seg m l1 (headOr l2 p) ∧ Seg m l2 p := by
  induction l1 with
  | nil => simp [Seg]
  | cons n rest ih =>
    show (m.node n.1 = some ⟨n.2, headOr (rest ++ l2) p⟩ ∧ Seg m (rest ++ l2) p) ↔
      (m.node n.1 = some ⟨n.2, headOr rest (headOr l2 p)⟩ ∧ Seg m rest (headOr l2 p)) ∧ Seg m l2 p
    rw [headOr_append, ih]
    tauto

theorem Seg_live {m : Memory T} {ns : List (Addr × T)} {p : NodePtr} (h : Seg m ns p)
    {a : Addr} (ha : a ∈ addrs ns) : m.node a ≠ none := by
  induction ns with
  | nil => simp [addrs] at ha
  | cons n rest ih =>
    simp only [addrs, List.map_cons, List.mem_cons] at ha
    rcases ha with rfl | ha
    · rw [h.1]; simp
    · exact ih h.2 ha

theorem Seg_frame {m m2 : Memory T} {ns : List (Addr × T)} {p : NodePtr}
    (hf : ∀ a ∈ addrs ns, m2.node a = m.node a) (h : Seg m ns p) : Seg m2 ns p := by
  induction ns with
  | nil => trivial
  | cons n rest ih =>
    refine ⟨?_, ih (fun a ha => hf a (by simp [addrs] at ha ⊢; exact Or.inr ha)) h.2⟩
    rw [hf n.1 (by simp [addrs]), h.1]

theorem Seg_unique {m : Memory T} : ∀ {l1 l2 : List (Addr × T)},
    Seg m l1 none → Seg m l2 none → headOr l1 none = headOr l2 none → l1 = l2
  | [], [], _, _, _ => rfl
  | [], _ :: _, _, _, h => by simp [headOr] at h
  | _ :: _, [], _, _, h => by simp [headOr] at h
  | n1 :: r1, n2 :: r2, h1, h2, h => by
    simp only [headOr, Option.some.injEq] at h
    have e1 := h1.1
    have e2 := h2.1
    rw [h, e2] at e1
    simp only [Option.some.injEq, Node.mk.injEq] at e1
    have := Seg_unique h1.2 h2.2 e1.2.symm
    subst this
    congr 1
    exact Prod.ext h e1.1.symm

theorem Seg_nodup {m : Memory T} : ∀ {ns : List (Addr × T)}, Seg m ns none → (addrs ns).Nodup
  | [], _ => by simp [addrs]
  | n :: rest, h => by
    have ih := Seg_nodup h.2
    simp only [addrs, List.map_cons, List.nodup_cons]
    refine ⟨?_, ih⟩
    intro hmem
    obtain ⟨x, hx, hxa⟩ := List.mem_map.1 hmem
    obtain ⟨s, t, rfl⟩ := List.append_of_mem hx
    have ht : Seg m (x :: t) none := ((Seg_append m s (x :: t) none).1 h.2).2
    have := Seg_unique h ht (by simp [headOr, hxa])
    have hl := congrArg List.length this
    simp at hl
    omega

theorem IsList_nodup {m : Memory T} {self : Addr} {ns : List (Addr × T)}
    (h : IsList m self ns) : (self :: addrs ns).Nodup := by
  obtain ⟨h1, h2⟩ := h
  cases hs : m.node self with
  | none => simp [hs] at h1
  | some hd =>
    simp only [hs, Option.map_some', Option.some.injEq] at h1
    have : Seg m ((self, hd.value) :: ns) none := ⟨by rw [hs, ← h1], h2⟩
    simpa [addrs] using Seg_nodup this

theorem IsList_length_lt {m : Memory T} {self : Addr} {ns : List (Addr × T)}
    (h : IsList m self ns) : ns.length < SIZE_MAX_PLUS_ONE := by
  have := List.Nodup.length_le_card (IsList_nodup h)
  rw [Fintype.card_fin] at this
  simp only [List.length_cons, addrs, List.length_map] at this
  omega

@[simp] theorem setNode_node (m : Memory T) (a x : Addr) (n : Option (Node T)) :
    (setNode m a n).node x = if x = a then n else m.node x := rfl

@[simp] theorem setNode_size (m : Memory T) (a : Addr) (n : Option (Node T)) :
    (setNode m a n).size_ = m.size_ := rfl

@[simp] theorem setSize_node (m : Memory T) (a : Addr) (s : Nat) :
    (setSize m a s).node = m.node := rfl

@[simp] theorem setSize_size (m : Memory T) (a x : Addr) (s : Nat) :
    (setSize m a s).size_ x = if x = a then s else m.size_ x := rfl

theorem InsertAfter_eval {m : Memory T} {self p a : Addr} {pv v : T} {nx : NodePtr}
    (hp : m.node p = some ⟨pv, nx⟩) (hne : a ≠ p) :
    InsertAfter m self (some p) v (some a) =
      .ok (setSize (setNode (setNode m a (some ⟨v, nx⟩)) p (some ⟨pv, some a⟩)) self
        ((m.size_ self + 1) % SIZE_MAX_PLUS_ONE)) (some a) := by
  simp [InsertAfter, setNext, hp, Ne.symm hne]

theorem EraseAfter_eval {m : Memory T} {self p r : Addr} {pv rv : T} {nx : NodePtr}
    (hp : m.node p = some ⟨pv, some r⟩) (hr : m.node r = some ⟨rv, nx⟩) (hne : r ≠ p) :
    EraseAfter m self (some p) =
      .ok (setSize (setNode (setNode m r none) p (some ⟨pv, nx⟩)) self
        ((m.size_ self + SIZE_MAX_PLUS_ONE - 1) % SIZE_MAX_PLUS_ONE)) nx := by
  simp [EraseAfter, setNext, hp, hr, Ne.symm hne]

theorem addrs_append (l1 l2 : List (Addr × T)) : addrs (l1 ++ l2) = addrs l1 ++ addrs l2 := by
  simp [addrs]

theorem addrs_cons (n : Addr × T) (l : List (Addr × T)) : addrs (n :: l) = n.1 :: addrs l := rfl

/-- Linking a fresh node `a` after the node `p` of a chain. -/
theorem Seg_insert {m : Memory T} (l1 : List (Addr × T)) {l2 : List (Addr × T)} {p a : Addr}
    {pv : T} (v : T)
    (h : Seg m (l1 ++ (p, pv) :: l2) none) (ha : m.node a = none) :
    Seg (setNode (setNode m a (some ⟨v, headOr l2 none⟩)) p (some ⟨pv, some a⟩))
      (l1 ++ (p, pv) :: (a, v) :: l2) none := by
  have hnd := Seg_nodup h
  have hlive : ∀ x ∈ addrs (l1 ++ (p, pv) :: l2), x ≠ a := fun x hx e =>
    Seg_live h hx (e ▸ ha)
  rw [addrs_append, addrs_cons, List.nodup_append] at hnd
  obtain ⟨_, hnd2, hdis⟩ := hnd
  rw [List.nodup_cons] at hnd2
  rw [Seg_append] at h ⊢
  obtain ⟨h1, h2, h3⟩ := h
  have hap : a ≠ p := fun e => hlive p (by simp [addrs]) e.symm
  refine ⟨Seg_frame ?_ h1, ?_, ?_, Seg_frame ?_ h3⟩
  · intro x hx
    have : x ≠ p := fun e => hdis hx (by simp [e])
    have : x ≠ a := hlive x (by simp [addrs_append, hx])
    simp [*]
  · simp [headOr]
  · simp [hap]
  · intro x hx
    have : x ≠ p := fun e => hnd2.1 (e ▸ hx)
    have : x ≠ a := hlive x (by simp [addrs_append, addrs_cons, hx])
    simp [*]

/-- Unlinking and releasing the node `r` that follows the node `p` of a chain. -/
theorem Seg_erase {m : Memory T} (l1 : List (Addr × T)) {l2 : List (Addr × T)} {p r : Addr}
    {pv rv : T}
    (h : Seg m (l1 ++ (p, pv) :: (r, rv) :: l2) none) :
    Seg (setNode (setNode m r none) p (some ⟨pv, headOr l2 none⟩)) (l1 ++ (p, pv) :: l2) none := by
  have hnd := Seg_nodup h
  rw [addrs_append, addrs_cons, addrs_cons, List.nodup_append] at hnd
  obtain ⟨_, hnd2, hdis⟩ := hnd
  rw [List.nodup_cons, List.nodup_cons] at hnd2
  obtain ⟨hp, hr, _⟩ := hnd2
  rw [Seg_append] at h ⊢
  obtain ⟨h1, h2, h3, h4⟩ := h
  refine ⟨Seg_frame ?_ h1, ?_, Seg_frame ?_ h4⟩
  · intro x hx
    have : x ≠ p := fun e => hdis hx (by simp [e])
    have : x ≠ r := fun e => hdis hx (by simp [e])
    simp [*]
  · simp
  · intro x hx
    have : x ≠ p := fun e => hp (by simp [← e, hx])
    have : x ≠ r := fun e => hr (e ▸ hx)
    simp [*]

theorem IsList_sentinel {m : Memory T} {self : Addr} {ns : List (Addr × T)}
    (h : IsList m self ns) : ∃ hv, m.node self = some ⟨hv, headOr ns none⟩ ∧
      Seg m ((self, hv) :: ns) none := by
  obtain ⟨h1, h2⟩ := h
  cases hs : m.node self with
  | none => simp [hs] at h1
  | some hd =>
    simp only [hs, Option.map_some', Option.some.injEq] at h1
    exact ⟨hd.value, by rw [← h1], ⟨by rw [hs, ← h1], h2⟩⟩

theorem IsList_of_Seg {m : Memory T} {self : Addr} {hv : T} {ns : List (Addr × T)}
    (h : Seg m ((self, hv) :: ns) none) : IsList m self ns :=
  ⟨by rw [h.1]; rfl, h.2⟩

theorem IsList_setSize {m : Memory T} {self x : Addr} {s : Nat} {ns : List (Addr × T)}
    (h : IsList m self ns) : IsList (setSize m x s) self ns :=
  have hf : ∀ a ∈ addrs ns, (setSize m x s).node a = m.node a := fun _ _ => rfl
  ⟨h.1, Seg_frame hf h.2⟩

theorem cursor_split (self : Addr) (hv : T) (ns : List (Addr × T)) (k : Nat)
    (hk : k ≤ ns.length) :
    ∃ l1 p pv, cursorAt self ns k = some p ∧ (self, hv) :: ns.take k = l1 ++ [(p, pv)] := by
  cases k with
  | zero => exact ⟨[], self, hv, rfl, by simp⟩
  | succ j =>
    have hj : j < ns.length := hk
    refine ⟨(self, hv) :: ns.take j, ns[j].1, ns[j].2, ?_, ?_⟩
    · simp only [cursorAt, Nat.succ_ne_zero, if_false, Nat.add_sub_cancel,
        List.getElem?_eq_getElem hj, Option.map_some']
    · simp only [List.take_succ, List.getElem?_eq_getElem hj, Option.toList_some,
        List.cons_append]

theorem cursor_full (self : Addr) (hv : T) (ns : List (Addr × T)) (k : Nat) {l1 : List (Addr × T)}
    {n : Addr × T} (hs : (self, hv) :: ns.take k = l1 ++ [n]) :
    (self, hv) :: ns = l1 ++ n :: ns.drop k := by
  have : (self, hv) :: ns = ((self, hv) :: ns.take k) ++ ns.drop k := by simp
  rw [this, hs]; simp

theorem FindListEnd_loop_seg {m : Memory T} : ∀ {ns : List (Addr × T)} {fuel : Nat},
    Seg m ns none → ns.length < fuel → FindListEnd_loop fuel m (headOr ns none) = .val none
  | [], f + 1, _, _ => rfl
  | n :: rest, f + 1, h, hf => by
    simp only [FindListEnd_loop, headOr, h.1]
    exact FindListEnd_loop_seg h.2 (by simpa using hf)

theorem end_eval {m : Memory T} {self : Addr} {ns : List (Addr × T)} {fuel : Nat}
    (h : IsList m self ns) (hf : ns.length < fuel) : end_ fuel m self = .val none := by
  obtain ⟨hv, hs, hseg⟩ := IsList_sentinel h
  simp only [end_, FindListEnd, hs]
  exact FindListEnd_loop_seg hseg.2 hf

theorem begin_eval {m : Memory T} {self : Addr} {ns : List (Addr × T)}
    (h : IsList m self ns) : begin m self = .val (headOr ns none) := by
  obtain ⟨hv, hs, _⟩ := IsList_sentinel h
  simp [begin, hs]

theorem traverse_loop_eval {m : Memory T} {self : Addr} {ns : List (Addr × T)}
    (h : IsList m self ns) : ∀ {rest : List (Addr × T)} {fuel : Nat},
    Seg m rest none → ns.length + rest.length + 2 ≤ fuel →
    traverse_loop fuel m self (headOr rest none) = .val (vals rest)
  | [], f + 1, _, hf => by
    simp [traverse_loop, end_eval h (show ns.length < f by simp at hf; omega), Eval.andThen,
      headOr, vals]
  | n :: rest, f + 1, hr, hf => by
    have ih : traverse_loop f m self (headOr rest none) = .val (vals rest) :=
      traverse_loop_eval h hr.2 (by simp at hf; omega)
    simp [traverse_loop, end_eval h (show ns.length < f by simp at hf; omega), Eval.andThen,
      headOr, vals, iter_deref, iter_next, hr.1] at ih ⊢
    simp [headOr, ih]

theorem traverse_eval {m : Memory T} {self : Addr} {ns : List (Addr × T)} {fuel : Nat}
    (h : IsList m self ns) (hf : 2 * ns.length + 2 ≤ fuel) :
    traverse fuel m self = .val (vals ns) := by
  simp only [traverse, begin_eval h, Eval.andThen]
  exact traverse_loop_eval h h.2 (by omega)

theorem std_distance_eval {m : Memory T} : ∀ {rest : List (Addr × T)} {fuel : Nat} (n : Nat),
    Seg m rest none → rest.length < fuel →
    std_distance fuel m (headOr rest none) none n = .val (n + rest.length)
  | [], f + 1, n, _, _ => by simp [std_distance, headOr]
  | x :: rest, f + 1, n, hr, hf => by
    have ih : std_distance f m (headOr rest none) none (n + 1) = .val (n + 1 + rest.length) :=
      std_distance_eval (n + 1) hr.2 (by simpa using hf)
    simp [std_distance, headOr, iter_next, hr.1, Eval.andThen] at ih ⊢
    rw [ih]; simp; omega

theorem wrap_succ {n : Nat} (h : n + 1 < SIZE_MAX_PLUS_ONE) :
    (n + 1) % SIZE_MAX_PLUS_ONE = n + 1 := Nat.mod_eq_of_lt h

theorem wrap_pred {n : Nat} (h0 : 0 < n) (h : n < SIZE_MAX_PLUS_ONE) :
    (n + SIZE_MAX_PLUS_ONE - 1) % SIZE_MAX_PLUS_ONE = n - 1 := by
  have e : n + SIZE_MAX_PLUS_ONE - 1 = (n - 1) + SIZE_MAX_PLUS_ONE := by omega
  rw [e, Nat.add_mod_right, Nat.mod_eq_of_lt (by omega)]

theorem headOr_drop (ns : List (Addr × T)) (k : Nat) :
    headOr (ns.drop k) none = (ns[k]?).map Prod.fst := by
  by_cases hk : k < ns.length
  · rw [List.drop_eq_getElem_cons hk, List.getElem?_eq_getElem hk]; rfl
  · rw [List.drop_eq_nil_of_le (by omega), List.getElem?_eq_none (by omega)]; rfl

theorem headOr_eq_cursorAt (self : Addr) (ns : List (Addr × T)) (k : Nat) :
    headOr (ns.drop k) none = cursorAt self ns (k + 1) := by
  simp only [cursorAt, Nat.succ_ne_zero, if_false, Nat.add_sub_cancel, headOr_drop]

/-- Effect of `InsertAfter` at the cursor of index `k` on a well-formed list. -/
theorem InsertAfter_list {m : Memory T} {self a : Addr} {ns : List (Addr × T)} {k : Nat} (v : T)
    (h : Valid m self ns) (hk : k ≤ ns.length) (ha : m.node a = none) :
    ∃ p pv m2, cursorAt self ns k = some p ∧ (p = self ∨ p ∈ addrs ns) ∧ a ≠ p ∧
      m.node p = some ⟨pv, headOr (ns.drop k) none⟩ ∧
      InsertAfter m self (some p) v (some a) = .ok m2 (some a) ∧
      m2.node p = some ⟨pv, some a⟩ ∧
      m2.node a = some ⟨v, headOr (ns.drop k) none⟩ ∧
      Valid m2 self (ns.take k ++ (a, v) :: ns.drop k) ∧
      FrameOf m m2 self ns [a] := by
  obtain ⟨hl, hsz⟩ := h
  obtain ⟨hv, hs, hseg⟩ := IsList_sentinel hl
  obtain ⟨l1, p, pv, hc, hsplit⟩ := cursor_split self hv ns k hk
  have hfull := cursor_full self hv ns k hsplit
  have hmem : p = self ∨ p ∈ addrs ns := by
    have : p ∈ addrs ((self, hv) :: ns) := by rw [hfull]; simp [addrs]
    simpa [addrs] using this
  rw [hfull] at hseg
  have hp : m.node p = some ⟨pv, headOr (ns.drop k) none⟩ :=
    ((Seg_append m l1 _ none).1 hseg).2.1
  have hap : a ≠ p := fun e => by rw [← e, ha] at hp; cases hp
  have hins := Seg_insert l1 v hseg ha
  have e2 : l1 ++ (p, pv) :: (a, v) :: ns.drop k =
      (self, hv) :: (ns.take k ++ (a, v) :: ns.drop k) := by
    have : l1 ++ (p, pv) :: (a, v) :: ns.drop k = (l1 ++ [(p, pv)]) ++ (a, v) :: ns.drop k := by
      simp
    rw [this, ← hsplit]; rfl
  rw [e2] at hins
  have hl2 := IsList_setSize (x := self) (s := (m.size_ self + 1) % SIZE_MAX_PLUS_ONE)
    (IsList_of_Seg hins)
  refine ⟨p, pv, _, hc, hmem, hap, hp, InsertAfter_eval hp hap, by simp, by simp [hap], ⟨hl2, ?_⟩,
    ?_, ?_⟩
  · have hlt := IsList_length_lt hl2
    have hlen : (ns.take k ++ (a, v) :: ns.drop k).length = ns.length + 1 := by
      simp; omega
    rw [hlen] at hlt ⊢
    simp [hsz, wrap_succ hlt]
  · intro x hx1 hx2 hx3
    have hxa : x ≠ a := by simpa using hx3
    have hxp : x ≠ p := by
      rcases hmem with e | e
      · rw [e]; exact hx1
      · exact fun e2 => hx2 (e2 ▸ e)
    simp [hxa, hxp]
  · intro x hx _; simp [hx]

/-- Effect of `EraseAfter` at the cursor of index `k` on a well-formed list. -/
theorem EraseAfter_list {m : Memory T} {self : Addr} {ns : List (Addr × T)} {k : Nat}
    (h : Valid m self ns) (hk : k < ns.length) :
    ∃ p pv m2, cursorAt self ns k = some p ∧ (p = self ∨ p ∈ addrs ns) ∧
      m.node p = some ⟨pv, some ns[k].1⟩ ∧
      EraseAfter m self (some p) = .ok m2 (headOr (ns.drop (k + 1)) none) ∧
      m2.node p = some ⟨pv, headOr (ns.drop (k + 1)) none⟩ ∧
      m2.node ns[k].1 = none ∧
      Valid m2 self (ns.take k ++ ns.drop (k + 1)) ∧
      FrameOf m m2 self ns [] := by
  obtain ⟨hl, hsz⟩ := h
  obtain ⟨hv, hs, hseg⟩ := IsList_sentinel hl
  obtain ⟨l1, p, pv, hc, hsplit⟩ := cursor_split self hv ns k (Nat.le_of_lt hk)
  have hfull := cursor_full self hv ns k hsplit
  have hmem : p = self ∨ p ∈ addrs ns := by
    have : p ∈ addrs ((self, hv) :: ns) := by rw [hfull]; simp [addrs]
    simpa [addrs] using this
  have hd : ns.drop k = (ns[k].1, ns[k].2) :: ns.drop (k + 1) := List.drop_eq_getElem_cons hk
  rw [hd] at hfull
  rw [hfull] at hseg
  have hseg2 := (Seg_append m l1 _ none).1 hseg
  have hp : m.node p = some ⟨pv, some ns[k].1⟩ := hseg2.2.1
  have hr : m.node ns[k].1 = some ⟨ns[k].2, headOr (ns.drop (k + 1)) none⟩ := hseg2.2.2.1
  have hnd := Seg_nodup hseg
  have hrp : ns[k].1 ≠ p := by
    intro e
    rw [addrs_append, List.nodup_append] at hnd
    have := hnd.2.1
    simp [addrs, e] at this
  have her := Seg_erase l1 hseg
  have e2 : l1 ++ (p, pv) :: ns.drop (k + 1) = (self, hv) :: (ns.take k ++ ns.drop (k + 1)) := by
    have : l1 ++ (p, pv) :: ns.drop (k + 1) = (l1 ++ [(p, pv)]) ++ ns.drop (k + 1) := by simp
    rw [this, ← hsplit]; rfl
  rw [e2] at her
  have hl2 := IsList_setSize (x := self)
    (s := (m.size_ self + SIZE_MAX_PLUS_ONE - 1) % SIZE_MAX_PLUS_ONE) (IsList_of_Seg her)
  refine ⟨p, pv, _, hc, hmem, hp, EraseAfter_eval hp hr hrp, by simp, by simp [hrp], ⟨hl2, ?_⟩,
    ?_, ?_⟩
  · have hlt := IsList_length_lt hl
    have hlen : (ns.take k ++ ns.drop (k + 1)).length = ns.length - 1 := by
      simp; omega
    rw [hlen]
    simp [hsz, wrap_pred (Nat.lt_of_le_of_lt (Nat.zero_le k) hk) hlt]
  · intro x hx1 hx2 _
    have hxr : x ≠ ns[k].1 := fun e => hx2 (by
      rw [e]; exact List.mem_map.2 ⟨ns[k], List.getElem_mem hk, rfl⟩)
    have hxp : x ≠ p := by
      rcases hmem with e | e
      · rw [e]; exact hx1
      · exact fun e2 => hx2 (e2 ▸ e)
    simp [hxr, hxp]
  · intro x hx _; simp [hx]

theorem Memory.ext {m1 m2 : Memory T} (h1 : ∀ x, m1.node x = m2.node x)
    (h2 : ∀ x, m1.size_ x = m2.size_ x) : m1 = m2 := by
  cases m1; cases m2
  simp only [Memory.mk.injEq]
  exact ⟨funext h1, funext h2⟩

theorem PushFront_as_InsertAfter (m : Memory T) (self : Addr) (v : T) (fresh : Option Addr) :
    (InsertAfter m self (before_begin self) v fresh).forget = PushFront m self v fresh := by
  cases hs : m.node self with
  | none => simp [InsertAfter, PushFront, before_begin, hs, Outcome.forget]
  | some hd =>
    cases fresh with
    | none => simp [InsertAfter, PushFront, before_begin, hs, Outcome.forget]
    | some a =>
      by_cases e : self = a
      · subst e
        simp [InsertAfter, PushFront, before_begin, hs, setNext, Outcome.forget]
      · simp [InsertAfter, PushFront, before_begin, hs, setNext, e, Outcome.forget]

theorem PopFront_as_EraseAfter (m : Memory T) (self : Addr) :
    (EraseAfter m self (before_begin self)).forget = PopFront m self := by
  cases hs : m.node self with
  | none => simp [EraseAfter, PopFront, before_begin, hs, Outcome.forget]
  | some hd =>
    cases hn : hd.next_node with
    | none => simp [EraseAfter, PopFront, before_begin, hs, hn, Outcome.forget]
    | some r =>
      cases hr : m.node r with
      | none => simp [EraseAfter, PopFront, before_begin, hs, hn, hr, Outcome.forget]
      | some rn =>
        by_cases e : self = r
        · subst e
          simp [EraseAfter, PopFront, before_begin, hs, hn, hr, setNext, Outcome.forget]
        · simp [EraseAfter, PopFront, before_begin, hs, hn, hr, setNext, e, Outcome.forget]

theorem forget_eq_ok {α : Type} {o : Outcome T α} {m : Memory T} {r : α} (h : o = .ok m r) :
    o.forget = .ok m () := by
  rw [h]; rfl

/-- Effect of `PushFront` on a well-formed list. -/
theorem PushFront_list {m : Memory T} {self a : Addr} {ns : List (Addr × T)} (v : T)
    (h : Valid m self ns) (ha : m.node a = none) :
    ∃ m2, PushFront m self v (some a) = .ok m2 () ∧
      m2.node a = some ⟨v, headOr ns none⟩ ∧
      Valid m2 self ((a, v) :: ns) ∧ FrameOf m m2 self ns [a] := by
  obtain ⟨p, pv, m2, hc, _, _, _, hev, _, h5, h6, h7⟩ :=
    InsertAfter_list (k := 0) v h (Nat.zero_le _) ha
  have hp : p = self := by simpa [cursorAt, before_begin] using hc.symm
  subst hp
  refine ⟨m2, ?_, by simpa using h5, by simpa using h6, h7⟩
  rw [← PushFront_as_InsertAfter]
  exact forget_eq_ok hev

/-- Effect of `PopFront` on a well-formed non-empty list. -/
theorem PopFront_list {m : Memory T} {self : Addr} {n : Addr × T} {ns : List (Addr × T)}
    (h : Valid m self (n :: ns)) :
    ∃ m2, PopFront m self = .ok m2 () ∧ m2.node n.1 = none ∧
      Valid m2 self ns ∧ FrameOf m m2 self (n :: ns) [] := by
  obtain ⟨p, pv, m2, hc, _, _, hev, _, h5, h6, h7⟩ :=
    EraseAfter_list (k := 0) h (by simp)
  have hp : p = self := by simpa [cursorAt, before_begin] using hc.symm
  subst hp
  refine ⟨m2, ?_, by simpa using h5, by simpa using h6, h7⟩
  rw [← PopFront_as_EraseAfter]
  exact forget_eq_ok hev

/-- Effect of `Clear` on a list object that heads a null-terminated chain, whatever its
cached size. -/
theorem Clear_list {self : Addr} : ∀ {ns : List (Addr × T)} (fuel : Nat)
    {m : Memory T}, IsList m self ns → ns.length < fuel →
    ∃ m2, Clear fuel m self = .ok m2 () ∧ Valid m2 self [] ∧
      (∀ x ∈ addrs ns, m2.node x = none) ∧ FrameOf m m2 self ns []
  | [], f + 1, m, h, _ => by
    obtain ⟨hv, hs, hseg⟩ := IsList_sentinel h
    refine ⟨setSize m self 0, ?_, ⟨IsList_setSize h, by simp⟩, by simp [addrs], ?_⟩
    · simp [Clear, hs, headOr]
    · exact ⟨fun _ _ _ _ => rfl, fun x hx _ => by simp [hx]⟩
  | n :: rest, f + 1, m, h, hf => by
    obtain ⟨hv, hs, hseg⟩ := IsList_sentinel h
    have hr : m.node n.1 = some ⟨n.2, headOr rest none⟩ := hseg.2.1
    have hnd := Seg_nodup hseg
    have hne : n.1 ≠ self := by
      intro e
      simp [addrs, e] at hnd
    have hnr : n.1 ∉ addrs rest := by
      simp only [addrs_cons, List.nodup_cons] at hnd
      exact hnd.2.1
    have her := Seg_erase [] hseg
    have hl2 := IsList_of_Seg her
    obtain ⟨m3, hc, hv3, hdead, hfr⟩ := Clear_list f hl2 (by simpa using hf)
    refine ⟨m3, ?_, hv3, ?_, ?_⟩
    · simp only [Clear, hs, headOr, hr, setNext, setNode_node, Ne.symm hne, if_false]
      exact hc
    · intro x hx
      simp only [addrs_cons, List.mem_cons] at hx
      rcases hx with e | hx
      · rw [e, hfr.1 n.1 hne hnr (by simp)]
        simp [hne]
      · exact hdead x hx
    · refine ⟨fun x hx1 hx2 _ => ?_, fun x hx hx3 => hfr.2 x hx hx3⟩
      simp only [addrs_cons, List.mem_cons, not_or] at hx2
      rw [hfr.1 x hx1 hx2.2 (by simp)]
      simp [hx1, hx2.1]

/-- Effect of `swap` on two distinct list objects with separate chains. -/
theorem swap_list {m : Memory T} {a b : Addr} {na nb : List (Addr × T)}
    (ha : IsList m a na) (hb : IsList m b nb) (hab : a ≠ b)
    (h1 : a ∉ addrs nb) (h2 : b ∉ addrs na) :
    ∃ m2, swap m a b = .ok m2 () ∧ IsList m2 a nb ∧ IsList m2 b na ∧
      m2.size_ a = m.size_ b ∧ m2.size_ b = m.size_ a ∧
      (∀ x, x ≠ a → x ≠ b → m2.node x = m.node x) ∧
      (∀ x, x ≠ a → x ≠ b → m2.size_ x = m.size_ x) := by
  obtain ⟨va, hsa, hsega⟩ := IsList_sentinel ha
  obtain ⟨vb, hsb, hsegb⟩ := IsList_sentinel hb
  have hnda := IsList_nodup ha
  have hndb := IsList_nodup hb
  rw [List.nodup_cons] at hnda hndb
  refine ⟨_, by simp only [swap, hsa, hsb]; rfl, ?_, ?_, ?_, ?_, ?_, ?_⟩
  · apply IsList_setSize; apply IsList_setSize
    refine ⟨by simp [hab], Seg_frame (fun x hx => ?_) hsegb.2⟩
    have : x ≠ a := fun e => h1 (e ▸ hx)
    have : x ≠ b := fun e => hndb.1 (e ▸ hx)
    simp [*]
  · apply IsList_setSize; apply IsList_setSize
    refine ⟨by simp, Seg_frame (fun x hx => ?_) hsega.2⟩
    have : x ≠ a := fun e => hnda.1 (e ▸ hx)
    have : x ≠ b := fun e => h2 (e ▸ hx)
    simp [*]
  · simp [hab]
  · simp
  · intro x hxa hxb; simp [hxa, hxb]
  · intro x hxa hxb; simp [hxa, hxb]

theorem swap_self {m : Memory T} {a : Addr} {na : List (Addr × T)} (ha : IsList m a na) :
    swap m a a = .ok m () := by
  obtain ⟨va, hsa, _⟩ := IsList_sentinel ha
  simp only [swap, hsa]
  congr 1
  apply Memory.ext
  · intro x
    by_cases e : x = a
    · simp [e, hsa]
    · simp [e]
  · intro x
    by_cases e : x = a
    · simp [e]
    · simp [e]

/-- The copy loop of `BuildList`: it appends to the chain ending in `curr` one fresh node
per remaining source node, and throws when the allocator runs out. -/
theorem BuildList_loop_list {c : Addr} {nc : List (Addr × T)} :
    ∀ {rest : List (Addr × T)} (fuel : Nat) {m : Memory T} (pre : List (Addr × T))
      (curr : Addr) (cv : T) {fr : List Addr},
    IsList m c nc → Seg m rest none → (∀ x ∈ addrs rest, x ∈ addrs nc) →
    Seg m (pre ++ [(curr, cv)]) none →
    (∀ x ∈ c :: addrs nc, x ∉ addrs (pre ++ [(curr, cv)])) →
    fr.Nodup → (∀ a ∈ fr, m.node a = none) → nc.length + rest.length + 2 ≤ fuel →
    ∃ m2, BuildList_loop fuel m c (headOr rest none) curr fr =
        (if rest.length ≤ fr.length then .ok m2 () else .bad_alloc m2) ∧
      Seg m2 (pre ++ (curr, cv) :: fr.zip (vals rest)) none ∧
      (∀ x, x ≠ curr → x ∉ fr → m2.node x = m.node x) ∧ m2.size_ = m.size_
  | [], f + 1, m, pre, curr, cv, fr, hc, _, _, hb, _, _, _, hf => by
    refine ⟨m, ?_, by simpa [vals] using hb, fun _ _ _ => rfl, rfl⟩
    simp [BuildList_loop, end_eval hc (show nc.length < f by simp at hf; omega), Eval.run, headOr]
  | n :: rest, f + 1, m, pre, curr, cv, [], hc, hr, _, hb, _, _, _, hf => by
    refine ⟨m, ?_, by simpa [vals] using hb, fun _ _ _ => rfl, rfl⟩
    simp [BuildList_loop, end_eval hc (show nc.length < f by simp at hf; omega), Eval.run, headOr,
      iter_deref, hr.1]
  | n :: rest, f + 1, m, pre, curr, cv, a :: fr, hc, hr, hsub, hb, hdis, hnd, hfresh, hf => by
    have hend := end_eval hc (show nc.length < f by simp at hf; omega)
    have ha : m.node a = none := hfresh a (by simp)
    have hcurr : m.node curr = some ⟨cv, none⟩ := ((Seg_append m pre _ none).1 hb).2.1
    have hac : a ≠ curr := fun e => by rw [e, hcurr] at ha; cases ha
    have hn1 : n.1 ∈ addrs nc := hsub n.1 (by simp [addrs])
    have hna : n.1 ≠ a := fun e => by
      have h1 := hr.1
      rw [e, ha] at h1; cases h1
    have hnc : n.1 ≠ curr := fun e =>
      hdis n.1 (by simp [hn1]) (by simp [addrs, e])
    rw [List.nodup_cons] at hnd
    -- the memory after one iteration
    have hb2 := Seg_insert pre n.2 hb ha
    have hframe : ∀ x, x ≠ curr → x ≠ a →
        (setNode (setNode m a (some ⟨n.2, none⟩)) curr (some ⟨cv, some a⟩)).node x = m.node x := by
      intro x h1 h2; simp [h1, h2]
    have hlive : ∀ x ∈ c :: addrs nc, x ≠ curr ∧ x ≠ a := by
      intro x hx
      refine ⟨fun e => hdis x hx (by simp [addrs, e]), fun e => ?_⟩
      rcases List.mem_cons.1 hx with e2 | e2
      · obtain ⟨_, hs, _⟩ := IsList_sentinel hc
        rw [← e2, e, ha] at hs; cases hs
      · exact Seg_live hc.2 e2 (e ▸ ha)
    have hc2 : IsList (setNode (setNode m a (some ⟨n.2, none⟩)) curr (some ⟨cv, some a⟩)) c nc := by
      refine ⟨?_, Seg_frame (fun x hx => ?_) hc.2⟩
      · rw [hframe c (hlive c (by simp)).1 (hlive c (by simp)).2]; exact hc.1
      · exact hframe x (hlive x (by simp [hx])).1 (hlive x (by simp [hx])).2
    have hsub2 : ∀ x ∈ addrs rest, x ∈ addrs nc := fun x hx => hsub x (by simp [addrs] at hx ⊢; right; exact hx)
    have hr2 : Seg (setNode (setNode m a (some ⟨n.2, none⟩)) curr (some ⟨cv, some a⟩)) rest none :=
      Seg_frame (fun x hx => hframe x (hlive x (by simp [hsub2 x hx])).1
        (hlive x (by simp [hsub2 x hx])).2) hr.2
    obtain ⟨m3, hev, hseg3, hfr3, hsz3⟩ := BuildList_loop_list f
      (pre ++ [(curr, cv)]) a n.2 hc2 hr2 hsub2
      (by simpa using hb2)
      (by
        intro x hx
        have := hdis x hx
        simp only [addrs_append, List.mem_append, not_or] at this ⊢
        refine ⟨this, ?_⟩
        simp [addrs, (hlive x hx).2])
      hnd.2
      (by
        intro x hx
        have hxa : x ≠ a := fun e => hnd.1 (e ▸ hx)
        have hxc : x ≠ curr := fun e => by
          have := hfresh x (by simp [hx]); rw [e, hcurr] at this; cases this
        rw [hframe x hxc hxa]; exact hfresh x (by simp [hx]))
      (by simp at hf ⊢; omega)
    refine ⟨m3, ?_, by simpa [vals] using hseg3, ?_, by rw [hsz3]; rfl⟩
    · simp only [BuildList_loop, hend, Eval.run, headOr, iter_deref, hr.1, setNext, setNode_node,
        Ne.symm hac, if_false, hcurr, iter_next, hnc, hna, List.length_cons,
        Nat.add_le_add_iff_right]
      simpa [headOr] using hev
    · intro x h1 h2
      simp only [List.mem_cons, not_or] at h2
      rw [hfr3 x h2.1 h2.2, hframe x h1 h2.1]

theorem IsList_frame {m m2 : Memory T} {self : Addr} {ns : List (Addr × T)}
    (h : IsList m self ns) (hself : m2.node self = m.node self)
    (hch : ∀ x ∈ addrs ns, m2.node x = m.node x) : IsList m2 self ns :=
  ⟨by rw [hself]; exact h.1, Seg_frame hch h.2⟩

theorem IsList_live {m : Memory T} {self : Addr} {ns : List (Addr × T)} (h : IsList m self ns)
    {x : Addr} (hx : x ∈ self :: addrs ns) : m.node x ≠ none := by
  rcases List.mem_cons.1 hx with e | e
  · obtain ⟨_, hs, _⟩ := IsList_sentinel h
    rw [e, hs]; simp
  · exact Seg_live h.2 e

theorem addrs_zip_subset {fr : List Addr} {vs : List T} {x : Addr}
    (hx : x ∈ addrs (fr.zip vs)) : x ∈ fr := by
  obtain ⟨p, hp, rfl⟩ := List.mem_map.1 hx
  exact (List.of_mem_zip (a := p.1) (b := p.2) hp).1

theorem vals_zip {fr : List Addr} {vs : List T} (h : vs.length ≤ fr.length) :
    vals (fr.zip vs) = vs := List.map_snd_zip _ _ h

@[simp] theorem Construct_node [Inhabited T] (m : Memory T) (self x : Addr) :
    (Construct m self).node x = if x = self then some ⟨default, none⟩ else m.node x := rfl

@[simp] theorem Construct_size [Inhabited T] (m : Memory T) (self x : Addr) :
    (Construct m self).size_ x = if x = self then 0 else m.size_ x := rfl

/-- Last part of a successful `BuildList`: the size of `temp` is set, `temp` is swapped
with the target and destroyed with the target's old chain. -/
theorem BuildList_publish {m m1 : Memory T} {self tmp : Addr} {ns built : List (Addr × T)}
    {fresh : List Addr} {fuel k : Nat}
    (hs : IsList m self ns) (htmp : m.node tmp = none) (hnd : (tmp :: fresh).Nodup)
    (hfresh : ∀ a ∈ fresh, m.node a = none)
    (hnode1 : ∀ x, x ≠ tmp → x ∉ fresh → m1.node x = m.node x)
    (hsz1 : ∀ x, x ≠ tmp → m1.size_ x = m.size_ x)
    (ht1 : IsList m1 tmp built) (hb : ∀ x ∈ addrs built, x ∈ fresh) (hk : k = built.length)
    (hf : ns.length < fuel) :
    ∃ m2, leaveScope fuel tmp (swap (setSize m1 tmp (k % SIZE_MAX_PLUS_ONE)) self tmp) =
        .ok m2 () ∧
      Valid m2 self built ∧ (∀ x ∈ addrs ns, m2.node x = none) ∧
      m2.node tmp = none ∧ FrameOf m m2 self ns (tmp :: fresh) := by
  rw [List.nodup_cons] at hnd
  have hlt : ∀ x, m.node x ≠ none → x ≠ tmp := fun x h e => h (e ▸ htmp)
  have hlf : ∀ x, m.node x ≠ none → x ∉ fresh := fun x h e => h (hfresh x e)
  have hst : self ≠ tmp := hlt _ (IsList_live hs (by simp))
  have hs1 : IsList m1 self ns :=
    IsList_frame hs (hnode1 self hst (hlf _ (IsList_live hs (by simp)))) (fun x hx =>
      hnode1 x (hlt x (IsList_live hs (by simp [hx]))) (hlf x (IsList_live hs (by simp [hx]))))
  have htns : tmp ∉ addrs ns := fun e => hlt tmp (IsList_live hs (by simp [e])) rfl
  have hsb : self ∉ addrs built := fun e => hlf self (IsList_live hs (by simp)) (hb _ e)
  have hbns : ∀ x ∈ addrs built, x ∉ addrs ns := fun x hx e =>
    hlf x (IsList_live hs (by simp [e])) (hb _ hx)
  have hbt : ∀ x ∈ addrs built, x ≠ tmp := fun x hx e => hnd.1 (e ▸ hb _ hx)
  have hsn : self ∉ addrs ns := (List.nodup_cons.1 (IsList_nodup hs)).1
  obtain ⟨m3, hsw, hs3, ht3, hsz3, _, hn3, hz3⟩ := swap_list
    (m := setSize m1 tmp (k % SIZE_MAX_PLUS_ONE))
    (IsList_setSize hs1) (IsList_setSize ht1) hst hsb htns
  obtain ⟨m4, hcl, hv4, hdead4, hfr4⟩ := Clear_list fuel ht3 hf
  rw [hsw]
  simp only [leaveScope, Destroy, hcl]
  refine ⟨setNode m4 tmp none, rfl, ⟨?_, ?_⟩, ?_, by simp, ?_, ?_⟩
  · refine IsList_frame hs3 ?_ (fun x hx => ?_)
    · simp only [setNode_node, hst, if_false]
      exact hfr4.1 self hst hsn (by simp)
    · simp only [setNode_node, hbt x hx, if_false]
      exact hfr4.1 x (hbt x hx) (hbns x hx) (by simp)
  · have e1 : (setNode m4 tmp none).size_ self = m3.size_ self := hfr4.2 self hst (by simp)
    rw [e1, hsz3]
    simp only [setSize_size, if_true, hk]
    exact Nat.mod_eq_of_lt (IsList_length_lt ht1)
  · intro x hx
    have : x ≠ tmp := fun e => htns (e ▸ hx)
    simp only [setNode_node, this, if_false]
    exact hdead4 x hx
  · intro x h1 h2 h3
    simp only [List.mem_cons, not_or] at h3
    simp only [setNode_node, h3.1, if_false]
    rw [hfr4.1 x h3.1 h2 (by simp), hn3 x h1 h3.1]
    exact hnode1 x h3.1 h3.2
  · intro x h1 h3
    simp only [List.mem_cons, not_or] at h3
    have e1 : (setNode m4 tmp none).size_ x = m3.size_ x := hfr4.2 x h3.1 (by simp)
    rw [e1, hz3 x h1 h3.1]
    simp only [setSize_size, h3.1, if_false]
    exact hsz1 x h3.1

/-- A `std::bad_alloc` leaving `BuildList`: `temp` is destroyed with the nodes built so
far, and every node is as before the call. -/
theorem BuildList_unwind {m m1 : Memory T} (self : Addr) {tmp : Addr} (ns : List (Addr × T))
    {built : List (Addr × T)} {fresh : List Addr} {fuel : Nat}
    (htmp : m.node tmp = none) (hst : self ≠ tmp)
    (hfresh : ∀ a ∈ fresh, m.node a = none)
    (hnode1 : ∀ x, x ≠ tmp → x ∉ fresh → m1.node x = m.node x)
    (hsz1 : ∀ x, x ≠ tmp → m1.size_ x = m.size_ x)
    (ht1 : IsList m1 tmp built) (haddr : addrs built = fresh) (hf : built.length < fuel) :
    ∃ m2, leaveScope fuel tmp (.bad_alloc m1) = .bad_alloc m2 ∧
      (∀ x, m2.node x = m.node x) ∧ m2.size_ self = m.size_ self ∧
      m2.node tmp = none ∧ FrameOf m m2 self ns (tmp :: fresh) := by
  obtain ⟨m4, hcl, hv4, hdead4, hfr4⟩ := Clear_list fuel ht1 hf
  simp only [leaveScope, Destroy, hcl]
  have hnodes : ∀ x, (setNode m4 tmp none).node x = m.node x := by
    intro x
    by_cases h1 : x = tmp
    · simp [h1, htmp]
    · simp only [setNode_node, h1, if_false]
      by_cases h2 : x ∈ fresh
      · rw [hdead4 x (by rw [haddr]; exact h2), hfresh x h2]
      · rw [hfr4.1 x h1 (by rw [haddr]; exact h2) (by simp)]
        exact hnode1 x h1 h2
  have hsizes : ∀ x, x ≠ tmp → (setNode m4 tmp none).size_ x = m.size_ x := by
    intro x h1
    have e1 : (setNode m4 tmp none).size_ x = m1.size_ x := hfr4.2 x h1 (by simp)
    rw [e1, hsz1 x h1]
  refine ⟨setNode m4 tmp none, rfl, hnodes, hsizes self hst, by simp, ?_, ?_⟩
  · intro x _ _ _; exact hnodes x
  · intro x _ h3
    simp only [List.mem_cons, not_or] at h3
    exact hsizes x h3.1

/-- Effect of `BuildList` from another list object `c`: on success the target owns a
fresh copy and its old chain is released, on allocation failure every node is as
before. -/
theorem BuildList_list [Inhabited T] {m : Memory T} {self c tmp : Addr}
    {ns nc : List (Addr × T)} {fresh : List Addr} (fuel : Nat)
    (hs : IsList m self ns) (hc : IsList m c nc) (hne : self ≠ c)
    (htmp : m.node tmp = none) (hnd : (tmp :: fresh).Nodup)
    (hfresh : ∀ a ∈ fresh, m.node a = none)
    (hf : 2 * nc.length + ns.length + 3 ≤ fuel) :
    ∃ m2, BuildList fuel m self c tmp fresh =
        (if nc.length ≤ fresh.length then .ok m2 () else .bad_alloc m2) ∧
      (if nc.length ≤ fresh.length then
        Valid m2 self (fresh.zip (vals nc)) ∧ (∀ x ∈ addrs ns, m2.node x = none)
       else (∀ x, m2.node x = m.node x) ∧ m2.size_ self = m.size_ self) ∧
      m2.node tmp = none ∧ FrameOf m m2 self ns (tmp :: fresh) := by
  have hnd2 := List.nodup_cons.1 hnd
  have hlt : ∀ x, m.node x ≠ none → x ≠ tmp := fun x h e => h (e ▸ htmp)
  have hlf : ∀ x, m.node x ≠ none → x ∉ fresh := fun x h e => h (hfresh x e)
  have hst : self ≠ tmp := hlt _ (IsList_live hs (by simp))
  have hct : c ≠ tmp := hlt _ (IsList_live hc (by simp))
  have hc0 : IsList (Construct m tmp) c nc :=
    IsList_frame hc (by simp [hct]) (fun x hx => by
      simp [hlt x (IsList_live hc (by simp [hx]))])
  obtain ⟨m1, hloop, hseg1, hfr1, hsz1⟩ := BuildList_loop_list fuel [] tmp default
    hc0 hc0.2 (fun _ h => h) ⟨by simp [headOr], trivial⟩
    (by
      intro x hx
      simp only [List.nil_append, addrs, List.map_cons, List.map_nil, List.mem_singleton]
      exact hlt x (IsList_live hc hx))
    hnd2.2
    (by
      intro a ha
      have : a ≠ tmp := fun e => hnd2.1 (e ▸ ha)
      simp [this, hfresh a ha])
    (by omega)
  simp only [List.nil_append] at hseg1
  have hnode1 : ∀ x, x ≠ tmp → x ∉ fresh → m1.node x = m.node x := by
    intro x h1 h2
    rw [hfr1 x h1 h2]; simp [h1]
  have hsize1 : ∀ x, x ≠ tmp → m1.size_ x = m.size_ x := by
    intro x h1
    rw [hsz1]; simp [h1]
  have hc1 : IsList m1 c nc :=
    IsList_frame hc (hnode1 c hct (hlf _ (IsList_live hc (by simp)))) (fun x hx =>
      hnode1 x (hlt x (IsList_live hc (by simp [hx]))) (hlf x (IsList_live hc (by simp [hx]))))
  have ht1 : IsList m1 tmp (fresh.zip (vals nc)) := IsList_of_Seg hseg1
  simp only [BuildList, hne, if_false, begin_eval hc0, Eval.run, hloop]
  by_cases hle : nc.length ≤ fresh.length
  · simp only [hle, if_true]
    have hdist : std_distance fuel m1 (headOr nc none) none 0 = .val (0 + nc.length) :=
      std_distance_eval 0 hc1.2 (by omega)
    rw [begin_eval hc1, end_eval hc1 (show nc.length < fuel by omega)]
    simp only [hdist, Nat.zero_add]
    obtain ⟨m2, h1, h2, h3, h4, h5⟩ := BuildList_publish (k := nc.length) hs htmp hnd hfresh
      hnode1 hsize1 ht1 (fun x hx => addrs_zip_subset hx)
      (by simp [vals, List.length_zip, hle]) (show ns.length < fuel by omega)
    exact ⟨m2, h1, ⟨h2, h3⟩, h4, h5⟩
  · simp only [hle, if_false]
    have hlen : (fresh.zip (vals nc)).length < fuel := by
      simp only [List.length_zip, vals, List.length_map]; omega
    obtain ⟨m2, h1, h2, h3, h4, h5⟩ := BuildList_unwind self ns htmp hst hfresh
      hnode1 hsize1 ht1
      (by unfold addrs; exact List.map_fst_zip _ _ (by simp [vals]; omega)) hlen
    exact ⟨m2, h1, ⟨h2, h3⟩, h4, h5⟩

/-- The copy loop of `BuildList` over an initializer list. -/
theorem BuildList_il_loop_list :
    ∀ (values : List T) {m : Memory T} (pre : List (Addr × T)) (curr : Addr) (cv : T)
      {fr : List Addr},
    Seg m (pre ++ [(curr, cv)]) none → fr.Nodup → (∀ a ∈ fr, m.node a = none) →
    ∃ m2, BuildList_il_loop m values curr fr =
        (if values.length ≤ fr.length then .ok m2 () else .bad_alloc m2) ∧
      Seg m2 (pre ++ (curr, cv) :: fr.zip values) none ∧
      (∀ x, x ≠ curr → x ∉ fr → m2.node x = m.node x) ∧ m2.size_ = m.size_
  | [], m, pre, curr, cv, fr, hb, _, _ =>
    ⟨m, by simp [BuildList_il_loop], by simpa using hb, fun _ _ _ => rfl, rfl⟩
  | v :: values, m, pre, curr, cv, [], hb, _, _ =>
    ⟨m, by simp [BuildList_il_loop], by simpa using hb, fun _ _ _ => rfl, rfl⟩
  | v :: values, m, pre, curr, cv, a :: fr, hb, hnd, hfresh => by
    have ha : m.node a = none := hfresh a (by simp)
    have hcurr : m.node curr = some ⟨cv, none⟩ := ((Seg_append m pre _ none).1 hb).2.1
    have hac : a ≠ curr := fun e => by rw [e, hcurr] at ha; cases ha
    rw [List.nodup_cons] at hnd
    have hb2 := Seg_insert pre v hb ha
    obtain ⟨m3, hev, hseg3, hfr3, hsz3⟩ := BuildList_il_loop_list values
      (pre ++ [(curr, cv)]) a v
      (by simpa using hb2) hnd.2
      (by
        intro x hx
        have hxa : x ≠ a := fun e => hnd.1 (e ▸ hx)
        have hxc : x ≠ curr := fun e => by
          have := hfresh x (by simp [hx]); rw [e, hcurr] at this; cases this
        simp [hxa, hxc, hfresh x (by simp [hx])])
    refine ⟨m3, ?_, by simpa using hseg3, ?_, by rw [hsz3]; rfl⟩
    · simp only [BuildList_il_loop, setNext, setNode_node, Ne.symm hac, if_false, hcurr,
        List.length_cons, Nat.add_le_add_iff_right]
      simpa [headOr] using hev
    · intro x h1 h2
      simp only [List.mem_cons, not_or] at h2
      rw [hfr3 x h2.1 h2.2]; simp [h1, h2.1]

/-- Effect of `BuildList` from an initializer list. -/
theorem BuildList_il_list [Inhabited T] {m : Memory T} {self tmp : Addr}
    {ns : List (Addr × T)} (values : List T) {fresh : List Addr} (fuel : Nat)
    (hs : IsList m self ns) (htmp : m.node tmp = none) (hnd : (tmp :: fresh).Nodup)
    (hfresh : ∀ a ∈ fresh, m.node a = none)
    (hf : values.length + ns.length + 1 ≤ fuel) :
    ∃ m2, BuildList_il fuel m self values tmp fresh =
        (if values.length ≤ fresh.length then .ok m2 () else .bad_alloc m2) ∧
      (if values.length ≤ fresh.length then
        Valid m2 self (fresh.zip values) ∧ (∀ x ∈ addrs ns, m2.node x = none)
       else (∀ x, m2.node x = m.node x) ∧ m2.size_ self = m.size_ self) ∧
      m2.node tmp = none ∧ FrameOf m m2 self ns (tmp :: fresh) := by
  have hnd2 := List.nodup_cons.1 hnd
  have hlt : ∀ x, m.node x ≠ none → x ≠ tmp := fun x h e => h (e ▸ htmp)
  have hst : self ≠ tmp := hlt _ (IsList_live hs (by simp))
  obtain ⟨m1, hloop, hseg1, hfr1, hsz1⟩ := BuildList_il_loop_list values
    (m := Construct m tmp) [] tmp default
    ⟨by simp [headOr], trivial⟩ hnd2.2
    (by
      intro a ha
      have : a ≠ tmp := fun e => hnd2.1 (e ▸ ha)
      simp [this, hfresh a ha])
  simp only [List.nil_append] at hseg1
  have hnode1 : ∀ x, x ≠ tmp → x ∉ fresh → m1.node x = m.node x := by
    intro x h1 h2
    rw [hfr1 x h1 h2]; simp [h1]
  have hsize1 : ∀ x, x ≠ tmp → m1.size_ x = m.size_ x := by
    intro x h1
    rw [hsz1]; simp [h1]
  have ht1 : IsList m1 tmp (fresh.zip values) := IsList_of_Seg hseg1
  simp only [BuildList_il, hloop]
  by_cases hle : values.length ≤ fresh.length
  · simp only [hle, if_true]
    obtain ⟨m2, h1, h2, h3, h4, h5⟩ := BuildList_publish (k := values.length) hs htmp hnd hfresh
      hnode1 hsize1 ht1 (fun x hx => addrs_zip_subset hx)
      (by simp [List.length_zip, hle]) (show ns.length < fuel by omega)
    exact ⟨m2, h1, ⟨h2, h3⟩, h4, h5⟩
  · simp only [hle, if_false]
    have hlen : (fresh.zip values).length < fuel := by
      simp only [List.length_zip]; omega
    obtain ⟨m2, h1, h2, h3, h4, h5⟩ := BuildList_unwind self ns htmp hst hfresh
      hnode1 hsize1 ht1
      (by unfold addrs; exact List.map_fst_zip _ _ (by omega)) hlen
    exact ⟨m2, h1, ⟨h2, h3⟩, h4, h5⟩

theorem Outcome.le_self {α : Type} (o : Outcome T α) : o.le o := Or.inr rfl

theorem Eval.le_same {α : Type} (e : Eval α) : e.le e := Or.inr rfl

theorem Eval.run_le {α β : Type} {e1 e2 : Eval α} {k1 k2 : α → Outcome T β}
    (he : e1.le e2) (hk : ∀ a, (k1 a).le (k2 a)) : (e1.run k1).le (e2.run k2) := by
  rcases he with h | h
  · left; rw [h]; rfl
  · rw [← h]
    cases e1 with
    | val r => exact hk r
    | undefined => right; rfl
    | out_of_fuel => left; rfl

theorem Eval.andThen_le {α β : Type} {e1 e2 : Eval α} {k1 k2 : α → Eval β}
    (he : e1.le e2) (hk : ∀ a, (k1 a).le (k2 a)) : (e1.andThen k1).le (e2.andThen k2) := by
  rcases he with h | h
  · left; rw [h]; rfl
  · rw [← h]
    cases e1 with
    | val r => exact hk r
    | undefined => right; rfl
    | out_of_fuel => left; rfl

theorem FindListEnd_loop_le {m : Memory T} : ∀ {f1 f2 : Nat} (p : NodePtr), f1 ≤ f2 →
    (FindListEnd_loop f1 m p).le (FindListEnd_loop f2 m p)
  | 0, _, _, _ => Or.inl rfl
  | f1 + 1, 0, _, h => absurd h (Nat.not_succ_le_zero f1)
  | f1 + 1, f2 + 1, p, h => by
    cases p with
    | none => exact Or.inr rfl
    | some a =>
      cases hn : m.node a with
      | none => right; simp [FindListEnd_loop, hn]
      | some n =>
        simp only [FindListEnd_loop, hn]
        exact FindListEnd_loop_le n.next_node (Nat.le_of_succ_le_succ h)

theorem end_le {m : Memory T} {f1 f2 : Nat} (self : Addr) (h : f1 ≤ f2) :
    (end_ f1 m self).le (end_ f2 m self) := by
  unfold end_ FindListEnd
  cases m.node self with
  | none => exact Or.inr rfl
  | some hd => exact FindListEnd_loop_le _ h

theorem std_distance_le {m : Memory T} : ∀ {f1 f2 : Nat} (first last : NodePtr) (n : Nat),
    f1 ≤ f2 → (std_distance f1 m first last n).le (std_distance f2 m first last n)
  | 0, _, _, _, _, _ => Or.inl rfl
  | f1 + 1, 0, _, _, _, h => absurd h (Nat.not_succ_le_zero f1)
  | f1 + 1, f2 + 1, first, last, n, h => by
    simp only [std_distance]
    by_cases e : first = last
    · simp only [e, if_true]; exact Or.inr rfl
    · simp only [e, if_false]
      exact Eval.andThen_le (Eval.le_same _)
        (fun a => std_distance_le a last (n + 1) (Nat.le_of_succ_le_succ h))

theorem Clear_le : ∀ {f1 f2 : Nat} (m : Memory T) (self : Addr), f1 ≤ f2 →
    (Clear f1 m self).le (Clear f2 m self)
  | 0, _, _, _, _ => Or.inl rfl
  | f1 + 1, 0, _, _, h => absurd h (Nat.not_succ_le_zero f1)
  | f1 + 1, f2 + 1, m, self, h => by
    cases h0 : m.node self with
    | none => right; simp only [Clear, h0]
    | some hd =>
      cases h1 : hd.next_node with
      | none => right; simp only [Clear, h0, h1]
      | some nx =>
        cases h2 : m.node nx with
        | none => right; simp only [Clear, h0, h1, h2]
        | some n =>
          cases h3 : setNext (setNode m nx none) self n.next_node with
          | none => right; simp only [Clear, h0, h1, h2, h3]
          | some m2 =>
            simp only [Clear, h0, h1, h2, h3]
            exact Clear_le m2 self (Nat.le_of_succ_le_succ h)

theorem Destroy_le {f1 f2 : Nat} (m : Memory T) (self : Addr) (h : f1 ≤ f2) :
    (Destroy f1 m self).le (Destroy f2 m self) := by
  unfold Destroy
  rcases Clear_le m self h with e | e
  · left; rw [e]
  · rw [← e]; exact Or.inr rfl

theorem leaveScope_le {f1 f2 : Nat} (tmp : Addr) {o1 o2 : Outcome T Unit} (h : f1 ≤ f2)
    (ho : o1.le o2) : (leaveScope f1 tmp o1).le (leaveScope f2 tmp o2) := by
  rcases ho with e | e
  · left; rw [e]; rfl
  · rw [← e]
    cases o1 with
    | ok m r => exact Destroy_le m tmp h
    | bad_alloc m =>
      simp only [leaveScope]
      rcases Destroy_le m tmp h with e2 | e2
      · left; rw [e2]
      · rw [← e2]; exact Or.inr rfl
    | undefined => exact Or.inr rfl
    | out_of_fuel => exact Or.inl rfl

theorem BuildList_loop_le : ∀ {f1 f2 : Nat} (m : Memory T) (c : Addr) (it : NodePtr)
    (curr : Addr) (fresh : List Addr), f1 ≤ f2 →
    (BuildList_loop f1 m c it curr fresh).le (BuildList_loop f2 m c it curr fresh)
  | 0, _, _, _, _, _, _, _ => Or.inl rfl
  | f1 + 1, 0, _, _, _, _, _, h => absurd h (Nat.not_succ_le_zero f1)
  | f1 + 1, f2 + 1, m, c, it, curr, fresh, h => by
    have h2 := Nat.le_of_succ_le_succ h
    simp only [BuildList_loop]
    refine Eval.run_le (end_le c h2) (fun e => ?_)
    by_cases hit : it = e
    · simp only [hit, if_true]; exact Or.inr rfl
    · simp only [hit, if_false]
      refine Eval.run_le (Eval.le_same _) (fun v => ?_)
      cases fresh with
      | nil => exact Or.inr rfl
      | cons a fr =>
        cases h3 : setNext (setNode m a (some ⟨v, none⟩)) curr (some a) with
        | none => right; simp only [h3]
        | some m2 =>
          simp only [h3]
          exact Eval.run_le (Eval.le_same _) (fun it1 => BuildList_loop_le m2 c it1 a fr h2)

theorem BuildList_le [Inhabited T] {f1 f2 : Nat} (m : Memory T) (self c tmp : Addr)
    (fresh : List Addr) (h : f1 ≤ f2) :
    (BuildList f1 m self c tmp fresh).le (BuildList f2 m self c tmp fresh) := by
  unfold BuildList
  by_cases e : self = c
  · simp only [e, if_true]; exact Or.inr rfl
  · simp only [e, if_false]
    refine leaveScope_le tmp h (Eval.run_le (Eval.le_same _) (fun it => ?_))
    rcases BuildList_loop_le (Construct m tmp) c it tmp fresh h with e2 | e2
    · left; rw [e2]
    · rw [← e2]
      cases h3 : BuildList_loop f1 (Construct m tmp) c it tmp fresh with
      | ok m1 r =>
        exact Eval.run_le (Eval.le_same _) (fun b => Eval.run_le (end_le c h) (fun e =>
          Eval.run_le (std_distance_le b e 0 h) (fun n => Outcome.le_self _)))
      | bad_alloc m1 => exact Or.inr rfl
      | undefined => exact Or.inr rfl
      | out_of_fuel => exact Or.inl rfl

theorem BuildList_il_le [Inhabited T] {f1 f2 : Nat} (m : Memory T) (self : Addr)
    (values : List T) (tmp : Addr) (fresh : List Addr) (h : f1 ≤ f2) :
    (BuildList_il f1 m self values tmp fresh).le (BuildList_il f2 m self values tmp fresh) := by
  unfold BuildList_il
  exact leaveScope_le tmp h (Outcome.le_self _)

/-- An outcome that is not `out_of_fuel` is the outcome for every larger fuel. -/
theorem Outcome.le_ok {α : Type} {o1 o2 : Outcome T α} (h : o1.le o2)
    (hne : o1 ≠ .out_of_fuel) : o2 = o1 := by
  rcases h with e | e
  · exact absurd e hne
  · exact e.symm

theorem Reaches_mem {m : Memory T} : ∀ {ns : List (Addr × T)} {b : Addr},
    Seg m ns none → Reaches m (headOr ns none) b → b ∈ addrs ns
  | [], _, _, h => by cases h
  | n :: rest, b, hs, h => by
    simp only [headOr] at h
    cases h with
    | here => simp [addrs]
    | step _ nd _ hn hr =>
      rw [hs.1] at hn
      cases hn
      simp only [addrs_cons, List.mem_cons]
      exact Or.inr (Reaches_mem hs.2 hr)

theorem mem_Reaches {m : Memory T} : ∀ {ns : List (Addr × T)} {b : Addr},
    Seg m ns none → b ∈ addrs ns → Reaches m (headOr ns none) b
  | [], _, _, h => by simp [addrs] at h
  | n :: rest, b, hs, h => by
    simp only [addrs_cons, List.mem_cons] at h
    by_cases e : b = n.1
    · rw [e]; exact Reaches.here _
    · exact Reaches.step _ _ _ hs.1 (mem_Reaches hs.2 (h.resolve_left e))

theorem Reaches_iff {m : Memory T} {ns : List (Addr × T)} (hs : Seg m ns none) (b : Addr) :
    Reaches m (headOr ns none) b ↔ b ∈ addrs ns :=
  ⟨Reaches_mem hs, mem_Reaches hs⟩

/-- A position of a well-formed list is the cursor of some index. -/
theorem IsPosition_index {m : Memory T} {self : Addr} {ns : List (Addr × T)} {pos : NodePtr}
    (h : IsList m self ns) (hp : IsPosition m self pos) :
    ∃ k, k ≤ ns.length ∧ cursorAt self ns k = pos := by
  obtain ⟨b, rfl, hr⟩ := hp
  obtain ⟨hv, hs, hseg⟩ := IsList_sentinel h
  have hb : b ∈ addrs ((self, hv) :: ns) := @Reaches_mem T m ((self, hv) :: ns) b hseg hr
  simp only [addrs_cons, List.mem_cons] at hb
  rcases hb with e | e
  · exact ⟨0, Nat.zero_le _, by rw [e]; rfl⟩
  · obtain ⟨j, hj, hjb⟩ := List.getElem_of_mem e
    have hj2 : j < ns.length := by simpa [addrs] using hj
    refine ⟨j + 1, hj2, ?_⟩
    simp only [cursorAt, Nat.succ_ne_zero, if_false, Nat.add_sub_cancel,
      List.getElem?_eq_getElem hj2, Option.map_some']
    rw [← hjb]; simp [addrs]

theorem InvWith_update {m m2 : Memory T} {ls : List Addr} {ch : Addr → List (Addr × T)}
    {l : Addr} {ns1 : List (Addr × T)} (fr : List Addr)
    (hinv : InvWith m ls ch) (hl : l ∈ ls) (hfr : ∀ a ∈ fr, m.node a = none)
    (hv : Valid m2 l ns1) (hsub : ∀ x ∈ addrs ns1, x ∈ addrs (ch l) ∨ x ∈ fr)
    (hframe : FrameOf m m2 l (ch l) fr) :
    InvWith m2 ls (fun x => if x = l then ns1 else ch x) := by
  obtain ⟨h1, h2, h3⟩ := hinv
  have hlive : ∀ l2 ∈ ls, ∀ x ∈ l2 :: addrs (ch l2), x ∉ fr := fun l2 hl2 x hx e =>
    IsList_live (h1 l2 hl2).1 hx (hfr x e)
  have hnew : ∀ l2 ∈ ls, l2 ≠ l → ∀ x ∈ l2 :: addrs (ch l2), x ∉ addrs ns1 := by
    intro l2 hl2 hne x hx e
    rcases hsub x e with e2 | e2
    · rcases List.mem_cons.1 hx with e3 | e3
      · exact h2 l hl l2 hl2 (e3 ▸ e2)
      · exact h3 l2 hl2 l hl hne x e3 e2
    · exact hlive l2 hl2 x hx e2
  refine ⟨fun l2 hl2 => ?_, fun l2 hl2 l3 hl3 => ?_, fun l2 hl2 l3 hl3 hne x hx => ?_⟩
  · by_cases e : l2 = l
    · simp only [e, if_true]; exact hv
    · simp only [e, if_false]
      have hV := h1 l2 hl2
      have hn : ∀ x ∈ l2 :: addrs (ch l2), m2.node x = m.node x := by
        intro x hx
        refine hframe.1 x ?_ ?_ (hlive l2 hl2 x hx)
        · rcases List.mem_cons.1 hx with e3 | e3
          · rw [e3]; exact e
          · exact fun e4 => h2 l2 hl2 l hl (e4 ▸ e3)
        · rcases List.mem_cons.1 hx with e3 | e3
          · rw [e3]; exact h2 l hl l2 hl2
          · exact h3 l2 hl2 l hl e x e3
      refine ⟨IsList_frame hV.1 (hn l2 (by simp)) (fun x hx => hn x (by simp [hx])), ?_⟩
      rw [hframe.2 l2 e (hlive l2 hl2 l2 (by simp))]
      exact hV.2
  · by_cases e : l2 = l
    · simp only [e, if_true]
      by_cases e2 : l3 = l
      · rw [e2]; exact (List.nodup_cons.1 (IsList_nodup hv.1)).1
      · exact hnew l3 hl3 e2 l3 (by simp)
    · simp only [e, if_false]; exact h2 l2 hl2 l3 hl3
  · by_cases e : l2 = l
    · have e3 : l3 ≠ l := fun e4 => hne (e.trans e4.symm)
      simp only [e, if_true, e3, if_false] at hx ⊢
      exact fun e4 => hnew l3 hl3 e3 x (by simp [e4]) hx
    · by_cases e3 : l3 = l
      · simp only [e, if_false, e3, if_true] at hx ⊢
        exact hnew l2 hl2 e x (by simp [hx])
      · simp only [e, if_false, e3] at hx ⊢
        exact h3 l2 hl2 l3 hl3 hne x hx

theorem Inv_update {m m2 : Memory T} {ls : List Addr} {ch : Addr → List (Addr × T)}
    {l : Addr} {ns1 : List (Addr × T)} (fr : List Addr)
    (hinv : InvWith m ls ch) (hl : l ∈ ls) (hfr : ∀ a ∈ fr, m.node a = none)
    (hv : Valid m2 l ns1) (hsub : ∀ x ∈ addrs ns1, x ∈ addrs (ch l) ∨ x ∈ fr)
    (hframe : FrameOf m m2 l (ch l) fr) : Inv m2 ls :=
  ⟨_, InvWith_update fr hinv hl hfr hv hsub hframe⟩

theorem Inv_swap {m m2 : Memory T} {ls : List Addr} {ch : Addr → List (Addr × T)}
    {a b : Addr} (hinv : InvWith m ls ch) (ha : a ∈ ls) (hb : b ∈ ls) (hab : a ≠ b)
    (hsw : swap m a b = .ok m2 ()) :
    InvWith m2 ls (fun x => if x = a then ch b else if x = b then ch a else ch x) := by
  obtain ⟨h1, h2, h3⟩ := hinv
  obtain ⟨m3, hsw3, ha3, hb3, hsa, hsb, hn, hz⟩ :=
    swap_list (h1 a ha).1 (h1 b hb).1 hab (h2 b hb a ha) (h2 a ha b hb)
  rw [hsw3] at hsw
  cases hsw
  have hba : b ≠ a := Ne.symm hab
  refine ⟨fun l hl => ?_, fun l hl l2 hl2 => ?_, fun l hl l2 hl2 hne x hx => ?_⟩
  · by_cases e : l = a
    · simp only [e, if_true]
      exact ⟨ha3, by rw [hsa]; exact (h1 b hb).2⟩
    · by_cases e2 : l = b
      · simp only [e2, hba, if_false, if_true]
        exact ⟨hb3, by rw [hsb]; exact (h1 a ha).2⟩
      · simp only [e, e2, if_false]
        have hV := h1 l hl
        refine ⟨IsList_frame hV.1 (hn l e e2) (fun x hx => hn x ?_ ?_), ?_⟩
        · exact fun e4 => h2 l hl a ha (e4 ▸ hx)
        · exact fun e4 => h2 l hl b hb (e4 ▸ hx)
        · rw [hz l e e2]; exact hV.2
  · by_cases e : l = a
    · simp only [e, if_true]; exact h2 b hb l2 hl2
    · by_cases e2 : l = b
      · simp only [e2, hba, if_false, if_true]; exact h2 a ha l2 hl2
      · simp only [e, e2, if_false]; exact h2 l hl l2 hl2
  · have key : ∀ y ∈ ls, ∀ z ∈ ls, y ≠ z → ∀ x ∈ addrs (ch y), x ∉ addrs (ch z) := h3
    by_cases e : l = a
    · by_cases f : l2 = a
      · exact absurd (e.trans f.symm) hne
      · by_cases f2 : l2 = b
        · simp only [e, if_true, f2, hba, if_false] at hx ⊢
          exact key b hb a ha hba x hx
        · simp only [e, if_true, f, f2, if_false] at hx ⊢
          exact key b hb l2 hl2 (Ne.symm f2) x hx
    · by_cases e2 : l = b
      · by_cases f : l2 = a
        · simp only [e2, hba, if_false, if_true, f] at hx ⊢
          exact key a ha b hb hab x hx
        · by_cases f2 : l2 = b
          · exact absurd (e2.trans f2.symm) hne
          · simp only [e2, hba, if_false, if_true, f, f2] at hx ⊢
            exact key a ha l2 hl2 (Ne.symm f) x hx
      · by_cases f : l2 = a
        · simp only [e, e2, if_false, f, if_true] at hx ⊢
          exact key l hl b hb e2 x hx
        · by_cases f2 : l2 = b
          · simp only [e, e2, if_false, f2, hba, if_true] at hx ⊢
            exact key l hl a ha e x hx
          · simp only [e, e2, f, f2, if_false] at hx ⊢
            exact key l hl l2 hl2 hne x hx

theorem InvWith_add [Inhabited T] {m : Memory T} {ls : List Addr} {ch : Addr → List (Addr × T)}
    {self : Addr} (hinv : InvWith m ls ch) (hs : m.node self = none) :
    InvWith (Construct m self) (self :: ls) (fun x => if x = self then [] else ch x) := by
  obtain ⟨h1, h2, h3⟩ := hinv
  have hlive : ∀ l ∈ ls, ∀ x ∈ l :: addrs (ch l), x ≠ self := fun l hl x hx e =>
    IsList_live (h1 l hl).1 hx (e ▸ hs)
  refine ⟨fun l hl => ?_, fun l hl l2 hl2 => ?_, fun l hl l2 hl2 hne x hx => ?_⟩
  · by_cases e : l = self
    · simp only [e, if_true]
      exact ⟨⟨by simp [headOr], trivial⟩, by simp⟩
    · have hl2 : l ∈ ls := (List.mem_cons.1 hl).resolve_left e
      simp only [e, if_false]
      have hV := h1 l hl2
      refine ⟨IsList_frame hV.1 (by simp [e]) (fun x hx => ?_), by simpa [e] using hV.2⟩
      simp [hlive l hl2 x (by simp [hx])]
  · by_cases e : l = self
    · simp [e, addrs]
    · have hl' : l ∈ ls := (List.mem_cons.1 hl).resolve_left e
      simp only [e, if_false]
      by_cases e2 : l2 = self
      · rw [e2]; exact fun e3 => hlive l hl' self (by simp [e3]) rfl
      · exact h2 l hl' l2 ((List.mem_cons.1 hl2).resolve_left e2)
  · by_cases e : l = self
    · simp [e, addrs] at hx
    · by_cases e2 : l2 = self
      · simp [e2, addrs]
      · simp only [e, e2, if_false] at hx ⊢
        exact h3 l ((List.mem_cons.1 hl).resolve_left e) l2 ((List.mem_cons.1 hl2).resolve_left e2)
          hne x hx

theorem InvWith_frame {m m2 : Memory T} {ls : List Addr} {ch : Addr → List (Addr × T)}
    (hinv : InvWith m ls ch) (hn : ∀ x, m2.node x = m.node x)
    (hz : ∀ l ∈ ls, m2.size_ l = m.size_ l) : InvWith m2 ls ch :=
  ⟨fun l hl => ⟨IsList_frame (hinv.1 l hl).1 (hn l) (fun x _ => hn x),
    by rw [hz l hl]; exact (hinv.1 l hl).2⟩, hinv.2.1, hinv.2.2⟩

theorem cursor_node {m : Memory T} {self : Addr} {ns : List (Addr × T)} {k : Nat}
    (h : IsList m self ns) (hk : k ≤ ns.length) :
    ∃ p pv, cursorAt self ns k = some p ∧ m.node p = some ⟨pv, headOr (ns.drop k) none⟩ := by
  obtain ⟨hv, hs, hseg⟩ := IsList_sentinel h
  obtain ⟨l1, p, pv, hc, hsplit⟩ := cursor_split self hv ns k hk
  rw [cursor_full self hv ns k hsplit] at hseg
  exact ⟨p, pv, hc, ((Seg_append m l1 _ none).1 hseg).2.1⟩

theorem Inv_PushFront {m m2 : Memory T} {ls : List Addr} {self a : Addr} {v : T}
    {ch : Addr → List (Addr × T)} (hi : InvWith m ls ch) (hl : self ∈ ls) (ha : m.node a = none)
    (hop : PushFront m self v (some a) = .ok m2 ()) :
    ∃ ns1, InvWith m2 ls (fun x => if x = self then ns1 else ch x) := by
  obtain ⟨m3, h1, _, h3, h4⟩ := PushFront_list v (hi.1 self hl) ha
  rw [h1] at hop; cases hop
  refine ⟨_, InvWith_update [a] hi hl (by simpa using ha) h3 ?_ h4⟩
  intro x hx
  simp only [addrs_cons, List.mem_cons] at hx
  rcases hx with e | e
  · exact Or.inr (by simp [e])
  · exact Or.inl e

theorem Inv_PushFront_fail {m m2 : Memory T} {ls : List Addr} {self : Addr} {v : T}
    (hinv : Inv m ls) (hop : PushFront m self v none = .bad_alloc m2) : Inv m2 ls := by
  unfold PushFront at hop
  cases hs : m.node self with
  | none => simp [hs] at hop
  | some hd =>
    simp only [hs] at hop
    cases hop
    exact hinv

theorem Inv_PopFront {m m2 : Memory T} {ls : List Addr} {self : Addr}
    {ch : Addr → List (Addr × T)} (hi : InvWith m ls ch) (hl : self ∈ ls) (hne : IsEmpty m self = false)
    (hop : PopFront m self = .ok m2 ()) :
    ∃ ns1, InvWith m2 ls (fun x => if x = self then ns1 else ch x) := by
  have hV := hi.1 self hl
  cases hch : ch self with
  | nil =>
    rw [hch] at hV
    simp [IsEmpty, hV.2] at hne
  | cons n rest =>
    rw [hch] at hV
    obtain ⟨m3, h1, _, h3, h4⟩ := PopFront_list hV
    rw [h1] at hop; cases hop
    refine ⟨_, InvWith_update [] hi hl (by simp) h3 ?_ (hch ▸ h4)⟩
    intro x hx
    rw [hch]
    exact Or.inl (by simp [addrs_cons, hx])

theorem Inv_InsertAfter {m m2 : Memory T} {ls : List Addr} {self a : Addr} {pos c : NodePtr}
    {v : T} {ch : Addr → List (Addr × T)} (hi : InvWith m ls ch) (hl : self ∈ ls) (hpos : IsPosition m self pos)
    (ha : m.node a = none) (hop : InsertAfter m self pos v (some a) = .ok m2 c) :
    ∃ ns1, InvWith m2 ls (fun x => if x = self then ns1 else ch x) := by
  have hV := hi.1 self hl
  obtain ⟨k, hk, hc⟩ := IsPosition_index hV.1 hpos
  obtain ⟨p, pv, m3, hc2, _, _, _, h1, _, _, h3, h4⟩ := InsertAfter_list v hV hk ha
  rw [← hc, hc2, h1] at hop; cases hop
  refine ⟨_, InvWith_update [a] hi hl (by simpa using ha) h3 ?_ h4⟩
  intro x hx
  simp only [addrs_append, addrs_cons, List.mem_append, List.mem_cons] at hx
  rcases hx with e | e | e
  · exact Or.inl (List.mem_map.2 (by
      obtain ⟨y, hy, rfl⟩ := List.mem_map.1 e
      exact ⟨y, List.mem_of_mem_take hy, rfl⟩))
  · exact Or.inr (by simp [e])
  · exact Or.inl (List.mem_map.2 (by
      obtain ⟨y, hy, rfl⟩ := List.mem_map.1 e
      exact ⟨y, List.mem_of_mem_drop hy, rfl⟩))

theorem Inv_InsertAfter_fail {m m2 : Memory T} {ls : List Addr} {self : Addr} {pos : NodePtr}
    {v : T} (hinv : Inv m ls) (hop : InsertAfter m self pos v none = .bad_alloc m2) :
    Inv m2 ls := by
  unfold InsertAfter at hop
  cases pos with
  | none => simp at hop
  | some p =>
    cases hs : m.node p with
    | none => simp [hs] at hop
    | some hd =>
      simp only [hs] at hop
      cases hop
      exact hinv

theorem Inv_EraseAfter {m m2 : Memory T} {ls : List Addr} {self : Addr} {pos c : NodePtr}
    {ch : Addr → List (Addr × T)} (hi : InvWith m ls ch) (hl : self ∈ ls) (hpos : IsPosition m self pos)
    (hsucc : HasSuccessor m pos) (hop : EraseAfter m self pos = .ok m2 c) :
    ∃ ns1, InvWith m2 ls (fun x => if x = self then ns1 else ch x) := by
  have hV := hi.1 self hl
  obtain ⟨k, hk, hc⟩ := IsPosition_index hV.1 hpos
  have hlt : k < (ch self).length := by
    obtain ⟨p, pv, hcp, hp⟩ := cursor_node hV.1 hk
    obtain ⟨r, hr⟩ := hsucc
    rw [← hc, hcp] at hr
    simp only [iter_next, hp, Eval.val.injEq] at hr
    by_contra hge
    rw [List.drop_eq_nil_of_le (by omega)] at hr
    simp [headOr] at hr
  obtain ⟨p, pv, m3, hc2, _, _, h1, _, _, h3, h4⟩ := EraseAfter_list hV hlt
  rw [← hc, hc2, h1] at hop; cases hop
  refine ⟨_, InvWith_update [] hi hl (by simp) h3 ?_ h4⟩
  intro x hx
  simp only [addrs_append, List.mem_append] at hx
  rcases hx with e | e
  · exact Or.inl (List.mem_map.2 (by
      obtain ⟨y, hy, rfl⟩ := List.mem_map.1 e
      exact ⟨y, List.mem_of_mem_take hy, rfl⟩))
  · exact Or.inl (List.mem_map.2 (by
      obtain ⟨y, hy, rfl⟩ := List.mem_map.1 e
      exact ⟨y, List.mem_of_mem_drop hy, rfl⟩))

theorem Inv_Clear {m m2 : Memory T} {ls : List Addr} {self : Addr} {fuel : Nat}
    {ch : Addr → List (Addr × T)} (hi : InvWith m ls ch) (hl : self ∈ ls)
    (hop : Clear fuel m self = .ok m2 ()) :
    ∃ ns1, InvWith m2 ls (fun x => if x = self then ns1 else ch x) := by
  have hV := hi.1 self hl
  obtain ⟨big, hb1, hb2⟩ : ∃ big, fuel ≤ big ∧ (ch self).length < big :=
    ⟨max fuel ((ch self).length + 1), Nat.le_max_left _ _, Nat.le_max_right _ _⟩
  have hbig : Clear big m self = .ok m2 () := by
    rw [Outcome.le_ok (Clear_le m self hb1) (by rw [hop]; simp), hop]
  obtain ⟨m3, h1, h2, _, h4⟩ := Clear_list big hV.1 hb2
  rw [h1] at hbig; cases hbig
  exact ⟨_, InvWith_update [] hi hl (by simp) h2 (by simp [addrs]) h4⟩

theorem Inv_swap_step {m m2 : Memory T} {ls : List Addr} {self other : Addr}
    (hinv : Inv m ls) (hl : self ∈ ls) (ho : other ∈ ls)
    (hop : swap m self other = .ok m2 ()) : Inv m2 ls := by
  obtain ⟨ch, hi⟩ := hinv
  by_cases e : self = other
  · subst e
    rw [swap_self (hi.1 self hl).1] at hop
    cases hop
    exact ⟨ch, hi⟩
  · exact ⟨_, Inv_swap hi hl ho e hop⟩

theorem Inv_BuildList [Inhabited T] {m m2 : Memory T} {ls : List Addr} {self c tmp : Addr}
    {fresh : List Addr} {fuel : Nat} {o : Outcome T Unit}
    (hinv : Inv m ls) (hl : self ∈ ls) (hc : c ∈ ls) (hnd : (tmp :: fresh).Nodup)
    (hfresh : ∀ a ∈ tmp :: fresh, m.node a = none)
    (hop : BuildList fuel m self c tmp fresh = o)
    (ho : o = .ok m2 () ∨ o = .bad_alloc m2) : Inv m2 ls := by
  obtain ⟨ch, hi⟩ := hinv
  by_cases e : self = c
  · simp only [BuildList, e, if_true] at hop
    rw [← hop] at ho
    rcases ho with h | h
    · cases h; exact ⟨ch, hi⟩
    · cases h
  · have hVs := hi.1 self hl
    have hVc := hi.1 c hc
    obtain ⟨big, hb1, hb2⟩ : ∃ big, fuel ≤ big ∧ 2 * (ch c).length + (ch self).length + 3 ≤ big :=
      ⟨max fuel (2 * (ch c).length + (ch self).length + 3), Nat.le_max_left _ _,
        Nat.le_max_right _ _⟩
    have hne : o ≠ .out_of_fuel := by
      rcases ho with h | h <;> rw [h] <;> simp
    have hbig : BuildList big m self c tmp fresh = o := by
      rw [Outcome.le_ok (BuildList_le m self c tmp fresh hb1) (by rw [hop]; exact hne), hop]
    clear hop
    have hop := hbig
    obtain ⟨m3, h1, h2, _, h4⟩ := BuildList_list big hVs.1 hVc.1 e
      (hfresh tmp (by simp)) hnd (fun a ha => hfresh a (by simp [ha])) hb2
    rw [h1] at hop
    by_cases hle : (ch c).length ≤ fresh.length
    · simp only [hle, if_true] at hop h2
      rw [← hop] at ho
      rcases ho with h | h
      · cases h
        exact Inv_update (tmp :: fresh) hi hl hfresh h2.1
          (fun x hx => Or.inr (by simp [addrs_zip_subset hx])) h4
      · cases h
    · simp only [hle, if_false] at hop h2
      rw [← hop] at ho
      rcases ho with h | h
      · cases h
      · cases h
        exact ⟨ch, InvWith_frame hi h2.1 (fun l hl2 => by
          by_cases e2 : l = self
          · rw [e2]; exact h2.2
          · exact h4.2 l e2 (fun e3 =>
              IsList_live (hi.1 l hl2).1 (by simp) (hfresh l e3)))⟩

theorem Inv_BuildList_il [Inhabited T] {m m2 : Memory T} {ls : List Addr} {self tmp : Addr}
    {values : List T} {fresh : List Addr} {fuel : Nat} {o : Outcome T Unit}
    (hinv : Inv m ls) (hl : self ∈ ls) (hnd : (tmp :: fresh).Nodup)
    (hfresh : ∀ a ∈ tmp :: fresh, m.node a = none)
    (hop : BuildList_il fuel m self values tmp fresh = o)
    (ho : o = .ok m2 () ∨ o = .bad_alloc m2) : Inv m2 ls := by
  obtain ⟨ch, hi⟩ := hinv
  have hVs := hi.1 self hl
  obtain ⟨big, hb1, hb2⟩ : ∃ big, fuel ≤ big ∧ values.length + (ch self).length + 1 ≤ big :=
    ⟨max fuel (values.length + (ch self).length + 1), Nat.le_max_left _ _,
      Nat.le_max_right _ _⟩
  have hne : o ≠ .out_of_fuel := by
    rcases ho with h | h <;> rw [h] <;> simp
  have hbig : BuildList_il big m self values tmp fresh = o := by
    rw [Outcome.le_ok (BuildList_il_le m self values tmp fresh hb1) (by rw [hop]; exact hne), hop]
  clear hop
  have hop := hbig
  obtain ⟨m3, h1, h2, _, h4⟩ := BuildList_il_list values big hVs.1
    (hfresh tmp (by simp)) hnd (fun a ha => hfresh a (by simp [ha])) hb2
  rw [h1] at hop
  by_cases hle : values.length ≤ fresh.length
  · simp only [hle, if_true] at hop h2
    rw [← hop] at ho
    rcases ho with h | h
    · cases h
      exact Inv_update (tmp :: fresh) hi hl hfresh h2.1
        (fun x hx => Or.inr (by simp [addrs_zip_subset hx])) h4
    · cases h
  · simp only [hle, if_false] at hop h2
    rw [← hop] at ho
    rcases ho with h | h
    · cases h
    · cases h
      exact ⟨ch, InvWith_frame hi h2.1 (fun l hl2 => by
        by_cases e2 : l = self
        · rw [e2]; exact h2.2
        · exact h4.2 l e2 (fun e3 =>
            IsList_live (hi.1 l hl2).1 (by simp) (hfresh l e3)))⟩

theorem Inv_add [Inhabited T] {m : Memory T} {ls : List Addr} {self : Addr}
    (hinv : Inv m ls) (hs : m.node self = none) : Inv (Construct m self) (self :: ls) := by
  obtain ⟨ch, hi⟩ := hinv
  exact ⟨_, InvWith_add hi hs⟩

theorem Inv_remove {m : Memory T} {ls : List Addr} {self : Addr}
    (hinv : Inv m (self :: ls)) (hs : self ∉ ls) : Inv (setNode m self none) ls := by
  obtain ⟨ch, h1, h2, h3⟩ := hinv
  refine ⟨ch, fun l hl => ?_, fun l hl l2 hl2 => h2 l (by simp [hl]) l2 (by simp [hl2]),
    fun l hl l2 hl2 => h3 l (by simp [hl]) l2 (by simp [hl2])⟩
  have hV := h1 l (by simp [hl])
  have hne : l ≠ self := fun e => hs (e ▸ hl)
  refine ⟨IsList_frame hV.1 (by simp [hne]) (fun x hx => ?_), hV.2⟩
  have : x ≠ self := fun e => h2 l (by simp [hl]) self (by simp) (e ▸ hx)
  simp [this]

theorem Inv_live {m : Memory T} {ls : List Addr} (hinv : Inv m ls) {l : Addr} (hl : l ∈ ls) :
    m.node l ≠ none := by
  obtain ⟨ch, hi⟩ := hinv
  exact IsList_live (hi.1 l hl).1 (by simp)

theorem Inv_ctor {m m2 : Memory T} {ls : List Addr} {self : Addr}
    {o : Outcome T Unit} (hinv : Inv m ls) (hfresh : m.node self = none)
    (hstep : ∀ m3, o = .ok m3 () ∨ o = .bad_alloc m3 → Inv m3 (self :: ls)) :
    (ctorBody self o = .ok m2 () → Inv m2 (self :: ls)) ∧
      (ctorBody self o = .bad_alloc m2 → Inv m2 ls) := by
  have hsl : self ∉ ls := fun e => Inv_live hinv e hfresh
  cases o with
  | ok m3 r =>
    refine ⟨fun h => ?_, fun h => by simp [ctorBody] at h⟩
    simp only [ctorBody, Outcome.ok.injEq] at h
    rw [← h.1]; exact hstep m3 (Or.inl rfl)
  | bad_alloc m3 =>
    refine ⟨fun h => by simp [ctorBody] at h, fun h => ?_⟩
    simp only [ctorBody, Outcome.bad_alloc.injEq] at h
    rw [← h]; exact Inv_remove (hstep m3 (Or.inr rfl)) hsl
  | undefined => exact ⟨fun h => by simp [ctorBody] at h, fun h => by simp [ctorBody] at h⟩
  | out_of_fuel => exact ⟨fun h => by simp [ctorBody] at h, fun h => by simp [ctorBody] at h⟩

theorem Inv_ConstructInit [Inhabited T] {m m2 : Memory T} {ls : List Addr} {self tmp : Addr}
    {values : List T} {fresh : List Addr} {fuel : Nat}
    (hinv : Inv m ls) (hnd : (self :: tmp :: fresh).Nodup)
    (hfresh : ∀ a ∈ self :: tmp :: fresh, m.node a = none) :
    (ConstructInit fuel m self values tmp fresh = .ok m2 () → Inv m2 (self :: ls)) ∧
      (ConstructInit fuel m self values tmp fresh = .bad_alloc m2 → Inv m2 ls) := by
  have hnd2 := List.nodup_cons.1 hnd
  refine Inv_ctor hinv (hfresh self (by simp)) (fun m3 ho => ?_)
  refine Inv_BuildList_il (Inv_add hinv (hfresh self (by simp))) (by simp) hnd2.2 ?_ rfl ho
  intro a ha
  have : a ≠ self := fun e => hnd2.1 (e ▸ ha)
  simp [this, hfresh a (by simp [ha])]

theorem Inv_ConstructCopy [Inhabited T] {m m2 : Memory T} {ls : List Addr} {self other tmp : Addr}
    {fresh : List Addr} {fuel : Nat}
    (hinv : Inv m ls) (ho : other ∈ ls) (hnd : (self :: tmp :: fresh).Nodup)
    (hfresh : ∀ a ∈ self :: tmp :: fresh, m.node a = none) :
    (ConstructCopy fuel m self other tmp fresh = .ok m2 () → Inv m2 (self :: ls)) ∧
      (ConstructCopy fuel m self other tmp fresh = .bad_alloc m2 → Inv m2 ls) := by
  have hnd2 := List.nodup_cons.1 hnd
  refine Inv_ctor hinv (hfresh self (by simp)) (fun m3 hout => ?_)
  refine Inv_BuildList (Inv_add hinv (hfresh self (by simp))) (by simp) (by simp [ho]) hnd2.2
    ?_ rfl hout
  intro a ha
  have : a ≠ self := fun e => hnd2.1 (e ▸ ha)
  simp [this, hfresh a (by simp [ha])]

theorem Inv_assign [Inhabited T] {m m2 : Memory T} {ls : List Addr} {self rhs tmp : Addr}
    {fresh : List Addr} {fuel : Nat}
    (hinv : Inv m ls) (hl : self ∈ ls) (hc : rhs ∈ ls) (hnd : (tmp :: fresh).Nodup)
    (hfresh : ∀ a ∈ tmp :: fresh, m.node a = none) :
    (∀ r, assign fuel m self rhs tmp fresh = .ok m2 r → Inv m2 ls) ∧
      (assign fuel m self rhs tmp fresh = .bad_alloc m2 → Inv m2 ls) := by
  have key : ∀ o, BuildList fuel m self rhs tmp fresh = o →
      (o = .ok m2 () ∨ o = .bad_alloc m2) → Inv m2 ls :=
    fun o h1 h2 => Inv_BuildList hinv hl hc hnd hfresh h1 h2
  unfold assign
  cases hb : BuildList fuel m self rhs tmp fresh with
  | ok m3 r =>
    refine ⟨fun r h => ?_, fun h => by simp at h⟩
    simp only [Outcome.ok.injEq] at h
    exact key _ hb (Or.inl (by rw [h.1]))
  | bad_alloc m3 =>
    refine ⟨fun r h => by simp at h, fun h => ?_⟩
    simp only [Outcome.bad_alloc.injEq] at h
    exact key _ hb (Or.inr (by rw [h]))
  | undefined => exact ⟨fun r h => by simp at h, fun h => by simp at h⟩
  | out_of_fuel => exact ⟨fun r h => by simp at h, fun h => by simp at h⟩

/-- Every memory a program can build satisfies the world invariant. -/
theorem Built_Inv [Inhabited T] {m : Memory T} {ls : List Addr} (h : Built m ls) : Inv m ls := by
  induction h with
  | start m h0 => exact ⟨fun _ => [], by simp [InvWith]⟩
  | construct self _ hs ih => exact Inv_add ih hs
  | construct_init fuel self values tmp fresh _ hnd hfresh hop ih =>
    exact (Inv_ConstructInit ih hnd hfresh).1 hop
  | construct_init_fail fuel self values tmp fresh _ hnd hfresh hop ih =>
    exact (Inv_ConstructInit ih hnd hfresh).2 hop
  | construct_copy fuel self other tmp fresh _ ho hnd hfresh hop ih =>
    exact (Inv_ConstructCopy ih ho hnd hfresh).1 hop
  | construct_copy_fail fuel self other tmp fresh _ ho hnd hfresh hop ih =>
    exact (Inv_ConstructCopy ih ho hnd hfresh).2 hop
  | push_front self v a _ hl ha hop ih =>
    obtain ⟨ch, hi⟩ := ih
    exact ⟨_, (Inv_PushFront hi hl ha hop).choose_spec⟩
  | push_front_fail self v _ hl hop ih => exact Inv_PushFront_fail ih hop
  | pop_front self _ hl hne hop ih =>
    obtain ⟨ch, hi⟩ := ih
    exact ⟨_, (Inv_PopFront hi hl hne hop).choose_spec⟩
  | insert_after self pos v a c _ hl hpos ha hop ih =>
    obtain ⟨ch, hi⟩ := ih
    exact ⟨_, (Inv_InsertAfter hi hl hpos ha hop).choose_spec⟩
  | insert_after_fail self pos v _ hl hpos hop ih => exact Inv_InsertAfter_fail ih hop
  | erase_after self pos c _ hl hpos hsucc hop ih =>
    obtain ⟨ch, hi⟩ := ih
    exact ⟨_, (Inv_EraseAfter hi hl hpos hsucc hop).choose_spec⟩
  | clear fuel self _ hl hop ih =>
    obtain ⟨ch, hi⟩ := ih
    exact ⟨_, (Inv_Clear hi hl hop).choose_spec⟩
  | swap self other _ hl ho hop ih => exact Inv_swap_step ih hl ho hop
  | assign fuel self rhs tmp fresh r _ hl hc hnd hfresh hop ih =>
    exact (Inv_assign ih hl hc hnd hfresh).1 r hop
  | assign_fail fuel self rhs tmp fresh _ hl hc hnd hfresh hop ih =>
    exact (Inv_assign ih hl hc hnd hfresh).2 hop

theorem exampleBuilt_Built : Built exampleBuilt [0] :=
  Built.push_front 0 7 5
    (Built.construct 0 (Built.start (Memory.empty Nat) (fun _ => rfl)) rfl)
    (by simp) (by decide) rfl

theorem IsList_Construct [Inhabited T] (m : Memory T) (self : Addr) :
    Valid (Construct m self) self [] :=
  ⟨⟨by simp [headOr], trivial⟩, by simp⟩

/-- Effect of the initializer-list constructor when the allocator has enough memory. -/
theorem ConstructInit_list [Inhabited T] {m : Memory T} {self tmp : Addr} (values : List T)
    {fresh : List Addr} (fuel : Nat)
    (hnd : (self :: tmp :: fresh).Nodup) (hfresh : ∀ a ∈ self :: tmp :: fresh, m.node a = none)
    (hlen : values.length ≤ fresh.length) (hf : values.length + 1 ≤ fuel) :
    ∃ m2, ConstructInit fuel m self values tmp fresh = .ok m2 () ∧
      Valid m2 self (fresh.zip values) ∧ m2.node tmp = none ∧
      FrameOf (Construct m self) m2 self [] (tmp :: fresh) := by
  have hnd2 := List.nodup_cons.1 hnd
  obtain ⟨m2, h1, h2, h3, h4⟩ := BuildList_il_list values fuel (IsList_Construct m self).1
    (show (Construct m self).node tmp = none by
      have : tmp ≠ self := fun e => hnd2.1 (by simp [e])
      simp [this, hfresh tmp (by simp)])
    hnd2.2
    (fun a ha => by
      have : a ≠ self := fun e => hnd2.1 (by simp [← e, ha])
      simp [this, hfresh a (by simp [ha])])
    (by simpa using hf)
  simp only [hlen, if_true] at h1 h2
  exact ⟨m2, by simp [ConstructInit, h1, ctorBody], h2.1, h3, h4⟩

theorem all_zipWith_iff (eq : T → T → Bool) : ∀ (xs ys : List T),
    (List.zipWith eq xs ys).all id = true ↔
      ∀ (i : Nat) (x y : T), xs[i]? = some x → ys[i]? = some y → eq x y = true
  | [], _ => by simp
  | _ :: _, [] => by simp
  | x :: xs, y :: ys => by
    simp only [List.zipWith_cons_cons, List.all_cons, id, Bool.and_eq_true,
      all_zipWith_iff eq xs ys]
    constructor
    · rintro ⟨h0, hr⟩ i a b ha hb
      cases i with
      | zero =>
        simp only [List.getElem?_cons_zero, Option.some.injEq] at ha hb
        rw [← ha, ← hb]; exact h0
      | succ j =>
        simp only [List.getElem?_cons_succ] at ha hb
        exact hr j a b ha hb
    · intro h
      exact ⟨h 0 x y (by simp) (by simp), fun i a b ha hb => h (i + 1) a b (by simpa using ha)
        (by simpa using hb)⟩

theorem std_equal_eval (eq : T → T → Bool) {m : Memory T} :
    ∀ {ra rb : List (Addr × T)} {fuel : Nat}, Seg m ra none → Seg m rb none →
    ra.length = rb.length → ra.length < fuel →
    std_equal eq fuel m (headOr ra none) none (headOr rb none) =
      .val ((List.zipWith eq (vals ra) (vals rb)).all id)
  | [], [], f + 1, _, _, _, _ => by simp [std_equal, headOr, vals]
  | [], _ :: _, _, _, _, h, _ => by simp at h
  | _ :: _, [], _, _, _, h, _ => by simp at h
  | a :: ra, b :: rb, f + 1, ha, hb, hl, hf => by
    have ih : std_equal eq f m (headOr ra none) none (headOr rb none) =
        .val ((List.zipWith eq (vals ra) (vals rb)).all id) :=
      std_equal_eval eq ha.2 hb.2 (by simpa using hl) (by simpa using hf)
    have h1 : headOr (a :: ra) none = some a.1 := rfl
    have h2 : headOr (b :: rb) none = some b.1 := rfl
    have h3 : vals (a :: ra) = a.2 :: vals ra := rfl
    have h4 : vals (b :: rb) = b.2 :: vals rb := rfl
    rw [h1, h2, h3, h4]
    by_cases he : eq a.2 b.2 = true
    · simp [std_equal, iter_deref, iter_next, ha.1, hb.1, Eval.andThen, he, ih]
    · simp [std_equal, iter_deref, iter_next, ha.1, hb.1, Eval.andThen, he]

/-- Value of `operator==` on two well-formed lists. -/
theorem operator_eq_eval (eq : T → T → Bool) {m : Memory T} {a b : Addr}
    {na nb : List (Addr × T)} {fuel : Nat} (ha : Valid m a na) (hb : Valid m b nb)
    (hf : na.length < fuel) :
    operator_eq eq fuel m a b =
      .val (decide (na.length = nb.length) && (List.zipWith eq (vals na) (vals nb)).all id) := by
  unfold operator_eq
  simp only [GetSize, ha.2, hb.2]
  by_cases hl : na.length = nb.length
  · simp only [hl, if_true, begin_eval ha.1, begin_eval hb.1, Eval.andThen,
      end_eval ha.1 hf, decide_True, Bool.true_and]
    exact std_equal_eval eq ha.1.2 hb.1.2 hl hf
  · simp [hl]

/-- A mutation of one list of a well-formed world changes the chain of that list only. -/
theorem Mutation_world {m m2 : Memory T} {ls : List Addr} {ch : Addr → List (Addr × T)}
    {self : Addr} (hi : InvWith m ls ch) (hl : self ∈ ls) (hmut : Mutation m self m2) :
    ∃ ns1, InvWith m2 ls (fun x => if x = self then ns1 else ch x) := by
  cases hmut with
  | push_front v a ha hop => exact Inv_PushFront hi hl ha hop
  | pop_front hne hop => exact Inv_PopFront hi hl hne hop
  | insert_after pos v a c hpos ha hop => exact Inv_InsertAfter hi hl hpos ha hop
  | erase_after pos c hpos hsucc hop => exact Inv_EraseAfter hi hl hpos hsucc hop
  | clear fuel hop => exact Inv_Clear hi hl hop

theorem Mutation_other {m m2 : Memory T} {ls : List Addr} {ch : Addr → List (Addr × T)}
    {self other : Addr} (hi : InvWith m ls ch) (hl : self ∈ ls) (ho : other ∈ ls)
    (hne : other ≠ self) (hmut : Mutation m self m2) : Valid m2 other (ch other) := by
  obtain ⟨ns1, h⟩ := Mutation_world hi hl hmut
  simpa [hne] using h.1 other ho

theorem all_zipWith_self (eq : T → T → Bool) (xs : List T) :
    (List.zipWith eq xs xs).all id = xs.all fun x => eq x x := by
  induction xs with
  | nil => rfl
  | cons x xs ih => simp only [List.zipWith_cons_cons, List.all_cons, id, ih]

/-- Successful `BuildList` from another list in a well-formed world. -/
theorem BuildList_world [Inhabited T] {m : Memory T} {ls : List Addr}
    {ch : Addr → List (Addr × T)} {self src tmp : Addr} {fresh : List Addr} (fuel : Nat)
    (hi : InvWith m ls ch) (hl : self ∈ ls) (hc : src ∈ ls) (hne : self ≠ src)
    (hnd : (tmp :: fresh).Nodup) (hfresh : ∀ a ∈ tmp :: fresh, m.node a = none)
    (hf : 2 * GetSize m src + GetSize m self + 3 ≤ fuel) (hlen : GetSize m src ≤ fresh.length) :
    ∃ m2, BuildList fuel m self src tmp fresh = .ok m2 () ∧
      InvWith m2 ls (fun x => if x = self then fresh.zip (vals (ch src)) else ch x) ∧
      FrameOf m m2 self (ch self) (tmp :: fresh) := by
  have hVs := hi.1 self hl
  have hVc := hi.1 src hc
  simp only [GetSize, hVs.2, hVc.2] at hf hlen
  obtain ⟨m2, h1, h2, _, h4⟩ := BuildList_list fuel hVs.1 hVc.1 hne
    (hfresh tmp (by simp)) hnd (fun a ha => hfresh a (by simp [ha])) hf
  simp only [hlen, if_true] at h1 h2
  exact ⟨m2, h1, InvWith_update (tmp :: fresh) hi hl hfresh h2.1
    (fun x hx => Or.inr (by simp [addrs_zip_subset hx])) h4, h4⟩

theorem CopyPost_intro (eq : T → T → Bool) {m m2 : Memory T}
    {ls : List Addr} {ch : Addr → List (Addr × T)} {self src : Addr} {xs : List T} {fuel : Nat}
    (hi : InvWith m2 ls ch) (hl : self ∈ ls) (hc : src ∈ ls) (hne : self ≠ src)
    (h1 : vals (ch self) = xs) (h2 : vals (ch src) = xs) (hf : 2 * xs.length + 2 ≤ fuel)
    (hsz : GetSize m2 src = GetSize m src)
    (hnodes : ∀ b, Reaches m (some src) b → m2.node b = m.node b) :
    CopyPost eq fuel m m2 self src xs := by
  have hVs := hi.1 self hl
  have hVc := hi.1 src hc
  have l1 : (ch self).length = xs.length := by rw [← h1]; simp [vals]
  have l2 : (ch src).length = xs.length := by rw [← h2]; simp [vals]
  have key : ∀ {mm : Memory T} {l : Addr}, Valid mm l (ch l) → vals (ch l) = xs →
      traverse fuel mm l = .val xs ∧ GetSize mm l = xs.length := by
    intro mm l hV hx
    have hl : (ch l).length = xs.length := by rw [← hx]; simp [vals]
    exact ⟨by rw [traverse_eval hV.1 (by omega), hx], by rw [GetSize, hV.2, hl]⟩
  refine ⟨(key hVs h1).1, (key hVs h1).2, (key hVc h2).1, (key hVc h2).2, hsz, hnodes, ?_,
    fun m3 hmut => key (Mutation_other hi hl hc (Ne.symm hne) hmut) h2,
    fun m3 hmut => key (Mutation_other hi hc hl hne hmut) h1⟩
  rw [operator_eq_eval eq hVs hVc (by omega), h1, h2, l1, l2, all_zipWith_self eq xs]
  simp

theorem exampleWorld_Built : Built exampleWorld [1, 0] :=
  Built.construct 1 exampleBuilt_Built (by decide)

theorem Reaches_list {m : Memory T} {self : Addr} {ns : List (Addr × T)} (h : IsList m self ns)
    {b : Addr} (hr : Reaches m (some self) b) : b ∈ self :: addrs ns := by
  obtain ⟨hv, _, hseg⟩ := IsList_sentinel h
  exact @Reaches_mem T m ((self, hv) :: ns) b hseg hr

theorem std_lexicographical_compare_eval (lt : T → T → Bool) {m : Memory T} :
    ∀ {ra rb : List (Addr × T)} {fuel : Nat}, Seg m ra none → Seg m rb none →
    ra.length < fuel →
    std_lexicographical_compare lt fuel m (headOr ra none) none (headOr rb none) none =
      .val (lex lt (vals ra) (vals rb))
  | [], [], f + 1, _, _, _ => by simp [std_lexicographical_compare, headOr, vals, lex]
  | [], _ :: _, f + 1, _, _, _ => by simp [std_lexicographical_compare, headOr, vals, lex]
  | _ :: _, [], f + 1, _, _, _ => by simp [std_lexicographical_compare, headOr, vals, lex]
  | a :: ra, b :: rb, f + 1, ha, hb, hf => by
    have ih : std_lexicographical_compare lt f m (headOr ra none) none (headOr rb none) none =
        .val (lex lt (vals ra) (vals rb)) :=
      std_lexicographical_compare_eval lt ha.2 hb.2 (by simpa using hf)
    have h1 : headOr (a :: ra) none = some a.1 := rfl
    have h2 : headOr (b :: rb) none = some b.1 := rfl
    have h3 : vals (a :: ra) = a.2 :: vals ra := rfl
    have h4 : vals (b :: rb) = b.2 :: vals rb := rfl
    rw [h1, h2, h3, h4]
    by_cases e1 : lt a.2 b.2 = true
    · simp [std_lexicographical_compare, iter_deref, ha.1, hb.1, Eval.andThen, e1, lex]
    · by_cases e2 : lt b.2 a.2 = true
      · simp [std_lexicographical_compare, iter_deref, ha.1, hb.1, Eval.andThen, e1, e2, lex]
      · simp [std_lexicographical_compare, iter_deref, iter_next, ha.1, hb.1, Eval.andThen, e1,
          e2, lex, ih]

/-- Value of `operator<` on two well-formed lists. -/
theorem operator_lt_eval (lt : T → T → Bool) {m : Memory T} {a b : Addr}
    {na nb : List (Addr × T)} {fuel : Nat} (ha : IsList m a na) (hb : IsList m b nb)
    (hfa : na.length < fuel) (hfb : nb.length < fuel) :
    operator_lt lt fuel m a b = .val (lex lt (vals na) (vals nb)) := by
  simp only [operator_lt, begin_eval ha, begin_eval hb, end_eval ha hfa, end_eval hb hfb,
    Eval.andThen]
  exact std_lexicographical_compare_eval lt ha.2 hb.2 hfa

theorem lex_iff (lt : T → T → Bool) (hlt : StrictTotal lt) : ∀ (xs ys : List T),
    lex lt xs ys = true ↔
      (∃ (i : Nat) (x y : T), xs[i]? = some x ∧ ys[i]? = some y ∧ xs.take i = ys.take i ∧
        lt x y = true) ∨
      (xs.length < ys.length ∧ ys.take xs.length = xs)
  | [], [] => by simp [lex]
  | [], _ :: _ => by simp [lex]
  | _ :: _, [] => by simp [lex]
  | x :: xs, y :: ys => by
    have ih := lex_iff lt hlt xs ys
    by_cases e1 : lt x y = true
    · simp only [lex, e1, if_true, true_iff]
      exact Or.inl ⟨0, x, y, by simp, by simp, by simp, e1⟩
    · have hne : ∀ i, (x :: xs).take (i + 1) = (y :: ys).take (i + 1) → x = y := by
        intro i h
        simp only [List.take_succ_cons, List.cons.injEq] at h
        exact h.1
      by_cases e2 : lt y x = true
      · have hxy : x ≠ y := fun e => by rw [e, hlt.1 y] at e2; cases e2
        simp only [lex, e1, e2, if_true, if_false, Bool.false_eq_true, false_iff, not_or]
        constructor
        · rintro ⟨i, a, b, ha, hb, ht, hab⟩
          cases i with
          | zero =>
            simp only [List.getElem?_cons_zero, Option.some.injEq] at ha hb
            rw [← ha, ← hb] at hab
            exact e1 hab
          | succ j => exact hxy (hne j ht)
        · rintro ⟨_, ht⟩
          simp only [List.length_cons, List.take_succ_cons, List.cons.injEq] at ht
          exact hxy ht.1.symm
      · have hxy : x = y := by
          rcases hlt.2.2 x y with h | h | h
          · exact absurd h e1
          · exact h
          · exact absurd h e2
        subst hxy
        have hlex : lex lt (x :: xs) (x :: ys) = lex lt xs ys := by simp [lex, hlt.1 x]
        rw [hlex, ih]
        constructor
        · rintro (⟨i, a, b, ha, hb, ht, hab⟩ | ⟨hl, ht⟩)
          · exact Or.inl ⟨i + 1, a, b, by simpa using ha, by simpa using hb, by simp [ht], hab⟩
          · exact Or.inr ⟨by simpa using hl, by simp [ht]⟩
        · rintro (⟨i, a, b, ha, hb, ht, hab⟩ | ⟨hl, ht⟩)
          · cases i with
            | zero =>
              simp only [List.getElem?_cons_zero, Option.some.injEq] at ha hb
              rw [← ha, ← hb] at hab
              exact absurd hab e1
            | succ j =>
              simp only [List.getElem?_cons_succ] at ha hb
              simp only [List.take_succ_cons, List.cons.injEq, true_and] at ht
              exact Or.inl ⟨j, a, b, ha, hb, ht, hab⟩
          · simp only [List.length_cons, Nat.add_lt_add_iff_right, List.take_succ_cons,
              List.cons.injEq, true_and] at hl ht
            exact Or.inr ⟨hl, ht⟩

theorem StrictWeak.asymm {lt : T → T → Bool} (h : StrictWeak lt) {x y : T}
    (hxy : lt x y = true) : lt y x = false := by
  cases e : lt y x with
  | false => rfl
  | true => have := h.2.1 x y x hxy e; rw [h.1 x] at this; cases this

theorem StrictWeak.lt_of_lt_of_inc {lt : T → T → Bool} (h : StrictWeak lt) {x y z : T}
    (hxy : lt x y = true) (h1 : lt y z = false) (h2 : lt z y = false) : lt x z = true := by
  cases e : lt x z with
  | true => rfl
  | false =>
    cases e2 : lt z x with
    | true => rw [h.2.1 z x y e2 hxy] at h2; cases h2
    | false =>
      have := (h.2.2 x z y e e2 h2 h1).1
      rw [hxy] at this; cases this

theorem StrictWeak.lt_of_inc_of_lt {lt : T → T → Bool} (h : StrictWeak lt) {x y z : T}
    (h1 : lt x y = false) (h2 : lt y x = false) (hyz : lt y z = true) : lt x z = true := by
  cases e : lt x z with
  | true => rfl
  | false =>
    cases e2 : lt z x with
    | true => rw [h.2.1 y z x hyz e2] at h2; cases h2
    | false =>
      have := (h.2.2 y x z h2 h1 e e2).1
      rw [hyz] at this; cases this

theorem lex_cons_cons (lt : T → T → Bool) (x y : T) (xs ys : List T) :
    lex lt (x :: xs) (y :: ys) =
      if lt x y then true else if lt y x then false else lex lt xs ys := rfl

theorem lex_irrefl {lt : T → T → Bool} (h : ∀ x, lt x x = false) : ∀ xs, lex lt xs xs = false
  | [] => rfl
  | x :: xs => by simp [lex_cons_cons, h x, lex_irrefl h xs]

theorem lex_nil_right (lt : T → T → Bool) : ∀ xs, lex lt xs [] = false
  | [] => rfl
  | _ :: _ => rfl

theorem lex_trans {lt : T → T → Bool} (h : StrictWeak lt) : ∀ (a b c : List T),
    lex lt a b = true → lex lt b c = true → lex lt a c = true
  | _, [], _, h1, _ => by rw [lex_nil_right] at h1; cases h1
  | _, _ :: _, [], _, h2 => by rw [lex_nil_right] at h2; cases h2
  | [], _ :: _, _ :: _, _, _ => rfl
  | x :: xs, y :: ys, z :: zs, h1, h2 => by
    rw [lex_cons_cons] at h1 h2 ⊢
    by_cases exy : lt x y = true
    · by_cases eyz : lt y z = true
      · simp [h.2.1 x y z exy eyz]
      · by_cases ezy : lt z y = true
        · simp [eyz, ezy] at h2
        · simp only [Bool.not_eq_true] at eyz ezy
          simp [h.lt_of_lt_of_inc exy eyz ezy]
    · by_cases eyx : lt y x = true
      · simp [exy, eyx] at h1
      · simp only [Bool.not_eq_true] at exy eyx
        simp only [exy, eyx, Bool.false_eq_true, if_false] at h1
        by_cases eyz : lt y z = true
        · simp [h.lt_of_inc_of_lt exy eyx eyz]
        · by_cases ezy : lt z y = true
          · simp [eyz, ezy] at h2
          · simp only [Bool.not_eq_true] at eyz ezy
            simp only [eyz, ezy, Bool.false_eq_true, if_false] at h2
            have hxz := h.2.2 x y z exy eyx eyz ezy
            simp only [hxz.1, hxz.2, Bool.false_eq_true, if_false]
            exact lex_trans h xs ys zs h1 h2

theorem lex_asymm {lt : T → T → Bool} (h : StrictWeak lt) {a b : List T}
    (hab : lex lt a b = true) : lex lt b a = false := by
  cases e : lex lt b a with
  | false => rfl
  | true =>
    have := lex_trans h a b a hab e
    rw [lex_irrefl h.1] at this; cases this

theorem lex_inc_trans {lt : T → T → Bool} (h : StrictWeak lt) : ∀ (a b c : List T),
    lex lt a b = false → lex lt b a = false → lex lt b c = false → lex lt c b = false →
    lex lt a c = false ∧ lex lt c a = false
  | [], [], [], _, _, _, _ => ⟨rfl, rfl⟩
  | [], [], _ :: _, _, _, h3, _ => by cases h3
  | [], _ :: _, _, h1, _, _, _ => by cases h1
  | _ :: _, [], _, _, h2, _, _ => by cases h2
  | _ :: _, _ :: _, [], _, _, _, h4 => by cases h4
  | x :: xs, y :: ys, z :: zs, h1, h2, h3, h4 => by
    rw [lex_cons_cons] at h1 h2 h3 h4 ⊢
    rw [lex_cons_cons]
    have exy : lt x y = false := by
      cases e : lt x y with
      | false => rfl
      | true => simp [e] at h1
    have eyx : lt y x = false := by
      cases e : lt y x with
      | false => rfl
      | true => simp [e] at h2
    have eyz : lt y z = false := by
      cases e : lt y z with
      | false => rfl
      | true => simp [e] at h3
    have ezy : lt z y = false := by
      cases e : lt z y with
      | false => rfl
      | true => simp [e] at h4
    simp only [exy, eyx, eyz, ezy, Bool.false_eq_true, if_false] at h1 h2 h3 h4
    have hxz := h.2.2 x y z exy eyx eyz ezy
    simp only [hxz.1, hxz.2, Bool.false_eq_true, if_false]
    exact lex_inc_trans h xs ys zs h1 h2 h3 h4

theorem StrictTotal.weak {lt : T → T → Bool} (h : StrictTotal lt) : StrictWeak lt := by
  refine ⟨h.1, h.2.1, fun x y z h1 h2 h3 h4 => ?_⟩
  have exy : x = y := by
    rcases h.2.2 x y with e | e | e
    · rw [h1] at e; cases e
    · exact e
    · rw [h2] at e; cases e
  have eyz : y = z := by
    rcases h.2.2 y z with e | e | e
    · rw [h3] at e; cases e
    · exact e
    · rw [h4] at e; cases e
  rw [exy, eyz]
  exact ⟨h.1 z, h.1 z⟩

theorem lex_total {lt : T → T → Bool} (h : StrictTotal lt) : ∀ (a b : List T),
    lex lt a b = true ∨ a = b ∨ lex lt b a = true
  | [], [] => Or.inr (Or.inl rfl)
  | [], _ :: _ => Or.inl rfl
  | _ :: _, [] => Or.inr (Or.inr rfl)
  | x :: xs, y :: ys => by
    rw [lex_cons_cons, lex_cons_cons]
    rcases h.2.2 x y with e | e | e
    · left; simp [e]
    · subst e
      simp only [h.1 x, Bool.false_eq_true, if_false, List.cons.injEq, true_and]
      exact lex_total h xs ys
    · right; right
      simp [e, h.weak.asymm e]

theorem list_eq_value {eq : T → T → Bool} (heq : ∀ x y, eq x y = true ↔ x = y) :
    ∀ (xs ys : List T),
    (decide (xs.length = ys.length) && (List.zipWith eq xs ys).all id) = true ↔ xs = ys
  | [], [] => by simp
  | [], _ :: _ => by simp
  | _ :: _, [] => by simp
  | x :: xs, y :: ys => by
    have ih := list_eq_value heq xs ys
    simp only [Bool.and_eq_true, decide_eq_true_eq] at ih
    simp only [List.length_cons, Nat.add_right_cancel_iff, List.zipWith_cons_cons, List.all_cons,
      id, Bool.and_eq_true, decide_eq_true_eq, heq, List.cons.injEq]
    constructor
    · rintro ⟨hl, hxy, hr⟩
      exact ⟨hxy, ih.1 ⟨hl, hr⟩⟩
    · rintro ⟨hxy, hr⟩
      exact ⟨(ih.2 hr).1, hxy, (ih.2 hr).2⟩

theorem natLt_total : StrictTotal natLt := by
  refine ⟨fun x => by simp [natLt], fun x y z => ?_, fun x y => ?_⟩
  · simp only [natLt, decide_eq_true_eq]; omega
  · simp only [natLt, decide_eq_true_eq]; omega

theorem natEq_iff : ∀ x y : Nat, (x == y) = true ↔ x = y := by simp

theorem FindListEnd_loop_val {m : Memory T} : ∀ {fuel : Nat} {p c : NodePtr},
    FindListEnd_loop fuel m p = .val c → c = none
  | 0, _, _, h => by cases h
  | f + 1, none, c, h => by
    simp only [FindListEnd_loop] at h
    cases h; rfl
  | f + 1, some a, c, h => by
    simp only [FindListEnd_loop] at h
    cases hn : m.node a with
    | none => rw [hn] at h; cases h
    | some n => rw [hn] at h; exact FindListEnd_loop_val h

/-- Whatever `end()` returns is the null cursor. -/
theorem end_val {m : Memory T} {self : Addr} {fuel : Nat} {c : NodePtr}
    (h : end_ fuel m self = .val c) : c = none := by
  simp only [end_, FindListEnd] at h
  cases hn : m.node self with
  | none => rw [hn] at h; cases h
  | some n => rw [hn] at h; exact FindListEnd_loop_val h

theorem headOr_cases (ns : List (Addr × T)) :
    headOr ns none = none ∨ ∃ x ∈ addrs ns, headOr ns none = some x := by
  cases ns with
  | nil => exact Or.inl rfl
  | cons n rest => exact Or.inr ⟨n.1, by simp [addrs], rfl⟩

/-- A cursor obtained from a well-formed list is null, its sentinel, or one of its nodes. -/
theorem IsCursor_cases {m : Memory T} {self : Addr} {ns : List (Addr × T)} {c : NodePtr}
    (h : IsList m self ns) (hc : IsCursor m self c) :
    c = none ∨ ∃ x ∈ self :: addrs ns, c = some x := by
  rcases hc with ⟨b, rfl, hr⟩ | hb | ⟨fuel, he⟩
  · exact Or.inr ⟨b, Reaches_list h hr, rfl⟩
  · rw [begin_eval h] at hb
    cases hb
    rcases headOr_cases ns with e | ⟨x, hx, e⟩
    · exact Or.inl e
    · exact Or.inr ⟨x, List.mem_cons_of_mem _ hx, e⟩
  · exact Or.inl (end_val he)

theorem IsPosition_ne_none {m : Memory T} {self : Addr} {c : NodePtr}
    (h : IsPosition m self c) : c ≠ none := by
  obtain ⟨b, rfl, _⟩ := h
  simp

theorem iter_eq_iff (a b : NodePtr) : iter_eq a b = true ↔ a = b := by
  simp [iter_eq]

/-- Cursors of two different lists of a well-formed world are equal only if both are
null. -/
theorem cursors_disjoint {m : Memory T} {ls : List Addr} (hi : Inv m ls) {A B : Addr}
    (hA : A ∈ ls) (hB : B ∈ ls) (hAB : A ≠ B) {a b : NodePtr}
    (ha : IsCursor m A a) (hb : IsCursor m B b) : a = b ↔ a = none ∧ b = none := by
  obtain ⟨ch, hv, hs, hd⟩ := hi
  constructor
  · intro e
    rcases IsCursor_cases (hv A hA).1 ha with e1 | ⟨x, hx, e1⟩
    · exact ⟨e1, by rw [← e, e1]⟩
    · rcases IsCursor_cases (hv B hB).1 hb with e2 | ⟨y, hy, e2⟩
      · exact ⟨by rw [e, e2], e2⟩
      · exfalso
        rw [e1, e2] at e
        cases e
        simp only [List.mem_cons] at hx hy
        rcases hx with hx | hx
        · rcases hy with hy | hy
          · exact hAB (hx.symm.trans hy)
          · rw [hx] at hy; exact hs B hB A hA hy
        · rcases hy with hy | hy
          · rw [hy] at hx; exact hs A hA B hB hx
          · exact hd A hA B hB hAB x hx hy
  · rintro ⟨e1, e2⟩
    rw [e1, e2]

/-- Swapping twice gives back the memory. -/
theorem swap_swap {m m2 : Memory T} {a b : Addr} (h : swap m a b = .ok m2 ()) :
    swap m2 a b = .ok m () := by
  cases ha : m.node a with
  | none => simp [swap, ha] at h
  | some h1 =>
    cases hb : m.node b with
    | none => simp [swap, ha, hb] at h
    | some h2 =>
      simp only [swap, ha, hb, Outcome.ok.injEq, and_true] at h
      subst h
      by_cases e : a = b
      · subst e
        rw [ha] at hb
        cases hb
        simp only [swap, setSize_node, setNode_node, if_true, Outcome.ok.injEq, and_true]
        apply Memory.ext
        · intro x
          by_cases e : x = a
          · simp [e, ha]
          · simp [e]
        · intro x
          by_cases e : x = a
          · simp [e]
          · simp [e]
      · have e2 : ¬ b = a := fun h => e h.symm
        simp only [swap, setSize_node, setNode_node, if_true, e, e2, if_false, Outcome.ok.injEq,
          and_true]
        apply Memory.ext
        · intro x
          by_cases e3 : x = a
          · simp [e3, e, ha]
          · by_cases e4 : x = b
            · simp [e4, hb]
            · simp [e3, e4]
        · intro x
          by_cases e3 : x = a
          · simp [e3, e]
          · by_cases e4 : x = b
            · simp [e4, e2, e]
            · simp [e3, e4]

/-- Effect of `swap` on two live lists of a well-formed world. -/
theorem swap_world {m : Memory T} {ls : List Addr} {ch : Addr → List (Addr × T)} {a b : Addr}
    (hi : InvWith m ls ch) (ha : a ∈ ls) (hb : b ∈ ls) :
    ∃ m2 ch2, swap m a b = .ok m2 () ∧ InvWith m2 ls ch2 ∧ ch2 a = ch b ∧ ch2 b = ch a := by
  by_cases e : a = b
  · subst e
    exact ⟨m, ch, swap_self (hi.1 a ha).1, hi, rfl, rfl⟩
  · obtain ⟨m2, hsw, _⟩ :=
      swap_list (hi.1 a ha).1 (hi.1 b hb).1 e (hi.2.1 b hb a ha) (hi.2.1 a ha b hb)
    have e2 : ¬ b = a := fun h => e h.symm
    exact ⟨m2, _, hsw, Inv_swap hi ha hb e hsw, by simp, by simp [e2]⟩

theorem cursorAt_insert (self : Addr) (ns : List (Addr × T)) (n : Addr × T) {k : Nat}
    (hk : k ≤ ns.length) :
    cursorAt self (ns.take k ++ n :: ns.drop k) k = cursorAt self ns k := by
  cases k with
  | zero => rfl
  | succ j =>
    have hj : j < ns.length := hk
    have h1 : j < (ns.take (j + 1)).length := by rw [List.length_take]; omega
    simp only [cursorAt, Nat.succ_ne_zero, if_false, Nat.add_sub_cancel]
    rw [List.getElem?_append_left h1, List.getElem?_take_of_lt (Nat.lt_succ_self j)]

theorem take_insert (ns : List (Addr × T)) (n : Addr × T) {k : Nat} (hk : k ≤ ns.length) :
    (ns.take k ++ n :: ns.drop k).take k ++ (ns.take k ++ n :: ns.drop k).drop (k + 1) = ns := by
  have hl : (ns.take k).length = k := by rw [List.length_take]; omega
  have h1 : (ns.take k ++ n :: ns.drop k).take k = ns.take k := by
    rw [List.take_append_of_le_length (by omega), List.take_of_length_le (by omega)]
  have h2 : (ns.take k ++ n :: ns.drop k).drop (k + 1) = ns.drop k := by
    have : k + 1 = (ns.take k).length + 1 := by omega
    rw [this, List.drop_append]
    rfl
  rw [h1, h2, List.take_append_drop]

/-- `InsertAfter` at the cursor of index `k` followed by `EraseAfter` at the same cursor:
the chain is what it was, and the cursor returned is what followed before. -/
theorem InsertAfter_EraseAfter_list {m : Memory T} {self a : Addr} {ns : List (Addr × T)}
    {k : Nat} (v : T) (h : Valid m self ns) (hk : k ≤ ns.length) (ha : m.node a = none) :
    ∃ m2 m3, InsertAfter m self (cursorAt self ns k) v (some a) = .ok m2 (some a) ∧
      EraseAfter m2 self (cursorAt self ns k) = .ok m3 (headOr (ns.drop k) none) ∧
      iter_next m (cursorAt self ns k) = .val (headOr (ns.drop k) none) ∧
      Valid m3 self ns := by
  obtain ⟨p, pv, m2, hc, _, _, hp, hins, _, _, hV2, _⟩ := InsertAfter_list v h hk ha
  have hlen : k < (ns.take k ++ (a, v) :: ns.drop k).length := by
    simp only [List.length_append, List.length_take, List.length_cons, List.length_drop]
    omega
  obtain ⟨p2, pv2, m3, hc2, _, _, her, _, _, hV3, _⟩ := EraseAfter_list hV2 hlen
  rw [cursorAt_insert self ns (a, v) hk, hc] at hc2
  cases hc2
  have hd : (ns.take k ++ (a, v) :: ns.drop k).drop (k + 1) = ns.drop k := by
    have hl : (ns.take k).length = k := by rw [List.length_take]; omega
    have : k + 1 = (ns.take k).length + 1 := by omega
    rw [this, List.drop_append]
    rfl
  rw [take_insert ns (a, v) hk] at hV3
  rw [hd] at her
  refine ⟨m2, m3, by rw [hc]; exact hins, by rw [hc]; exact her, ?_, hV3⟩
  rw [hc]
  simp [iter_next, hp]

theorem Eval.andThenLog_fst {α β : Type} (e : Eval α) (log : List NodePtr)
    (k : α → Eval β × List NodePtr) :
    (e.andThenLog log k).1 = e.andThen fun r => (k r).1 := by
  cases e <;> rfl

/-- The traced loop computes what `std_equal` computes. -/
theorem std_equal_trace_fst (eq : T → T → Bool) (m : Memory T) (last1 : NodePtr) :
    ∀ (fuel : Nat) (first1 first2 : NodePtr),
    (std_equal_trace eq fuel m first1 last1 first2).1 = std_equal eq fuel m first1 last1 first2
  | 0, _, _ => rfl
  | f + 1, first1, first2 => by
    simp only [std_equal_trace, std_equal]
    by_cases e : first1 = last1
    · simp [e]
    · simp only [e, if_false, Eval.andThenLog_fst]
      congr 1; funext x
      congr 1; funext y
      by_cases h : eq x y = true
      · simp only [h, if_true, Eval.andThenLog_fst]
        congr 1; funext n1
        congr 1; funext n2
        exact std_equal_trace_fst eq m last1 f n1 n2
      · simp [h]

/-- The traced `operator==` computes what `operator==` computes. -/
theorem operator_eq_trace_fst (eq : T → T → Bool) (fuel : Nat) (m : Memory T) (a b : Addr) :
    (operator_eq_trace eq fuel m a b).1 = operator_eq eq fuel m a b := by
  simp only [operator_eq_trace, operator_eq]
  by_cases e : GetSize m a = GetSize m b
  · simp only [e, if_true, Eval.andThenLog_fst]
    congr 1; funext x
    congr 1; funext y
    congr 1; funext z
    exact std_equal_trace_fst eq m y fuel x z
  · simp [e]

/-- On chains of which the first is not the longer, the walk touches the second range at
nodes of its chain only. -/
theorem std_equal_trace_mem (eq : T → T → Bool) {m : Memory T} :
    ∀ {ra rb : List (Addr × T)} (fuel : Nat), Seg m ra none → Seg m rb none →
    ra.length ≤ rb.length →
    ∀ c ∈ (std_equal_trace eq fuel m (headOr ra none) none (headOr rb none)).2,
      ∃ x ∈ addrs rb, c = some x
  | _, _, 0, _, _, _ => by simp [std_equal_trace]
  | [], _, f + 1, _, _, _ => by simp [std_equal_trace, headOr]
  | _ :: _, [], _, _, _, h => by simp at h
  | a :: ra, b :: rb, f + 1, ha, hb, hl => by
    have ih := std_equal_trace_mem eq f ha.2 hb.2 (by simpa using hl)
    have h1 : headOr (a :: ra) none = some a.1 := rfl
    have h2 : headOr (b :: rb) none = some b.1 := rfl
    rw [h1, h2]
    intro c hc
    by_cases he : eq a.2 b.2 = true
    · simp only [std_equal_trace, iter_deref, iter_next, ha.1, hb.1, Eval.andThenLog, he,
        if_true, reduceCtorEq, if_false, List.nil_append, List.singleton_append,
        List.mem_cons] at hc
      rcases hc with hc | hc | hc
      · exact ⟨b.1, by simp [addrs], hc⟩
      · exact ⟨b.1, by simp [addrs], hc⟩
      · obtain ⟨x, hx, e⟩ := ih c hc
        exact ⟨x, by simp only [addrs_cons, List.mem_cons]; exact Or.inr hx, e⟩
    · simp only [std_equal_trace, iter_deref, ha.1, hb.1, Eval.andThenLog, he,
        reduceCtorEq, if_false, List.nil_append, List.singleton_append,
        List.mem_cons, List.not_mem_nil, or_false, List.append_nil, Bool.false_eq_true] at hc
      exact ⟨b.1, by simp [addrs], hc⟩

end lemmas

/-- C1 (size invariant): in every memory a program can build from constructions followed
by `PushFront`, `PopFront` on a non-empty list, `InsertAfter` at a position, `EraseAfter`
at a position with a successor, `Clear`, `swap` and copy assignment, every live list object
`l` has a sentinel whose forward link starts a chain `ns` of live nodes that ends in
`nullptr`; the nodes reachable from that link are exactly the nodes of `ns`; no node
occurs twice (and the sentinel is none of them), so the chain is finite and acyclic; and
`GetSize()` is the number of those nodes. -/
theorem size_invariant {T : Type} [Inhabited T] {m : Memory T} {ls : List Addr}
    (h : Built m ls) (l : Addr) (hl : l ∈ ls) :
    ∃ (hd : Node T) (ns : List (Addr × T)),
      m.node l = some hd ∧ hd.next_node = headOr ns none ∧ Seg m ns none ∧
      (∀ b, Reaches m hd.next_node b ↔ b ∈ addrs ns) ∧
      (l :: addrs ns).Nodup ∧ GetSize m l = (addrs ns).length := by
  obtain ⟨ch, hi⟩ := Built_Inv h
  have hV := hi.1 l hl
  obtain ⟨hv, hs, hseg⟩ := IsList_sentinel hV.1
  refine ⟨_, ch l, hs, rfl, hseg.2, fun b => Reaches_iff hseg.2 b, IsList_nodup hV.1, ?_⟩
  simp [GetSize, hV.2, addrs]

/-- Witness of `size_invariant`: a default-constructed list after `PushFront(7)`. -/
theorem size_invariant_witness :
    Built exampleBuilt [0] ∧ (0 : Addr) ∈ [(0 : Addr)] ∧
    ∃ (hd : Node Nat) (ns : List (Addr × Nat)),
      exampleBuilt.node 0 = some hd ∧ hd.next_node = headOr ns none ∧ Seg exampleBuilt ns none ∧
      (∀ b, Reaches exampleBuilt hd.next_node b ↔ b ∈ addrs ns) ∧
      ((0 : Addr) :: addrs ns).Nodup ∧ GetSize exampleBuilt 0 = (addrs ns).length :=
  ⟨exampleBuilt_Built, by simp, size_invariant exampleBuilt_Built 0 (by simp)⟩

/-- C2 (`InsertAfter` postcondition): for a well-formed list with chain `ns` (element
sequence `vals ns`), an index `k ≤ |ns|`, the cursor `p` of index `k` (`before_begin()`
for `k = 0`, the `k`-th element otherwise) and a fresh address `a` returned by `new`,
`c = InsertAfter(p, v)` succeeds; afterwards the traversal is the first `k` elements, `v`,
then the remaining elements; `GetSize()` is `|ns| + 1`; advancing `p` yields `c`;
`*c` is `v`; and advancing `c` yields what followed `p` before the call, which is `end()`
when `p` was the last position. -/
theorem InsertAfter_postcondition {T : Type} (m : Memory T) (self : Addr)
    (ns : List (Addr × T)) (k : Nat) (v : T) (a : Addr) (fuel : Nat)
    (hL : Valid m self ns) (hk : k ≤ ns.length) (ha : m.node a = none)
    (hf : 2 * ns.length + 4 ≤ fuel) :
    ∃ m2 c, InsertAfter m self (cursorAt self ns k) v (some a) = .ok m2 c ∧
      traverse fuel m self = .val (vals ns) ∧
      traverse fuel m2 self = .val ((vals ns).take k ++ v :: (vals ns).drop k) ∧
      GetSize m2 self = (vals ns).length + 1 ∧
      iter_next m2 (cursorAt self ns k) = .val c ∧
      iter_deref m2 c = .val v ∧
      iter_next m2 c = iter_next m (cursorAt self ns k) ∧
      iter_next m (cursorAt self ns k) = .val (cursorAt self ns (k + 1)) ∧
      (k = ns.length → iter_next m2 c = end_ fuel m2 self) := by
  obtain ⟨p, pv, m2, hc, _, _, hp, hev, hp2, ha2, hV2, _⟩ := InsertAfter_list v hL hk ha
  have hlen : (ns.take k ++ (a, v) :: ns.drop k).length = ns.length + 1 := by
    simp; omega
  refine ⟨m2, some a, by rw [hc]; exact hev, traverse_eval hL.1 (by omega), ?_, ?_, ?_, ?_, ?_,
    ?_, ?_⟩
  · rw [traverse_eval hV2.1 (by rw [hlen]; omega)]
    simp [vals, List.map_take, List.map_drop]
  · simp [GetSize, hV2.2, hlen, vals]
  · simp [hc, iter_next, hp2]
  · simp [iter_deref, ha2]
  · simp [hc, iter_next, ha2, hp]
  · simp only [hc, iter_next, hp, headOr_eq_cursorAt self]
  · intro hkl
    rw [end_eval hV2.1 (by rw [hlen]; omega)]
    simp [iter_next, ha2, hkl, headOr]

/-- Witness of `InsertAfter_postcondition`: inserting `10` after the node holding `2` of
the list `1, 2, 3, 4`. -/
theorem InsertAfter_postcondition_witness :
    Valid exampleMem 0 exampleChain ∧ 2 ≤ exampleChain.length ∧ exampleMem.node 20 = none ∧
    2 * exampleChain.length + 4 ≤ 12 ∧
    ∃ m2 c, InsertAfter exampleMem 0 (cursorAt 0 exampleChain 2) 10 (some 20) = .ok m2 c ∧
      traverse 12 exampleMem 0 = .val (vals exampleChain) ∧
      traverse 12 m2 0 = .val ((vals exampleChain).take 2 ++ 10 :: (vals exampleChain).drop 2) ∧
      GetSize m2 0 = (vals exampleChain).length + 1 ∧
      iter_next m2 (cursorAt 0 exampleChain 2) = .val c ∧
      iter_deref m2 c = .val 10 ∧
      iter_next m2 c = iter_next exampleMem (cursorAt 0 exampleChain 2) ∧
      iter_next exampleMem (cursorAt 0 exampleChain 2) = .val (cursorAt 0 exampleChain (2 + 1)) ∧
      (2 = exampleChain.length → iter_next m2 c = end_ 12 m2 0) :=
  ⟨by decide, by decide, by decide, by decide,
    InsertAfter_postcondition exampleMem 0 exampleChain 2 10 20 12 (by decide) (by decide)
      (by decide) (by decide)⟩

/-- C3 (`EraseAfter` postcondition): for a well-formed list with chain `ns`, an index
`k < |ns|` and the cursor `p` of index `k` (`before_begin()` for `k = 0`, the `k`-th element
otherwise), `c = EraseAfter(p)` succeeds; afterwards the traversal is the old one without
the element of 0-based index `k`, the erased node is released, `GetSize()` is `|ns| - 1`,
advancing `p` yields `c`, and `c` is the node that held the element of 0-based index
`k + 1` (it still holds it), or `end()` when there was none. -/
theorem EraseAfter_postcondition {T : Type} (m : Memory T) (self : Addr)
    (ns : List (Addr × T)) (k : Nat) (fuel : Nat)
    (hL : Valid m self ns) (hk : k < ns.length) (hf : 2 * ns.length + 2 ≤ fuel) :
    ∃ m2 c, EraseAfter m self (cursorAt self ns k) = .ok m2 c ∧
      traverse fuel m self = .val (vals ns) ∧
      traverse fuel m2 self = .val ((vals ns).eraseIdx k) ∧
      m2.node ns[k].1 = none ∧
      GetSize m2 self = (vals ns).length - 1 ∧
      iter_next m2 (cursorAt self ns k) = .val c ∧
      c = (ns[k + 1]?).map Prod.fst ∧
      (∀ n, ns[k + 1]? = some n → iter_deref m2 c = .val n.2) ∧
      (ns[k + 1]? = none → .val c = end_ fuel m2 self) := by
  obtain ⟨p, pv, m2, hc, _, hp, hev, hp2, hdead, hV2, hfr⟩ := EraseAfter_list hL hk
  have hlen : (ns.take k ++ ns.drop (k + 1)).length = ns.length - 1 := by
    simp; omega
  refine ⟨m2, _, by rw [hc]; exact hev, traverse_eval hL.1 (by omega), ?_, hdead, ?_, ?_,
    headOr_drop ns (k + 1), ?_, ?_⟩
  · rw [traverse_eval hV2.1 (by rw [hlen]; omega)]
    simp [vals, List.eraseIdx_eq_take_drop_succ, List.map_take, List.map_drop]
  · simp [GetSize, hV2.2, hlen, vals]
  · simp [hc, iter_next, hp2]
  · intro n hn
    have hk1 : k + 1 < ns.length := by
      by_contra hge
      rw [List.getElem?_eq_none (by omega)] at hn; cases hn
    have hd : ns.drop (k + 1) = ns[k + 1] :: ns.drop (k + 1 + 1) := List.drop_eq_getElem_cons hk1
    rw [List.getElem?_eq_getElem hk1] at hn
    cases hn
    have hseg := ((Seg_append m2 (ns.take k) (ns.drop (k + 1)) none).1 hV2.1.2).2
    rw [hd] at hseg ⊢
    simp [headOr, iter_deref, hseg.1]
  · intro hn
    rw [end_eval hV2.1 (by rw [hlen]; omega), headOr_drop, hn]; rfl

/-- Witness of `EraseAfter_postcondition`: scenario S4, erasing after the node holding `2`
of the list `1, 2, 3, 4`. -/
theorem EraseAfter_postcondition_witness :
    Valid exampleMem 0 exampleChain ∧
    ∃ m2 c, EraseAfter exampleMem 0 (cursorAt 0 exampleChain 2) = .ok m2 c ∧
      traverse 10 exampleMem 0 = .val (vals exampleChain) ∧
      traverse 10 m2 0 = .val ((vals exampleChain).eraseIdx 2) ∧
      m2.node exampleChain[2].1 = none ∧
      GetSize m2 0 = (vals exampleChain).length - 1 ∧
      iter_next m2 (cursorAt 0 exampleChain 2) = .val c ∧
      c = (exampleChain[2 + 1]?).map Prod.fst ∧
      (∀ n, exampleChain[2 + 1]? = some n → iter_deref m2 c = .val n.2) ∧
      (exampleChain[2 + 1]? = none → .val c = end_ 10 m2 0) :=
  ⟨by decide,
    EraseAfter_postcondition exampleMem 0 exampleChain 2 10 (by decide) (by decide) (by decide)⟩

/-- C4 (`PushFront` postcondition): for a well-formed list with chain `ns` and a fresh
address `a` returned by `new`, `PushFront(v)` succeeds; afterwards the traversal is `v`
followed by the old traversal, `*begin()` is `v`, and `GetSize()` is `|ns| + 1`. -/
theorem PushFront_postcondition {T : Type} (m : Memory T) (self : Addr)
    (ns : List (Addr × T)) (v : T) (a : Addr) (fuel : Nat)
    (hL : Valid m self ns) (ha : m.node a = none) (hf : 2 * ns.length + 4 ≤ fuel) :
    ∃ m2, PushFront m self v (some a) = .ok m2 () ∧
      traverse fuel m self = .val (vals ns) ∧
      traverse fuel m2 self = .val (v :: vals ns) ∧
      (begin m2 self).andThen (iter_deref m2) = .val v ∧
      GetSize m2 self = (vals ns).length + 1 := by
  obtain ⟨m2, hev, ha2, hV2, _⟩ := PushFront_list v hL ha
  refine ⟨m2, hev, traverse_eval hL.1 (by omega), ?_, ?_, ?_⟩
  · rw [traverse_eval hV2.1 (by simp; omega)]; rfl
  · simp [begin_eval hV2.1, Eval.andThen, headOr, iter_deref, ha2]
  · simp [GetSize, hV2.2, vals]

/-- Witness of `PushFront_postcondition`: scenario S2, `PushFront(0)` on `1, 2, 3, 4`. -/
theorem PushFront_postcondition_witness :
    Valid exampleMem 0 exampleChain ∧ exampleMem.node 20 = none ∧
    ∃ m2, PushFront exampleMem 0 0 (some 20) = .ok m2 () ∧
      traverse 12 exampleMem 0 = .val (vals exampleChain) ∧
      traverse 12 m2 0 = .val (0 :: vals exampleChain) ∧
      (begin m2 0).andThen (iter_deref m2) = .val 0 ∧
      GetSize m2 0 = (vals exampleChain).length + 1 :=
  ⟨by decide, by decide,
    PushFront_postcondition exampleMem 0 exampleChain 0 20 12 (by decide) (by decide)
      (by decide)⟩

/-- C5 (`PopFront` postcondition): for a well-formed non-empty list with chain `n :: ns`,
`PopFront()` succeeds; afterwards the traversal is the old one without its first element,
the old front node is released, and `GetSize()` has decreased by exactly one. -/
theorem PopFront_postcondition {T : Type} (m : Memory T) (self : Addr) (n : Addr × T)
    (ns : List (Addr × T)) (fuel : Nat)
    (hL : Valid m self (n :: ns)) (hf : 2 * ns.length + 4 ≤ fuel) :
    ∃ m2, PopFront m self = .ok m2 () ∧
      traverse fuel m self = .val (n.2 :: vals ns) ∧
      traverse fuel m2 self = .val (vals ns) ∧
      m2.node n.1 = none ∧
      GetSize m2 self + 1 = GetSize m self := by
  obtain ⟨m2, hev, hdead, hV2, _⟩ := PopFront_list hL
  refine ⟨m2, hev, ?_, traverse_eval hV2.1 (by omega), hdead, ?_⟩
  · rw [traverse_eval hL.1 (by simp; omega)]; rfl
  · simp [GetSize, hV2.2, hL.2]

/-- Witness of `PopFront_postcondition`: `PopFront()` on `1, 2, 3, 4`. -/
theorem PopFront_postcondition_witness :
    Valid exampleMem 0 ((10, 1) :: [(11, 2), (12, 3), (13, 4)]) ∧
    ∃ m2, PopFront exampleMem 0 = .ok m2 () ∧
      traverse 10 exampleMem 0 = .val (1 :: vals [(11, 2), (12, 3), (13, 4)]) ∧
      traverse 10 m2 0 = .val (vals [(11, 2), (12, 3), (13, 4)]) ∧
      m2.node 10 = none ∧
      GetSize m2 0 + 1 = GetSize exampleMem 0 :=
  ⟨by decide,
    PopFront_postcondition exampleMem 0 (10, 1) [(11, 2), (12, 3), (13, 4)] 10 (by decide)
      (by decide)⟩

/-- C6 (sentinel equivalence): on every memory and for every answer of the allocator,
`InsertAfter(before_begin(), v)` has the same outcome as `PushFront(v)` (the same resulting
memory, hence the same element sequence and size, the same failure otherwise), up to the
iterator it returns; and `EraseAfter(before_begin())` has the same outcome as `PopFront()`.
On a well-formed list (non-empty, for the second pair) these outcomes are successes, see
`PushFront_list` and `PopFront_list`. -/
theorem sentinel_equivalence {T : Type} :
    (∀ (m : Memory T) (self : Addr) (v : T) (fresh : Option Addr),
      (InsertAfter m self (before_begin self) v fresh).forget = PushFront m self v fresh) ∧
    (∀ (m : Memory T) (self : Addr),
      (EraseAfter m self (before_begin self)).forget = PopFront m self) :=
  ⟨PushFront_as_InsertAfter, PopFront_as_EraseAfter⟩

/-- C9 (self-assignment): `L = L` returns `*this` and leaves the whole memory, so the
element sequence, the size and every node of `L`, exactly as before; no node is released
or allocated, whatever the allocator would have answered. -/
theorem self_assignment_noop {T : Type} [Inhabited T] (fuel : Nat) (m : Memory T)
    (self tmp : Addr) (fresh : List Addr) :
    assign fuel m self self tmp fresh = .ok m self := by
  simp [assign, BuildList]

/-- C7 (construction from a literal sequence): when `new` returns distinct addresses of
no live object and does not fail, the list constructed from `values` (the empty sequence
included) iterates from `begin()` to `end()` over exactly `values`, in order, and
`GetSize()` is their number. -/
theorem literal_construction {T : Type} [Inhabited T] (m : Memory T) (self tmp : Addr)
    (values : List T) (fresh : List Addr) (fuel : Nat)
    (hnd : (self :: tmp :: fresh).Nodup) (hfresh : ∀ a ∈ self :: tmp :: fresh, m.node a = none)
    (hlen : values.length ≤ fresh.length) (hf : 2 * values.length + 2 ≤ fuel) :
    ∃ m2, ConstructInit fuel m self values tmp fresh = .ok m2 () ∧
      traverse fuel m2 self = .val values ∧ GetSize m2 self = values.length := by
  obtain ⟨m2, h1, h2, _, _⟩ := ConstructInit_list values fuel hnd hfresh hlen (by omega)
  have hl : (fresh.zip values).length = values.length := by simp [List.length_zip, hlen]
  refine ⟨m2, h1, ?_, ?_⟩
  · rw [traverse_eval h2.1 (by rw [hl]; exact hf), vals_zip hlen]
  · rw [GetSize, h2.2, hl]

/-- Witness of `literal_construction`: scenario S1, the list built from `1, 2, 3, 4`. -/
theorem literal_construction_witness :
    ((0 : Addr) :: 100 :: [10, 11, 12, 13]).Nodup ∧
    (∀ a ∈ (0 : Addr) :: 100 :: [10, 11, 12, 13], (Memory.empty Nat).node a = none) ∧
    ∃ m2, ConstructInit 10 (Memory.empty Nat) 0 [1, 2, 3, 4] 100 [10, 11, 12, 13] = .ok m2 () ∧
      traverse 10 m2 0 = .val [1, 2, 3, 4] ∧ GetSize m2 0 = [1, 2, 3, 4].length :=
  ⟨by decide, fun _ _ => rfl,
    literal_construction (Memory.empty Nat) 0 100 [1, 2, 3, 4] [10, 11, 12, 13] 10 (by decide)
      (fun _ _ => rfl) (by decide) (by decide)⟩

/-- C10 (equality): for two well-formed lists `a` and `b` and an element `==` given by
`eq`, `a == b` evaluates to a boolean that is true exactly when `a.GetSize() == b.GetSize()`
and at every index the element of `a` is `eq` to the element of `b`; and `a != b` evaluates
to its negation. -/
theorem operator_eq_correct {T : Type} (eq : T → T → Bool) (m : Memory T) (a b : Addr)
    (na nb : List (Addr × T)) (fuel : Nat)
    (ha : Valid m a na) (hb : Valid m b nb) (hf : na.length < fuel) :
    ∃ r, operator_eq eq fuel m a b = .val r ∧
      (r = true ↔ (GetSize m a = GetSize m b ∧
        ∀ (i : Nat) (x y : T), (vals na)[i]? = some x → (vals nb)[i]? = some y →
          eq x y = true)) ∧
      operator_ne eq fuel m a b = .val (!r) := by
  refine ⟨_, operator_eq_eval eq ha hb hf, ?_, ?_⟩
  · simp only [Bool.and_eq_true, decide_eq_true_eq, all_zipWith_iff, GetSize, ha.2, hb.2]
  · simp [operator_ne, operator_eq_eval eq ha hb hf, Eval.andThen]

/-- Witness of `operator_eq_correct`: the list `1, 2, 3, 4` compared with itself. -/
theorem operator_eq_correct_witness :
    Valid exampleMem 0 exampleChain ∧
    ∃ r, operator_eq (fun (x y : Nat) => x == y) 5 exampleMem 0 0 = .val r ∧
      (r = true ↔ (GetSize exampleMem 0 = GetSize exampleMem 0 ∧
        ∀ (i : Nat) (x y : Nat), (vals exampleChain)[i]? = some x →
          (vals exampleChain)[i]? = some y → (fun (x y : Nat) => x == y) x y = true)) ∧
      operator_ne (fun (x y : Nat) => x == y) 5 exampleMem 0 0 = .val (!r) :=
  ⟨by decide,
    operator_eq_correct (fun (x y : Nat) => x == y) exampleMem 0 0 exampleChain exampleChain 5
      (by decide) (by decide) (by decide)⟩

/-- C8, amended (copy construction and copy assignment): in every memory a program can
build, let `src` be a live list with element sequence `xs`, and let `new` return distinct
addresses of no live object, enough of them.  Copy assignment `self = src` to a live list
`self` other than `src`, whatever it held, and copy construction of a new list `self` from
`src`, both succeed with `CopyPost`: the target iterates over exactly `xs` with
`GetSize() == |xs|`; the source is unchanged (its nodes, sequence and size); target `==`
source is true exactly when every element of `xs` is `==` to itself under the element
`==`; and the two have independent storage: a later `PushFront`, `PopFront`,
`InsertAfter`, `EraseAfter` or `Clear` on one leaves the sequence and size of the other
unchanged. -/
theorem copy_is_deep {T : Type} [Inhabited T] (eq : T → T → Bool)
    {m : Memory T} {ls : List Addr} (hB : Built m ls) (src : Addr) (hsrc : src ∈ ls)
    (xs : List T) (tmp : Addr) (fresh : List Addr) (fuel : Nat)
    (hxs : traverse fuel m src = .val xs)
    (hmem : GetSize m src ≤ fresh.length) (hf : 2 * GetSize m src + 3 ≤ fuel) :
    (∀ self, self ∈ ls → self ≠ src → (tmp :: fresh).Nodup →
      (∀ a ∈ tmp :: fresh, m.node a = none) → 2 * GetSize m src + GetSize m self + 3 ≤ fuel →
      ∃ m2, assign fuel m self src tmp fresh = .ok m2 self ∧
        CopyPost eq fuel m m2 self src xs) ∧
    (∀ self, (self :: tmp :: fresh).Nodup → (∀ a ∈ self :: tmp :: fresh, m.node a = none) →
      ∃ m2, ConstructCopy fuel m self src tmp fresh = .ok m2 () ∧
        CopyPost eq fuel m m2 self src xs) := by
  obtain ⟨ch, hi⟩ := Built_Inv hB
  have hVc := hi.1 src hsrc
  have hlen : (ch src).length ≤ fresh.length := by rw [← hVc.2]; exact hmem
  have hfl : 2 * (ch src).length + 3 ≤ fuel := by rw [← hVc.2]; exact hf
  have hxl : (vals (ch src)).length = (ch src).length := by simp [vals]
  have hx : xs = vals (ch src) := by
    rw [traverse_eval hVc.1 (by omega)] at hxs
    cases hxs; rfl
  subst hx
  refine ⟨?_, ?_⟩
  · intro self hl hne hnd hfresh hf2
    obtain ⟨m2, h1, h2, h3⟩ := BuildList_world fuel hi hl hsrc hne hnd hfresh hf2 hmem
    have hsrc_frame : ∀ b ∈ src :: addrs (ch src), m2.node b = m.node b := by
      intro b hb
      refine h3.1 b ?_ ?_ (fun e => IsList_live hVc.1 hb (hfresh b e))
      · rcases List.mem_cons.1 hb with e | e
        · rw [e]; exact Ne.symm hne
        · exact fun e2 => hi.2.1 src hsrc self hl (e2 ▸ e)
      · rcases List.mem_cons.1 hb with e | e
        · rw [e]; exact hi.2.1 self hl src hsrc
        · exact hi.2.2 src hsrc self hl (Ne.symm hne) b e
    refine ⟨m2, by simp [assign, h1], CopyPost_intro eq h2 hl hsrc hne ?_ ?_ (by omega) ?_
      (fun b hb => hsrc_frame b (Reaches_list hVc.1 hb))⟩
    · simp only [if_true]; exact vals_zip (by rw [hxl]; exact hlen)
    · simp only [Ne.symm hne, if_false]
    · exact h3.2 src (Ne.symm hne) (fun e => IsList_live hVc.1 (List.mem_cons_self _ _)
        (hfresh src e))
  · intro self hnd hfresh
    have hnd2 := List.nodup_cons.1 hnd
    have hs0 : m.node self = none := hfresh self (by simp)
    have hos : src ≠ self := fun e => IsList_live hVc.1 (List.mem_cons_self _ _) (e ▸ hs0)
    have hi1 := InvWith_add hi hs0
    have hfresh1 : ∀ a ∈ tmp :: fresh, (Construct m self).node a = none := by
      intro a ha
      have : a ≠ self := fun e => hnd2.1 (e ▸ ha)
      simp [this, hfresh a (by simp [ha])]
    obtain ⟨m2, h1, h2, h3⟩ := BuildList_world fuel hi1 (List.mem_cons_self _ _)
      (List.mem_cons_of_mem _ hsrc) (Ne.symm hos) hnd2.2 hfresh1
      (by simp only [GetSize, Construct_size, hos, if_false, if_true] at hf ⊢; omega)
      (by simpa only [GetSize, Construct_size, hos, if_false] using hmem)
    simp only [if_true] at h3
    have hsrc_frame : ∀ b ∈ src :: addrs (ch src), m2.node b = m.node b := by
      intro b hb
      have hbs : b ≠ self := fun e => IsList_live hVc.1 hb (e ▸ hs0)
      rw [h3.1 b hbs (by simp [addrs]) (fun e => IsList_live hVc.1 hb (by
        have := hfresh1 b e
        simpa [hbs] using this))]
      simp [hbs]
    refine ⟨m2, by simp [ConstructCopy, h1, ctorBody], CopyPost_intro eq h2
      (List.mem_cons_self _ _) (List.mem_cons_of_mem _ hsrc) (Ne.symm hos) ?_ ?_ (by omega) ?_
      (fun b hb => hsrc_frame b (Reaches_list hVc.1 hb))⟩
    · simp only [if_true, hos, if_false]; exact vals_zip (by rw [hxl]; exact hlen)
    · simp only [hos, if_false]
    · have := h3.2 src hos (fun e => IsList_live hVc.1 (List.mem_cons_self _ _) (by
        have := hfresh1 src e
        simpa [hos] using this))
      simpa [GetSize, hos] using this

/-- Witness of `copy_is_deep`: in the world of `exampleWorld` (the list `7` at address
`0`, an empty list at address `1`), the assignment `list1 = list0` and the construction of
a new list at address `2` as a copy of `list0`. -/
theorem copy_is_deep_witness :
    Built exampleWorld [1, 0] ∧ (0 : Addr) ∈ [(1 : Addr), 0] ∧
    traverse 8 exampleWorld 0 = .val [7] ∧
    GetSize exampleWorld 0 ≤ [(20 : Addr), 21].length ∧ 2 * GetSize exampleWorld 0 + 3 ≤ 8 ∧
    (∃ m2, assign 8 exampleWorld 1 0 100 [20, 21] = .ok m2 1 ∧
      CopyPost (fun (x y : Nat) => x == y) 8 exampleWorld m2 1 0 [7]) ∧
    (∃ m2, ConstructCopy 8 exampleWorld 2 0 100 [20, 21] = .ok m2 () ∧
      CopyPost (fun (x y : Nat) => x == y) 8 exampleWorld m2 2 0 [7]) :=
  have h := copy_is_deep (fun (x y : Nat) => x == y) exampleWorld_Built 0 (by simp) [7] 100
    [20, 21] 8 (by decide) (by decide) (by decide)
  ⟨exampleWorld_Built, by simp, by decide, by decide, by decide,
    h.1 1 (by simp) (by decide) (by decide)
      (by
        intro a ha
        simp only [List.mem_cons, List.mem_singleton, List.not_mem_nil, or_false] at ha
        rcases ha with rfl | rfl | rfl <;> decide)
      (by decide),
    h.2 2 (by decide)
      (by
        intro a ha
        simp only [List.mem_cons, List.mem_singleton, List.not_mem_nil, or_false] at ha
        rcases ha with rfl | rfl | rfl | rfl <;> decide)⟩

/-- C8 as stated fails for an element `==` that is not reflexive: the copy of the list
holding `7` iterates over `7` like its source, yet with `nanEq` as the element `==` the
copy does not compare `==` to the source. -/
theorem copy_compares_unequal :
    ConstructCopy 8 exampleWorld 2 0 100 [20, 21] = .ok exampleCopy () ∧
    traverse 8 exampleWorld 0 = .val [7] ∧ traverse 8 exampleCopy 2 = .val [7] ∧
    traverse 8 exampleCopy 0 = .val [7] ∧
    operator_eq nanEq 8 exampleCopy 2 0 = .val false :=
  ⟨rfl, by decide, by decide, by decide, by decide⟩

/-- C11 (lexicographic order): for two well-formed lists `a` and `b` with element sequences
`xs` and `ys`, over an element `<` that is a strict total order, `a < b` evaluates to a
boolean, which is true exactly when (i) at some index valid in both lists the elements
below it agree and the element of `a` is `<` the element of `b`, or (ii) `a` is strictly
shorter than `b` and agrees with `b` on all its indices.  In particular, when
`xs = [e0, e1, e2, e3]` and `ys = [e1, e2, e3]` with `e0 < e1` (as for `A = [0, 1, 2, 3]`
and `B = [1, 2, 3]`), `a < b` is true and `b < a` is false. -/
theorem operator_lt_lexicographic {T : Type} (lt : T → T → Bool) (hlt : StrictTotal lt)
    (m : Memory T) (a b : Addr) (na nb : List (Addr × T)) (fuel : Nat)
    (ha : IsList m a na) (hb : IsList m b nb)
    (hfa : na.length < fuel) (hfb : nb.length < fuel) :
    ∃ r, operator_lt lt fuel m a b = .val r ∧
      (r = true ↔
        (∃ (i : Nat) (x y : T), (vals na)[i]? = some x ∧ (vals nb)[i]? = some y ∧
          (vals na).take i = (vals nb).take i ∧ lt x y = true) ∨
        ((vals na).length < (vals nb).length ∧ (vals nb).take (vals na).length = vals na)) ∧
      (∀ e0 e1 e2 e3 : T, lt e0 e1 = true → vals na = [e0, e1, e2, e3] →
        vals nb = [e1, e2, e3] → r = true ∧ operator_lt lt fuel m b a = .val false) := by
  refine ⟨_, operator_lt_eval lt ha hb hfa hfb, lex_iff lt hlt _ _, ?_⟩
  intro e0 e1 e2 e3 h01 hxs hys
  rw [operator_lt_eval lt hb ha hfb hfa, hxs, hys]
  simp [lex, h01, hlt.weak.asymm h01]

/-- Witness of `operator_lt_lexicographic`: `A = [0, 1, 2, 3]` and `B = [1, 2, 3]`. -/
theorem operator_lt_lexicographic_witness :
    StrictTotal natLt ∧ IsList exampleAB 0 exampleA ∧ IsList exampleAB 1 exampleB ∧
    ∃ r, operator_lt natLt 5 exampleAB 0 1 = .val r ∧
      (r = true ↔
        (∃ (i : Nat) (x y : Nat), (vals exampleA)[i]? = some x ∧ (vals exampleB)[i]? = some y ∧
          (vals exampleA).take i = (vals exampleB).take i ∧ natLt x y = true) ∨
        ((vals exampleA).length < (vals exampleB).length ∧
          (vals exampleB).take (vals exampleA).length = vals exampleA)) ∧
      (∀ e0 e1 e2 e3 : Nat, natLt e0 e1 = true → vals exampleA = [e0, e1, e2, e3] →
        vals exampleB = [e1, e2, e3] → r = true ∧ operator_lt natLt 5 exampleAB 1 0 = .val false) :=
  ⟨natLt_total, by decide, by decide,
    operator_lt_lexicographic natLt natLt_total exampleAB 0 1 exampleA exampleB 5
      (by decide) (by decide) (by decide) (by decide)⟩

/-- C12 (strict weak order): over an element `<` that is a strict weak order, the list
`operator<` evaluates to a boolean on every pair of the well-formed lists `a`, `b`, `c`,
and as a relation on them it is irreflexive (`a < a` is false), transitive (`a < b` and
`b < c` give `a < c`), and its incomparability is transitive (if neither of `a < b`,
`b < a` holds and neither of `b < c`, `c < b`, then neither of `a < c`, `c < a`). -/
theorem operator_lt_strict_weak {T : Type} (lt : T → T → Bool) (hlt : StrictWeak lt)
    (m : Memory T) (a b c : Addr) (na nb nc : List (Addr × T)) (fuel : Nat)
    (ha : IsList m a na) (hb : IsList m b nb) (hc : IsList m c nc)
    (hfa : na.length < fuel) (hfb : nb.length < fuel) (hfc : nc.length < fuel) :
    (∀ x ∈ [a, b, c], ∀ y ∈ [a, b, c], ∃ r, operator_lt lt fuel m x y = .val r) ∧
    operator_lt lt fuel m a a = .val false ∧
    (operator_lt lt fuel m a b = .val true → operator_lt lt fuel m b c = .val true →
      operator_lt lt fuel m a c = .val true) ∧
    (operator_lt lt fuel m a b = .val false → operator_lt lt fuel m b a = .val false →
      operator_lt lt fuel m b c = .val false → operator_lt lt fuel m c b = .val false →
      operator_lt lt fuel m a c = .val false ∧ operator_lt lt fuel m c a = .val false) := by
  have hx : ∀ x ∈ [a, b, c], ∃ nx, IsList m x nx ∧ nx.length < fuel := by
    intro x hx
    simp only [List.mem_cons, List.mem_singleton, List.not_mem_nil, or_false] at hx
    rcases hx with rfl | rfl | rfl
    · exact ⟨na, ha, hfa⟩
    · exact ⟨nb, hb, hfb⟩
    · exact ⟨nc, hc, hfc⟩
  refine ⟨fun x hxm y hym => ?_, ?_, ?_, ?_⟩
  · obtain ⟨nx, h1, h2⟩ := hx x hxm
    obtain ⟨ny, h3, h4⟩ := hx y hym
    exact ⟨_, operator_lt_eval lt h1 h3 h2 h4⟩
  · rw [operator_lt_eval lt ha ha hfa hfa, lex_irrefl hlt.1]
  · rw [operator_lt_eval lt ha hb hfa hfb, operator_lt_eval lt hb hc hfb hfc,
      operator_lt_eval lt ha hc hfa hfc]
    intro h1 h2
    rw [lex_trans hlt _ _ _ (Eval.val.inj h1) (Eval.val.inj h2)]
  · rw [operator_lt_eval lt ha hb hfa hfb, operator_lt_eval lt hb hc hfb hfc,
      operator_lt_eval lt ha hc hfa hfc, operator_lt_eval lt hb ha hfb hfa,
      operator_lt_eval lt hc hb hfc hfb, operator_lt_eval lt hc ha hfc hfa]
    intro h1 h2 h3 h4
    have := lex_inc_trans hlt _ _ _ (Eval.val.inj h1) (Eval.val.inj h2) (Eval.val.inj h3)
      (Eval.val.inj h4)
    rw [this.1, this.2]
    exact ⟨rfl, rfl⟩

/-- Witness of `operator_lt_strict_weak`: the lists `A = [0, 1, 2, 3]`, `B = [1, 2, 3]` and
`A` again. -/
theorem operator_lt_strict_weak_witness :
    StrictWeak natLt ∧ IsList exampleAB 0 exampleA ∧ IsList exampleAB 1 exampleB ∧
    (∀ x ∈ [(0 : Addr), 1, 1], ∀ y ∈ [(0 : Addr), 1, 1],
      ∃ r, operator_lt natLt 5 exampleAB x y = .val r) ∧
    operator_lt natLt 5 exampleAB 0 0 = .val false ∧
    (operator_lt natLt 5 exampleAB 0 1 = .val true → operator_lt natLt 5 exampleAB 1 1 = .val true →
      operator_lt natLt 5 exampleAB 0 1 = .val true) ∧
    (operator_lt natLt 5 exampleAB 0 1 = .val false →
      operator_lt natLt 5 exampleAB 1 0 = .val false →
      operator_lt natLt 5 exampleAB 1 1 = .val false →
      operator_lt natLt 5 exampleAB 1 1 = .val false →
      operator_lt natLt 5 exampleAB 0 1 = .val false ∧
        operator_lt natLt 5 exampleAB 1 0 = .val false) :=
  ⟨natLt_total.weak, by decide, by decide,
    operator_lt_strict_weak natLt natLt_total.weak exampleAB 0 1 1 exampleA exampleB exampleB 5
      (by decide) (by decide) (by decide) (by decide) (by decide) (by decide)⟩

/-- C19 (derived comparisons): over an element `<` that is a strict total order and an
element `==` that is equality, for two well-formed lists `a` and `b` the comparisons
`a < b`, `a == b` and `b < a` evaluate to booleans of which exactly one is true; `a <= b`
(computed as `a < b || a == b`) evaluates to the negation of `b < a`, and `a >= b`
(computed as `b < a || b == a`) to the negation of `a < b`; `a > b` is `b < a`. -/
theorem derived_comparisons {T : Type} (eq lt : T → T → Bool) (hlt : StrictTotal lt)
    (heq : ∀ x y, eq x y = true ↔ x = y)
    (m : Memory T) (a b : Addr) (na nb : List (Addr × T)) (fuel : Nat)
    (ha : Valid m a na) (hb : Valid m b nb)
    (hfa : na.length < fuel) (hfb : nb.length < fuel) :
    ∃ lt_ab eq_ab lt_ba : Bool,
      operator_lt lt fuel m a b = .val lt_ab ∧ operator_eq eq fuel m a b = .val eq_ab ∧
      operator_lt lt fuel m b a = .val lt_ba ∧
      ((lt_ab = true ∧ eq_ab = false ∧ lt_ba = false) ∨
        (lt_ab = false ∧ eq_ab = true ∧ lt_ba = false) ∨
        (lt_ab = false ∧ eq_ab = false ∧ lt_ba = true)) ∧
      operator_le eq lt fuel m a b = .val (!lt_ba) ∧
      operator_ge eq lt fuel m a b = .val (!lt_ab) ∧
      operator_gt lt fuel m a b = .val lt_ba := by
  have h1 := operator_lt_eval lt ha.1 hb.1 hfa hfb
  have h2 := operator_lt_eval lt hb.1 ha.1 hfb hfa
  have h3 := operator_eq_eval eq ha hb hfa
  have h4 := operator_eq_eval eq hb ha hfb
  have hl : (vals na).length = na.length := by simp [vals]
  have hl2 : (vals nb).length = nb.length := by simp [vals]
  rw [← hl, ← hl2] at h3 h4
  have e3 := list_eq_value heq (vals na) (vals nb)
  have e4 := list_eq_value heq (vals nb) (vals na)
  generalize (decide ((vals na).length = (vals nb).length) &&
    (List.zipWith eq (vals na) (vals nb)).all id) = r3 at h3 e3
  generalize (decide ((vals nb).length = (vals na).length) &&
    (List.zipWith eq (vals nb) (vals na)).all id) = r4 at h4 e4
  have tri : (lex lt (vals na) (vals nb) = true ∧ r3 = false ∧ lex lt (vals nb) (vals na) = false) ∨
      (lex lt (vals na) (vals nb) = false ∧ r3 = true ∧ lex lt (vals nb) (vals na) = false) ∨
      (lex lt (vals na) (vals nb) = false ∧ r3 = false ∧ lex lt (vals nb) (vals na) = true) := by
    rcases lex_total hlt (vals na) (vals nb) with h | h | h
    · refine Or.inl ⟨h, ?_, lex_asymm hlt.weak h⟩
      cases r3 with
      | false => rfl
      | true => rw [e3.1 rfl, lex_irrefl hlt.1] at h; cases h
    · refine Or.inr (Or.inl ⟨?_, e3.2 h, ?_⟩)
      · rw [h, lex_irrefl hlt.1]
      · rw [h, lex_irrefl hlt.1]
    · refine Or.inr (Or.inr ⟨lex_asymm hlt.weak h, ?_, h⟩)
      cases r3 with
      | false => rfl
      | true => rw [e3.1 rfl, lex_irrefl hlt.1] at h; cases h
  have e34 : r4 = r3 := by
    cases r3 <;> cases r4 <;> simp_all
  refine ⟨_, _, _, h1, h3, h2, tri, ?_, ?_, ?_⟩
  · simp only [operator_le, h1, h3, Eval.andThen]
    rcases tri with ⟨t1, t2, t3⟩ | ⟨t1, t2, t3⟩ | ⟨t1, t2, t3⟩ <;> simp [t1, t2, t3]
  · simp only [operator_ge, h2, h4, Eval.andThen, e34]
    rcases tri with ⟨t1, t2, t3⟩ | ⟨t1, t2, t3⟩ | ⟨t1, t2, t3⟩ <;> simp [t1, t2, t3]
  · simp only [operator_gt, h2]

/-- Witness of `derived_comparisons`: `A = [0, 1, 2, 3]` and `B = [1, 2, 3]`. -/
theorem derived_comparisons_witness :
    StrictTotal natLt ∧ (∀ x y : Nat, (x == y) = true ↔ x = y) ∧
    Valid exampleAB 0 exampleA ∧ Valid exampleAB 1 exampleB ∧
    ∃ lt_ab eq_ab lt_ba : Bool,
      operator_lt natLt 5 exampleAB 0 1 = .val lt_ab ∧
      operator_eq (fun (x y : Nat) => x == y) 5 exampleAB 0 1 = .val eq_ab ∧
      operator_lt natLt 5 exampleAB 1 0 = .val lt_ba ∧
      ((lt_ab = true ∧ eq_ab = false ∧ lt_ba = false) ∨
        (lt_ab = false ∧ eq_ab = true ∧ lt_ba = false) ∨
        (lt_ab = false ∧ eq_ab = false ∧ lt_ba = true)) ∧
      operator_le (fun (x y : Nat) => x == y) natLt 5 exampleAB 0 1 = .val (!lt_ba) ∧
      operator_ge (fun (x y : Nat) => x == y) natLt 5 exampleAB 0 1 = .val (!lt_ab) ∧
      operator_gt natLt 5 exampleAB 0 1 = .val lt_ba :=
  ⟨natLt_total, natEq_iff, by decide, by decide,
    derived_comparisons (fun (x y : Nat) => x == y) natLt natLt_total natEq_iff exampleAB 0 1
      exampleA exampleB 5 (by decide) (by decide) (by decide) (by decide)⟩

/-- C13 (emptiness equivalence): for a list `L` satisfying the size invariant, `begin()`
and `end()` return cursors, and the three conditions `L.IsEmpty()`,
`L.begin() == L.end()` and `L.GetSize() == 0` are equivalent. -/
theorem emptiness_equivalence {T : Type} (m : Memory T) (l : Addr) (ns : List (Addr × T))
    (fuel : Nat) (h : Valid m l ns) (hf : ns.length < fuel) :
    ∃ b e, begin m l = .val b ∧ end_ fuel m l = .val e ∧
      (IsEmpty m l = true ↔ iter_eq b e = true) ∧
      (iter_eq b e = true ↔ GetSize m l = 0) ∧
      (IsEmpty m l = true ↔ GetSize m l = 0) := by
  refine ⟨_, _, begin_eval h.1, end_eval h.1 hf, ?_, ?_, ?_⟩
  · rw [iter_eq_iff]
    cases ns with
    | nil => simp [IsEmpty, h.2, headOr]
    | cons n rest => simp [IsEmpty, h.2, headOr]
  · rw [iter_eq_iff]
    cases ns with
    | nil => simp [GetSize, h.2, headOr]
    | cons n rest => simp [GetSize, h.2, headOr]
  · simp [IsEmpty, GetSize]

/-- Witness of `emptiness_equivalence`: the list `1, 2, 3, 4`. -/
theorem emptiness_equivalence_witness :
    Valid exampleMem 0 exampleChain ∧
    ∃ b e, begin exampleMem 0 = .val b ∧ end_ 5 exampleMem 0 = .val e ∧
      (IsEmpty exampleMem 0 = true ↔ iter_eq b e = true) ∧
      (iter_eq b e = true ↔ GetSize exampleMem 0 = 0) ∧
      (IsEmpty exampleMem 0 = true ↔ GetSize exampleMem 0 = 0) :=
  ⟨by decide, emptiness_equivalence exampleMem 0 exampleChain 5 (by decide) (by decide)⟩

/-- C14, counterexample: in the world of the two distinct lists at addresses `0` (holding
`7`) and `1` (empty), the cursors `end()` of the one and `end()` of the other compare
equal, and so do `end()` of the one and `begin()` of the other. -/
theorem end_cursors_compare_equal :
    Built exampleWorld [1, 0] ∧ (0 : Addr) ≠ 1 ∧
    end_ 3 exampleWorld 0 = .val none ∧ end_ 3 exampleWorld 1 = .val none ∧
    begin exampleWorld 1 = .val none ∧
    iter_eq (none : NodePtr) none = true ∧ iter_ne (none : NodePtr) none = false :=
  ⟨exampleWorld_Built, by decide, by decide, by decide, by decide, by decide, by decide⟩

/-- C14, amended (cursors into different lists): in every memory a program can build, for
two distinct live lists `A` and `B`, a cursor `a` obtained from `A` and a cursor `b`
obtained from `B` (`before_begin()`, `begin()`, an element position, or `end()`):
`a == b` is true exactly when `a == A.end()` and `b == B.end()`, that is when both are
past-the-end cursors, and `a != b` is its negation; so when `a` or `b` is `before_begin()`
or an element position, `a == b` is false and `a != b` is true, while `A.end() == B.end()`
is true. -/
theorem cursors_of_different_lists {T : Type} [Inhabited T] {m : Memory T} {ls : List Addr}
    (hB : Built m ls) (A B : Addr) (hA : A ∈ ls) (hBl : B ∈ ls) (hAB : A ≠ B)
    (a b : NodePtr) (ha : IsCursor m A a) (hb : IsCursor m B b) (fuel : Nat)
    (hfa : GetSize m A < fuel) (hfb : GetSize m B < fuel) :
    ∃ ea eb, end_ fuel m A = .val ea ∧ end_ fuel m B = .val eb ∧
      (iter_eq a b = true ↔ iter_eq a ea = true ∧ iter_eq b eb = true) ∧
      iter_ne a b = !(iter_eq a b) ∧
      (IsPosition m A a ∨ IsPosition m B b → iter_eq a b = false ∧ iter_ne a b = true) ∧
      iter_eq ea eb = true := by
  have hi := Built_Inv hB
  have hd := cursors_disjoint hi hA hBl hAB ha hb
  obtain ⟨ch, hv, _, _⟩ := hi
  have h1 := hv A hA
  have h2 := hv B hBl
  refine ⟨none, none, end_eval h1.1 (by rw [← h1.2]; exact hfa),
    end_eval h2.1 (by rw [← h2.2]; exact hfb), ?_, rfl, ?_, rfl⟩
  · simp only [iter_eq_iff]
    exact hd
  · intro hp
    have hne : ¬ (a = b) := by
      rw [hd]
      rintro ⟨e1, e2⟩
      rcases hp with hp | hp
      · exact IsPosition_ne_none hp e1
      · exact IsPosition_ne_none hp e2
    have : iter_eq a b = false := by
      cases e : iter_eq a b with
      | false => rfl
      | true => exact absurd ((iter_eq_iff a b).1 e) hne
    simp [iter_ne, this]

/-- Witness of `cursors_of_different_lists`: `before_begin()` of the list at `0` and
`end()` of the list at `1`. -/
theorem cursors_of_different_lists_witness :
    Built exampleWorld [1, 0] ∧ IsCursor exampleWorld 0 (before_begin 0) ∧
    IsCursor exampleWorld 1 none ∧
    ∃ ea eb, end_ 3 exampleWorld 0 = .val ea ∧ end_ 3 exampleWorld 1 = .val eb ∧
      (iter_eq (before_begin 0) none = true ↔
        iter_eq (before_begin 0) ea = true ∧ iter_eq none eb = true) ∧
      iter_ne (before_begin 0) none = !(iter_eq (before_begin 0) none) ∧
      (IsPosition exampleWorld 0 (before_begin 0) ∨ IsPosition exampleWorld 1 none →
        iter_eq (before_begin 0) none = false ∧ iter_ne (before_begin 0) none = true) ∧
      iter_eq ea eb = true :=
  ⟨exampleWorld_Built, Or.inl ⟨0, rfl, Reaches.here 0⟩, Or.inr (Or.inr ⟨3, by decide⟩),
    cursors_of_different_lists exampleWorld_Built 0 1 (by decide) (by decide) (by decide)
      (before_begin 0) none (Or.inl ⟨0, rfl, Reaches.here 0⟩) (Or.inr (Or.inr ⟨3, by decide⟩)) 3
      (by decide) (by decide)⟩

/-- C15 (swap): in every memory a program can build, for live lists `a` and `b` with
element sequences `xs` and `ys`, `a.swap(b)`, which is also what the free function
`swap(a, b)` does, returns; afterwards the traversal of `a` is `ys` with
`GetSize() == |ys|` and the traversal of `b` is `xs` with `GetSize() == |xs|`; and a
second `swap(a, b)` gives back the memory of before the first, so both lists are as they
were, element-wise and size-wise. -/
theorem swap_exchanges {T : Type} [Inhabited T] {m : Memory T} {ls : List Addr}
    (hB : Built m ls) (a b : Addr) (ha : a ∈ ls) (hb : b ∈ ls) (xs ys : List T) (fuel : Nat)
    (hxs : traverse fuel m a = .val xs) (hys : traverse fuel m b = .val ys)
    (hfa : 2 * GetSize m a + 2 ≤ fuel) (hfb : 2 * GetSize m b + 2 ≤ fuel) :
    ∃ m2, swap m a b = .ok m2 () ∧ swap_free m a b = .ok m2 () ∧
      traverse fuel m2 a = .val ys ∧ GetSize m2 a = ys.length ∧
      traverse fuel m2 b = .val xs ∧ GetSize m2 b = xs.length ∧
      swap_free m2 a b = .ok m () ∧
      traverse fuel m a = .val xs ∧ GetSize m a = xs.length ∧
      traverse fuel m b = .val ys ∧ GetSize m b = ys.length := by
  obtain ⟨ch, hi⟩ := Built_Inv hB
  have hVa := hi.1 a ha
  have hVb := hi.1 b hb
  have hla : 2 * (ch a).length + 2 ≤ fuel := by rw [← hVa.2]; exact hfa
  have hlb : 2 * (ch b).length + 2 ≤ fuel := by rw [← hVb.2]; exact hfb
  have ex : xs = vals (ch a) := by
    rw [traverse_eval hVa.1 hla] at hxs
    cases hxs; rfl
  have ey : ys = vals (ch b) := by
    rw [traverse_eval hVb.1 hlb] at hys
    cases hys; rfl
  have lx : xs.length = (ch a).length := by rw [ex]; simp [vals]
  have ly : ys.length = (ch b).length := by rw [ey]; simp [vals]
  obtain ⟨m2, ch2, hsw, hi2, e1, e2⟩ := swap_world hi ha hb
  have hVa2 := hi2.1 a ha
  have hVb2 := hi2.1 b hb
  rw [e1] at hVa2
  rw [e2] at hVb2
  refine ⟨m2, hsw, hsw, ?_, ?_, ?_, ?_, swap_swap hsw, hxs, ?_, hys, ?_⟩
  · rw [traverse_eval hVa2.1 hlb, ey]
  · rw [GetSize, hVa2.2, ly]
  · rw [traverse_eval hVb2.1 hla, ex]
  · rw [GetSize, hVb2.2, lx]
  · rw [GetSize, hVa.2, lx]
  · rw [GetSize, hVb.2, ly]

/-- Witness of `swap_exchanges`: the list holding `7` and an empty list. -/
theorem swap_exchanges_witness :
    Built exampleWorld [1, 0] ∧ traverse 4 exampleWorld 0 = .val [7] ∧
    traverse 4 exampleWorld 1 = .val [] ∧
    ∃ m2, swap exampleWorld 0 1 = .ok m2 () ∧ swap_free exampleWorld 0 1 = .ok m2 () ∧
      traverse 4 m2 0 = .val [] ∧ GetSize m2 0 = ([] : List Nat).length ∧
      traverse 4 m2 1 = .val [7] ∧ GetSize m2 1 = [7].length ∧
      swap_free m2 0 1 = .ok exampleWorld () ∧
      traverse 4 exampleWorld 0 = .val [7] ∧ GetSize exampleWorld 0 = [7].length ∧
      traverse 4 exampleWorld 1 = .val [] ∧ GetSize exampleWorld 1 = ([] : List Nat).length :=
  ⟨exampleWorld_Built, by decide, by decide,
    swap_exchanges exampleWorld_Built 0 1 (by decide) (by decide) [7] [] 4 (by decide) (by decide)
      (by decide) (by decide)⟩

/-- C16 (`Clear`): for a list `L` heading a finite null-terminated chain `ns`, `Clear()`
returns (with fuel above `|ns|`); afterwards `GetSize() == 0`, `IsEmpty()` is true, the
forward link of the sentinel is null, `begin() == end()`, the traversal is empty and every
node of the chain is released; and a second `Clear()` returns with the memory unchanged. -/
theorem Clear_empties {T : Type} (m : Memory T) (l : Addr) (ns : List (Addr × T)) (fuel : Nat)
    (h : IsList m l ns) (hf : ns.length < fuel) :
    ∃ m2, Clear fuel m l = .ok m2 () ∧ GetSize m2 l = 0 ∧ IsEmpty m2 l = true ∧
      (∃ hd, m2.node l = some hd ∧ hd.next_node = none) ∧
      (∃ b e, begin m2 l = .val b ∧ end_ fuel m2 l = .val e ∧ iter_eq b e = true) ∧
      traverse (fuel + 1) m2 l = .val [] ∧
      (∀ x ∈ addrs ns, m2.node x = none) ∧
      Clear fuel m2 l = .ok m2 () := by
  obtain ⟨m2, hc, hV, hdead, _⟩ := Clear_list fuel h hf
  obtain ⟨hv, hs, _⟩ := IsList_sentinel hV.1
  have hf0 : 0 < fuel := by omega
  refine ⟨m2, hc, hV.2, by simp [IsEmpty, hV.2], ⟨_, hs, rfl⟩,
    ⟨_, _, begin_eval hV.1, end_eval hV.1 (by simpa using hf0), rfl⟩,
    traverse_eval hV.1 (by simp; omega), hdead, ?_⟩
  obtain ⟨f, rfl⟩ : ∃ f, fuel = f + 1 := ⟨fuel - 1, by omega⟩
  simp only [Clear, hs, headOr, Outcome.ok.injEq, and_true]
  apply Memory.ext
  · intro x; rfl
  · intro x
    by_cases e : x = l
    · simp [e, hV.2]
    · simp [e]

/-- Witness of `Clear_empties`: clearing the list `1, 2, 3, 4`. -/
theorem Clear_empties_witness :
    IsList exampleMem 0 exampleChain ∧
    ∃ m2, Clear 5 exampleMem 0 = .ok m2 () ∧ GetSize m2 0 = 0 ∧ IsEmpty m2 0 = true ∧
      (∃ hd, m2.node 0 = some hd ∧ hd.next_node = none) ∧
      (∃ b e, begin m2 0 = .val b ∧ end_ 5 m2 0 = .val e ∧ iter_eq b e = true) ∧
      traverse (5 + 1) m2 0 = .val [] ∧
      (∀ x ∈ addrs exampleChain, m2.node x = none) ∧
      Clear 5 m2 0 = .ok m2 () :=
  ⟨by decide, Clear_empties exampleMem 0 exampleChain 5 (by decide) (by decide)⟩

/-- C17 (insert/erase round trip): for a well-formed list `L` with chain `ns`, the cursor
`p` of index `k ≤ |ns|` (`before_begin()` for `k = 0`, the `k`-th element otherwise), a
value `v` and a fresh address returned by `new`: `c = L.InsertAfter(p, v)` returns, then
`r = L.EraseAfter(p)` returns, the chain of `L` is again `ns`, so its traversal and
`GetSize()` are what they were before, and `r` is the cursor that followed `p` before the
calls, which is `end()` when `p` was the last position.  For `p = before_begin()`:
`PushFront(v)` then `PopFront()` return and restore the chain, traversal and size. -/
theorem insert_erase_round_trip {T : Type} (m : Memory T) (self : Addr)
    (ns : List (Addr × T)) (k : Nat) (v : T) (a : Addr) (fuel : Nat)
    (hL : Valid m self ns) (hk : k ≤ ns.length) (ha : m.node a = none)
    (hf : 2 * ns.length + 2 ≤ fuel) :
    (∃ m2 c m3 r, InsertAfter m self (cursorAt self ns k) v (some a) = .ok m2 c ∧
      EraseAfter m2 self (cursorAt self ns k) = .ok m3 r ∧
      Valid m3 self ns ∧
      traverse fuel m self = .val (vals ns) ∧ traverse fuel m3 self = .val (vals ns) ∧
      GetSize m3 self = GetSize m self ∧
      iter_next m (cursorAt self ns k) = .val r ∧
      (k = ns.length → end_ fuel m3 self = .val r)) ∧
    (∃ m2 m3, PushFront m self v (some a) = .ok m2 () ∧ PopFront m2 self = .ok m3 () ∧
      Valid m3 self ns ∧ traverse fuel m3 self = .val (vals ns) ∧
      GetSize m3 self = GetSize m self) := by
  constructor
  · obtain ⟨m2, m3, h1, h2, h3, hV⟩ := InsertAfter_EraseAfter_list v hL hk ha
    refine ⟨m2, _, m3, _, h1, h2, hV, traverse_eval hL.1 hf, traverse_eval hV.1 hf, ?_, h3, ?_⟩
    · rw [GetSize, GetSize, hV.2, hL.2]
    · intro e
      rw [e, List.drop_length, end_eval hV.1 (by omega)]
      rfl
  · obtain ⟨m2, h1, _, hV2, _⟩ := PushFront_list v hL ha
    obtain ⟨m3, h2, _, hV3, _⟩ := PopFront_list hV2
    exact ⟨m2, m3, h1, h2, hV3, traverse_eval hV3.1 hf, by rw [GetSize, GetSize, hV3.2, hL.2]⟩

/-- Witness of `insert_erase_round_trip`: inserting `9` after the second element of
`1, 2, 3, 4` and erasing it again. -/
theorem insert_erase_round_trip_witness :
    Valid exampleMem 0 exampleChain ∧ exampleMem.node 50 = none ∧
    (∃ m2 c m3 r, InsertAfter exampleMem 0 (cursorAt 0 exampleChain 2) 9 (some 50) = .ok m2 c ∧
      EraseAfter m2 0 (cursorAt 0 exampleChain 2) = .ok m3 r ∧
      Valid m3 0 exampleChain ∧
      traverse 10 exampleMem 0 = .val (vals exampleChain) ∧
      traverse 10 m3 0 = .val (vals exampleChain) ∧
      GetSize m3 0 = GetSize exampleMem 0 ∧
      iter_next exampleMem (cursorAt 0 exampleChain 2) = .val r ∧
      (2 = exampleChain.length → end_ 10 m3 0 = .val r)) ∧
    (∃ m2 m3, PushFront exampleMem 0 9 (some 50) = .ok m2 () ∧ PopFront m2 0 = .ok m3 () ∧
      Valid m3 0 exampleChain ∧ traverse 10 m3 0 = .val (vals exampleChain) ∧
      GetSize m3 0 = GetSize exampleMem 0) :=
  ⟨by decide, by decide,
    insert_erase_round_trip exampleMem 0 exampleChain 2 9 50 10 (by decide) (by decide)
      (by decide) (by decide)⟩

/-- C18 (atomicity on allocation failure): for a well-formed list `L` with chain `ns`:
when `new` fails, `PushFront(v)` and `InsertAfter(p, v)`, for every position `p` of `L`,
throw `std::bad_alloc` with the memory untouched; and copy assignment `L = rhs` from
another well-formed list with chain `nc`, when `new` succeeds `|fresh| < |nc|` times and
then fails, throws `std::bad_alloc` with every node of the memory as before: the chain
of `L`, its traversal and its `GetSize()` are what they were before the call, and so is
`rhs`. -/
theorem failed_allocation_atomic {T : Type} [Inhabited T] (m : Memory T) (self : Addr)
    (ns : List (Addr × T)) (v : T) (k : Nat) (rhs : Addr) (nc : List (Addr × T)) (tmp : Addr)
    (fresh : List Addr) (fuel : Nat)
    (hL : Valid m self ns) (hk : k ≤ ns.length) (hR : Valid m rhs nc) (hne : self ≠ rhs)
    (hnd : (tmp :: fresh).Nodup) (hfresh : ∀ x ∈ tmp :: fresh, m.node x = none)
    (hfail : fresh.length < nc.length) (hf : 2 * nc.length + 2 * ns.length + 3 ≤ fuel) :
    PushFront m self v none = .bad_alloc m ∧
    InsertAfter m self (cursorAt self ns k) v none = .bad_alloc m ∧
    traverse fuel m self = .val (vals ns) ∧
    ∃ m2, assign fuel m self rhs tmp fresh = .bad_alloc m2 ∧
      (∀ x, m2.node x = m.node x) ∧
      Valid m2 self ns ∧ traverse fuel m2 self = .val (vals ns) ∧
      GetSize m2 self = GetSize m self ∧
      IsList m2 rhs nc ∧ traverse fuel m2 rhs = .val (vals nc) := by
  obtain ⟨hv, hs, _⟩ := IsList_sentinel hL.1
  obtain ⟨p, pv, _, hc, _, _, hp, _⟩ :=
    InsertAfter_list v hL hk (hfresh tmp (List.mem_cons_self _ _))
  refine ⟨by simp [PushFront, hs], by rw [hc]; simp [InsertAfter, hp],
    traverse_eval hL.1 (by omega), ?_⟩
  obtain ⟨m2, hb, hpost, _, _⟩ := BuildList_list fuel hL.1 hR.1 hne
    (hfresh tmp (List.mem_cons_self _ _)) hnd
    (fun x hx => hfresh x (List.mem_cons_of_mem _ hx)) (by omega)
  have hnot : ¬ nc.length ≤ fresh.length := by omega
  simp only [hnot, if_false] at hb hpost
  have hL2 : IsList m2 self ns := IsList_frame hL.1 (hpost.1 self) (fun x _ => hpost.1 x)
  have hR2 : IsList m2 rhs nc := IsList_frame hR.1 (hpost.1 rhs) (fun x _ => hpost.1 x)
  refine ⟨m2, by simp [assign, hb], hpost.1, ⟨hL2, by rw [hpost.2]; exact hL.2⟩,
    traverse_eval hL2 (by omega), by rw [GetSize, GetSize, hpost.2], hR2,
    traverse_eval hR2 (by omega)⟩

/-- Witness of `failed_allocation_atomic`: `B = A` for `A = [0, 1, 2, 3]` and
`B = [1, 2, 3]` when the third allocation fails. -/
theorem failed_allocation_atomic_witness :
    Valid exampleAB 1 exampleB ∧ Valid exampleAB 0 exampleA ∧
    ((100 : Addr) :: [30, 31]).Nodup ∧ (∀ x ∈ (100 : Addr) :: [30, 31], exampleAB.node x = none) ∧
    PushFront exampleAB 1 9 none = .bad_alloc exampleAB ∧
    InsertAfter exampleAB 1 (cursorAt 1 exampleB 2) 9 none = .bad_alloc exampleAB ∧
    traverse 17 exampleAB 1 = .val (vals exampleB) ∧
    ∃ m2, assign 17 exampleAB 1 0 100 [30, 31] = .bad_alloc m2 ∧
      (∀ x, m2.node x = exampleAB.node x) ∧
      Valid m2 1 exampleB ∧ traverse 17 m2 1 = .val (vals exampleB) ∧
      GetSize m2 1 = GetSize exampleAB 1 ∧
      IsList m2 0 exampleA ∧ traverse 17 m2 0 = .val (vals exampleA) :=
  have hfresh : ∀ x ∈ (100 : Addr) :: [30, 31], exampleAB.node x = none := by
    intro x hx
    simp only [List.mem_cons, List.mem_singleton, List.not_mem_nil, or_false] at hx
    rcases hx with rfl | rfl | rfl <;> decide
  ⟨by decide, by decide, by decide, hfresh,
    failed_allocation_atomic exampleAB 1 exampleB 9 2 0 exampleA 100 [30, 31] 17 (by decide)
      (by decide) (by decide) (by decide) (by decide) hfresh (by decide) (by decide)⟩

/-- C20 (equality stays in range): for two lists `a` and `b` satisfying the size
invariant, `a == b` evaluates to a boolean, never to undefined behaviour.  The traced
evaluation computes the same result; when the sizes differ it returns false without
touching a cursor into `b`; and every cursor into `b` that the element-wise walk
dereferences or advances is an element position of `b`, of an index below
`b.GetSize()`, never `end()`, so that the dereference and the advance are defined. -/
theorem operator_eq_in_range {T : Type} (eq : T → T → Bool) (m : Memory T) (a b : Addr)
    (na nb : List (Addr × T)) (fuel : Nat)
    (ha : Valid m a na) (hb : Valid m b nb) (hf : na.length < fuel) :
    (operator_eq_trace eq fuel m a b).1 = operator_eq eq fuel m a b ∧
    (∃ r, operator_eq eq fuel m a b = .val r) ∧
    (GetSize m a ≠ GetSize m b →
      operator_eq eq fuel m a b = .val false ∧ (operator_eq_trace eq fuel m a b).2 = []) ∧
    (∀ c ∈ (operator_eq_trace eq fuel m a b).2,
      (∃ i, i < GetSize m b ∧ cursorAt b nb (i + 1) = c) ∧
      (∀ f e, end_ f m b = .val e → iter_ne c e = true) ∧
      (∃ y, iter_deref m c = .val y) ∧ (∃ n, iter_next m c = .val n)) := by
  refine ⟨operator_eq_trace_fst eq fuel m a b, ⟨_, operator_eq_eval eq ha hb hf⟩, ?_, ?_⟩
  · intro hne
    simp [operator_eq, operator_eq_trace, hne]
  · intro c hc
    by_cases hs : GetSize m a = GetSize m b
    · have hl : na.length ≤ nb.length := by
        rw [GetSize, GetSize, ha.2, hb.2] at hs
        omega
      simp only [operator_eq_trace, hs, if_true, begin_eval ha.1, begin_eval hb.1,
        end_eval ha.1 hf, Eval.andThenLog, List.nil_append] at hc
      obtain ⟨x, hx, rfl⟩ := std_equal_trace_mem eq fuel ha.1.2 hb.1.2 hl c hc
      have hx2 := hx
      simp only [addrs, List.mem_map] at hx2
      obtain ⟨n, hn, hnx⟩ := hx2
      obtain ⟨i, hi, hin⟩ := List.getElem_of_mem hn
      have hlive := Seg_live hb.1.2 hx
      refine ⟨⟨i, by rw [GetSize, hb.2]; exact hi, ?_⟩, ?_, ?_, ?_⟩
      · simp only [cursorAt, Nat.succ_ne_zero, if_false, Nat.add_sub_cancel,
          List.getElem?_eq_getElem hi, Option.map_some', hin, hnx]
      · intro f e he
        rw [end_val he]
        simp [iter_ne, iter_eq]
      · cases hnode : m.node x with
        | none => exact absurd hnode hlive
        | some nd => exact ⟨nd.value, by simp [iter_deref, hnode]⟩
      · cases hnode : m.node x with
        | none => exact absurd hnode hlive
        | some nd => exact ⟨nd.next_node, by simp [iter_next, hnode]⟩
    · simp [operator_eq_trace, hs] at hc

/-- Witness of `operator_eq_in_range`: the list `1, 2, 3, 4` compared with itself. -/
theorem operator_eq_in_range_witness :
    Valid exampleMem 0 exampleChain ∧
    (operator_eq_trace (fun (x y : Nat) => x == y) 5 exampleMem 0 0).1 =
      operator_eq (fun (x y : Nat) => x == y) 5 exampleMem 0 0 ∧
    (∃ r, operator_eq (fun (x y : Nat) => x == y) 5 exampleMem 0 0 = .val r) ∧
    (GetSize exampleMem 0 ≠ GetSize exampleMem 0 →
      operator_eq (fun (x y : Nat) => x == y) 5 exampleMem 0 0 = .val false ∧
        (operator_eq_trace (fun (x y : Nat) => x == y) 5 exampleMem 0 0).2 = []) ∧
    (∀ c ∈ (operator_eq_trace (fun (x y : Nat) => x == y) 5 exampleMem 0 0).2,
      (∃ i, i < GetSize exampleMem 0 ∧ cursorAt 0 exampleChain (i + 1) = c) ∧
      (∀ f e, end_ f exampleMem 0 = .val e → iter_ne c e = true) ∧
      (∃ y, iter_deref exampleMem c = .val y) ∧ (∃ n, iter_next exampleMem c = .val n)) :=
  ⟨by decide,
    operator_eq_in_range (fun (x y : Nat) => x == y) exampleMem 0 0 exampleChain exampleChain 5
      (by decide) (by decide) (by decide)⟩

end SingleLinkedList
